import Mathlib

/-!
# regoref: the order-preserving mapping, its YAML node codec and the per-file run

A shallow embedding of package `regoref` (`orderedmap.go`, `refactor.go`), of the
transforms of `cmd/fmt` and `cmd/migrate`, and of `internal/metadata`.

* A Go `[]string` is a `List String`; `slices.DeleteFunc`, `slices.Index` and the
  `append` of sub-slices are the corresponding list operations.  Where a loop
  ranges over a slice that is changed in place (`pruneEmptyValues`), the backing
  array is modelled as well.
* An allocated Go `map[string]any` is an association list read by first match
  (`mapGet`), written by `mapSet` and shrunk by `mapDelete`.  `OrderedMap` is the
  struct whose field `data` holds an allocated map, which is what `UnmarshalYAML`
  leaves behind; its `Set` and `InsertAfter` are the methods on such a receiver.
  `GoOrderedMap` is the struct whose field `data` may also be the nil map, as in
  the zero value `OrderedMap{}`: reading the nil map finds no key, writing to
  it panics.
* A Go `any` is the sum type `Value`: one constructor for every dynamic type the
  code switches on, and `other` for every remaining dynamic type.  A `*OrderedMap`
  is a non-nil pointer to a tree (no sharing, no cycles).
* File contents are lists of bytes, written `List Char`.
* Library code outside the repository is a parameter: `yaml.Node.Decode` and
  `fmt.Sprintf("%v", _)` are the fields of `YamlLib`, the YAML text parser and
  emitter those of `TextLib`, `mapstructure.Decode` and the iteration order of a Go
  map those of `MigrateLib`.  The regular expression of `refactor.go` and the
  comparison function of `sortAliases` are modelled in full.
* A Go function that may return an error or abort with a panic returns a `Res`.
-/

namespace Regoref

/-! ## Data model -/

mutual
/-- The dynamic values (`any`) stored in an `OrderedMap`. -/
inductive Value where
  /-- `*OrderedMap` -/
  | omap (m : OrderedMap)
  /-- `[]any` -/
  | seq (xs : List Value)
  /-- `[]string` -/
  | strs (xs : List String)
  /-- `string` -/
  | str (s : String)
  /-- `int` -/
  | int (n : Int)
  /-- `int64` -/
  | int64 (n : Int)
  /-- `int32` -/
  | int32 (n : Int)
  /-- `float64`, as its IEEE-754 bit pattern -/
  | float64 (bits : Nat)
  /-- `float32`, as its IEEE-754 bit pattern -/
  | float32 (bits : Nat)
  /-- `bool` -/
  | bool (b : Bool)
  /-- the nil interface value -/
  | null
  /-- a value of any other dynamic type; `typeName` is what `%T` prints -/
  | other (typeName : String)
/-- `type OrderedMap struct { keys []string; data map[string]any }` with an
allocated map in `data` (the struct with a map that may be nil is `GoOrderedMap`). -/
inductive OrderedMap where
  | mk (keys : List String) (data : List (String × Value))
end

/-- The field `keys`. -/
def OrderedMap.keys : OrderedMap → List String
  | .mk ks _ => ks

/-- The field `data`. -/
def OrderedMap.data : OrderedMap → List (String × Value)
  | .mk _ d => d

@[simp] theorem OrderedMap.keys_mk (ks : List String) (d : List (String × Value)) :
    (OrderedMap.mk ks d).keys = ks := rfl

@[simp] theorem OrderedMap.data_mk (ks : List String) (d : List (String × Value)) :
    (OrderedMap.mk ks d).data = d := rfl

theorem OrderedMap.eta (m : OrderedMap) : OrderedMap.mk m.keys m.data = m := by
  cases m; rfl

/-! ## Go maps and slices -/

/-- Map read `d[key]`, with the comma-ok result as an `Option`. -/
def mapGet : List (String × Value) → String → Option Value
  | [], _ => none
  | (k, v) :: rest, key => if k = key then some v else mapGet rest key

/-- Map write `d[key] = value`. -/
def mapSet : List (String × Value) → String → Value → List (String × Value)
  | [], key, value => [(key, value)]
  | (k, v) :: rest, key, value =>
    if k = key then (k, value) :: rest else (k, v) :: mapSet rest key value

/-- Map removal `delete(d, key)`. -/
def mapDelete (d : List (String × Value)) (key : String) : List (String × Value) :=
  d.filter (fun p => !(p.1 == key))

/-- The key set of a map. -/
def mapKeys (d : List (String × Value)) : List String :=
  d.map Prod.fst

/-- Go's `slices.Index`: the first position of `v`, or `-1`. -/
def slicesIndex : List String → String → Int
  | [], _ => -1
  | x :: xs, v =>
    if x = v then 0
    else if slicesIndex xs v = -1 then -1 else slicesIndex xs v + 1

/-- Go's `slices.DeleteFunc(s, func(k) bool { return k == key })`. -/
def deleteKey (s : List String) (key : String) : List String :=
  s.filter (fun k => !(k == key))

/-! ## OrderedMap operations (orderedmap.go, lines 17-56) -/

/-- `func (m *OrderedMap) Get(key string) (any, bool)` -/
def OrderedMap.Get (m : OrderedMap) (key : String) : Value × Bool :=
  match mapGet m.data key with
  | some val => (val, true)
  | none => (Value.null, false)

/-- `func (m *OrderedMap) Set(key string, value any)` on a receiver whose map is
allocated: the write of line 26 succeeds.  `GoOrderedMap.Set` is the method on any
receiver. -/
def OrderedMap.Set (m : OrderedMap) (key : String) (value : Value) : OrderedMap :=
  let keys := if (m.Get key).2 then m.keys else m.keys ++ [key]
  OrderedMap.mk keys (mapSet m.data key value)

/-- `func (om *OrderedMap) InsertAfter(afterKey, key string, value any)` on a
receiver whose map is allocated: the write of line 41 succeeds.
`GoOrderedMap.InsertAfter` is the method on any receiver. -/
def OrderedMap.InsertAfter (om : OrderedMap) (afterKey key : String) (value : Value) :
    OrderedMap :=
  let keys := deleteKey om.keys key
  let index := slicesIndex keys afterKey
  let keys :=
    if index = -1 then keys ++ [key]
    else keys.take (index.toNat + 1) ++ ([key] ++ keys.drop (index.toNat + 1))
  OrderedMap.mk keys (mapSet om.data key value)

/-- `func (om *OrderedMap) MoveAfter(afterKey, key string)` on a receiver whose map
is allocated. -/
def OrderedMap.MoveAfter (om : OrderedMap) (afterKey key : String) : OrderedMap :=
  if (om.Get key).2 then om.InsertAfter afterKey key (om.Get key).1 else om

/-- `func (om *OrderedMap) Remove(key string)` on a receiver whose map is
allocated. -/
def OrderedMap.Remove (om : OrderedMap) (key : String) : OrderedMap :=
  OrderedMap.mk (deleteKey om.keys key) (mapDelete om.data key)

/-! ## The struct with a map that may be nil (orderedmap.go, lines 12-56) -/

/-- `type OrderedMap struct { keys []string; data map[string]any }` as Go holds it:
`data` is `none` for the nil map and `some d` for an allocated map. -/
structure GoOrderedMap where
  keys : List String
  data : Option (List (String × Value))

/-- The zero value `OrderedMap{}`, which `var om OrderedMap` declares: no keys
and the nil map. -/
def GoOrderedMap.zero : GoOrderedMap :=
  { keys := [], data := none }

/-- The struct with the key sequence of `m` and the allocated map of `m`. -/
def GoOrderedMap.alloc (m : OrderedMap) : GoOrderedMap :=
  { keys := m.keys, data := some m.data }

/-- What code that only reads the struct sees: a read of the nil map finds no key,
as a read of an allocated map without entries does. -/
def GoOrderedMap.view (m : GoOrderedMap) : OrderedMap :=
  OrderedMap.mk m.keys (m.data.getD [])

/-- The run-time panic of a write `d[key] = value` to the nil map. -/
def nilMapPanic : String :=
  "assignment to entry in nil map"

/-- `func (m *OrderedMap) Get(key string) (any, bool)`: the read `m.data[key]`
finds nothing in the nil map. -/
def GoOrderedMap.Get (m : GoOrderedMap) (key : String) : Value × Bool :=
  match m.data with
  | none => (Value.null, false)
  | some d =>
    match mapGet d key with
    | some val => (val, true)
    | none => (Value.null, false)

/-- `func (m *OrderedMap) Set(key string, value any)`: the receiver after the call
and the panic that ended it (`none` when the call returned).  The key is appended
in line 24 before the write of line 26, which panics on the nil map. -/
def GoOrderedMap.Set (m : GoOrderedMap) (key : String) (value : Value) :
    GoOrderedMap × Option String :=
  let keys := if (m.Get key).2 then m.keys else m.keys ++ [key]
  match m.data with
  | none => ({ keys := keys, data := none }, some nilMapPanic)
  | some d => ({ keys := keys, data := some (mapSet d key value) }, none)

/-- `func (om *OrderedMap) InsertAfter(afterKey, key string, value any)`: the
receiver after the call and the panic that ended it (`none` when the call
returned).  The key sequence is rebuilt in lines 30-40 before the write of line 41,
which panics on the nil map. -/
def GoOrderedMap.InsertAfter (om : GoOrderedMap) (afterKey key : String) (value : Value) :
    GoOrderedMap × Option String :=
  let keys := deleteKey om.keys key
  let index := slicesIndex keys afterKey
  let keys :=
    if index = -1 then keys ++ [key]
    else keys.take (index.toNat + 1) ++ ([key] ++ keys.drop (index.toNat + 1))
  match om.data with
  | none => ({ keys := keys, data := none }, some nilMapPanic)
  | some d => ({ keys := keys, data := some (mapSet d key value) }, none)

/-- `func (om *OrderedMap) MoveAfter(afterKey, key string)`: the receiver after the
call and the panic that ended it (`none` when the call returned). -/
def GoOrderedMap.MoveAfter (om : GoOrderedMap) (afterKey key : String) :
    GoOrderedMap × Option String :=
  if (om.Get key).2 then om.InsertAfter afterKey key (om.Get key).1 else (om, none)

/-- `func (om *OrderedMap) Remove(key string)`: `delete` on the nil map does
nothing. -/
def GoOrderedMap.Remove (om : GoOrderedMap) (key : String) : GoOrderedMap :=
  { keys := deleteKey om.keys key, data := om.data.map (fun d => mapDelete d key) }

/-! ## YAML nodes and the library boundary -/

/-- The node kinds of `yaml.v3` (`yaml.Kind`); `zero` is the kind of a zero `Node`. -/
inductive Kind where
  | zero
  | DocumentNode
  | SequenceNode
  | MappingNode
  | ScalarNode
  | AliasNode
  deriving DecidableEq, Repr

/-- The fields of `yaml.Node` the code reads and writes: `Kind`, `Tag`, `Value`
and `Content`. -/
inductive Node where
  | mk (kind : Kind) (tag : String) (value : String) (content : List Node)

/-- The field `Kind`. -/
def Node.kind : Node → Kind
  | .mk k _ _ _ => k

/-- The field `Tag`. -/
def Node.tag : Node → String
  | .mk _ t _ _ => t

/-- The field `Value`. -/
def Node.value : Node → String
  | .mk _ _ v _ => v

/-- The field `Content`. -/
def Node.content : Node → List Node
  | .mk _ _ _ c => c

/-- The library functions the codec calls; they live outside the repository. -/
structure YamlLib where
  /-- `keyNode.Decode(&key)` with `key` of type `string` -/
  decodeString : Node → Except String String
  /-- `node.Decode(&value)` with `value` of type `any` -/
  decodeAny : Node → Except String Value
  /-- `fmt.Sprintf("%v", v)` for a scalar `v` -/
  sprintV : Value → String

/-- The outcome of a Go call of type `(T, error)`: a value, a returned non-nil
error, or a panic. -/
inductive Res (α : Type) where
  | ok (a : α)
  | err (e : String)
  | panic (msg : String)

/-- Map index expression `d[key]`: the nil interface value when `key` is absent. -/
def mapIndex (d : List (String × Value)) (key : String) : Value :=
  (mapGet d key).getD Value.null

theorem mapGet_sizeOf {d : List (String × Value)} {k : String} {v : Value}
    (h : mapGet d k = some v) : sizeOf v < sizeOf d := by
  induction d with
  | nil => simp [mapGet] at h
  | cons p rest ih =>
    obtain ⟨k1, v1⟩ := p
    simp only [mapGet] at h
    split at h
    · cases h; simp; omega
    · have := ih h; simp; omega

theorem mapIndex_sizeOf (d : List (String × Value)) (k : String) :
    sizeOf (mapIndex d k) ≤ sizeOf d := by
  unfold mapIndex
  cases h : mapGet d k with
  | none => cases d <;> simp; omega
  | some v => have := mapGet_sizeOf h; simp; omega

theorem lex_of_le_of_lt {a b c d : Nat} (h1 : a ≤ b) (h2 : c < d) :
    Prod.Lex (fun x y => x < y) (fun x y => x < y) (a, c) (b, d) := by
  rcases Nat.lt_or_eq_of_le h1 with h | h
  · exact Prod.Lex.left _ _ h
  · subst h
    exact Prod.Lex.right _ h2

/-! ## Parsing (orderedmap.go, lines 82-138) -/

mutual
/-- `func (m *OrderedMap) UnmarshalYAML(n *yaml.Node) error`: the receiver after
the call and the returned error (`none` for `nil`). -/
def OrderedMap.UnmarshalYAML (lib : YamlLib) (m : OrderedMap) (n : Node) :
    OrderedMap × Option String :=
  match n with
  | .mk kind tag _ content =>
    if kind ≠ Kind.MappingNode then
      (m, some ("expected map node, got " ++ tag))
    else if content.length % 2 ≠ 0 then
      (m, some "invalid map node content length")
    else
      unmarshalLoop lib (OrderedMap.mk [] []) content
termination_by (sizeOf n, 0)
decreasing_by
  all_goals simp_wf
  all_goals apply Prod.Lex.left
  all_goals omega
/-- The loop `for i := 0; i < len(n.Content); i += 2` of `UnmarshalYAML`, on the
entries from index `i` on. -/
def unmarshalLoop (lib : YamlLib) (m : OrderedMap) (content : List Node) :
    OrderedMap × Option String :=
  match content with
  | keyNode :: valueNode :: rest =>
    match lib.decodeString keyNode with
    | .error err => (m, some err)
    | .ok key =>
      match parseYAMLNode lib valueNode with
      | .error err => (OrderedMap.mk (m.keys ++ [key]) m.data, some err)
      | .ok value =>
        unmarshalLoop lib (OrderedMap.mk (m.keys ++ [key]) (mapSet m.data key value)) rest
  | _ => (m, none)
termination_by (sizeOf content, 0)
decreasing_by
  all_goals simp_wf
  all_goals apply Prod.Lex.left
  all_goals omega
/-- `func parseYAMLNode(node *yaml.Node) (any, error)`.  The receiver `nested` of
line 116 is used only after `UnmarshalYAML` returned `nil`, when lines 92-93 have
given it a fresh key slice and an allocated map, so its start value does not
matter. -/
def parseYAMLNode (lib : YamlLib) (node : Node) : Except String Value :=
  match node with
  | .mk Kind.MappingNode tag value content =>
    match OrderedMap.UnmarshalYAML lib (OrderedMap.mk [] [])
        (Node.mk Kind.MappingNode tag value content) with
    | (_, some err) => .error err
    | (nested, none) => .ok (Value.omap nested)
  | .mk Kind.SequenceNode _ _ content =>
    match parseItems lib content with
    | .error err => .error err
    | .ok seq => .ok (Value.seq seq)
  | .mk _ _ _ _ => lib.decodeAny node
termination_by (sizeOf node, 1)
decreasing_by
  all_goals simp_wf
  · apply Prod.Lex.right; omega
  · apply Prod.Lex.left; omega
/-- The loop `for _, item := range node.Content` of `parseYAMLNode`. -/
def parseItems (lib : YamlLib) (items : List Node) : Except String (List Value) :=
  match items with
  | [] => .ok []
  | item :: rest =>
    match parseYAMLNode lib item with
    | .error err => .error err
    | .ok v =>
      match parseItems lib rest with
      | .error err => .error err
      | .ok seq => .ok (v :: seq)
termination_by (sizeOf items, 0)
decreasing_by
  all_goals simp_wf
  all_goals apply Prod.Lex.left
  all_goals omega
end

/-- `func (m *OrderedMap) UnmarshalYAML(n *yaml.Node) error` on any receiver: the
receiver after the call and the returned error (`none` for `nil`).  The two checks
return before the receiver is touched; lines 92-93 then give the receiver a fresh
key slice and a fresh allocated map, on which the loop runs. -/
def GoOrderedMap.UnmarshalYAML (lib : YamlLib) (m : GoOrderedMap) (n : Node) :
    GoOrderedMap × Option String :=
  if n.kind ≠ Kind.MappingNode then
    (m, some ("expected map node, got " ++ n.tag))
  else if n.content.length % 2 ≠ 0 then
    (m, some "invalid map node content length")
  else
    let r := unmarshalLoop lib (OrderedMap.mk [] []) n.content
    (GoOrderedMap.alloc r.1, r.2)

/-! ## Serialising (orderedmap.go, lines 140-227) -/

/-- What `%T` prints for a value. -/
def typeName : Value → String
  | .omap _ => "*regoref.OrderedMap"
  | .seq _ => "[]interface \x7b\x7d"
  | .strs _ => "[]string"
  | .str _ => "string"
  | .int _ => "int"
  | .int64 _ => "int64"
  | .int32 _ => "int32"
  | .float64 _ => "float64"
  | .float32 _ => "float32"
  | .bool _ => "bool"
  | .null => "<nil>"
  | .other t => t

/-- `func inferYAMLTag(v any) string` -/
def inferYAMLTag (v : Value) : Res String :=
  match v with
  | .int _ => .ok "!!int"
  | .int64 _ => .ok "!!int"
  | .int32 _ => .ok "!!int"
  | .float64 _ => .ok "!!float"
  | .float32 _ => .ok "!!float"
  | .bool _ => .ok "!!bool"
  | .str _ => .ok "!!str"
  | _ => .panic ("unsupported type: " ++ typeName v)

/-- The scalar node of the `default` branch of `marshalValue`, for a non-nil `v`. -/
def scalarNode (lib : YamlLib) (v : Value) : Res Node :=
  match inferYAMLTag v with
  | .ok tag => .ok (Node.mk Kind.ScalarNode tag (lib.sprintV v) [])
  | .err e => .err e
  | .panic msg => .panic msg

/-- `newSeqNode[string]`: `marshalValue` on a `string` element returns its
`!!str` scalar and no error. -/
def newSeqNodeStr (elems : List String) : Res Node :=
  .ok (Node.mk Kind.SequenceNode "!!seq" ""
    (elems.map (fun el => Node.mk Kind.ScalarNode "!!str" el [])))

mutual
/-- `func (m OrderedMap) marshalYAML() (*yaml.Node, error)` -/
def OrderedMap.marshalYAML (lib : YamlLib) (m : OrderedMap) : Res Node :=
  match marshalKeys lib m.data m.keys with
  | .ok content => .ok (Node.mk Kind.MappingNode "!!map" "" content)
  | .err e => .err e
  | .panic msg => .panic msg
termination_by (sizeOf m, 0)
decreasing_by
  apply Prod.Lex.left
  cases m
  simp [OrderedMap.data]
/-- The loop `for _, key := range m.keys` of `marshalYAML`, on the keys still to
be visited; it returns the entries appended to `node.Content`. -/
def marshalKeys (lib : YamlLib) (data : List (String × Value)) (keys : List String) :
    Res (List Node) :=
  match keys with
  | [] => .ok []
  | key :: rest =>
    match marshalValue lib (mapIndex data key) with
    | .err e => .err e
    | .panic msg => .panic msg
    | .ok valNode =>
      match marshalKeys lib data rest with
      | .err e => .err e
      | .panic msg => .panic msg
      | .ok content => .ok (Node.mk Kind.ScalarNode "!!str" key [] :: valNode :: content)
termination_by (sizeOf data, keys.length)
decreasing_by
  all_goals simp_wf
  all_goals first
    | exact lex_of_le_of_lt (mapIndex_sizeOf _ _) (by omega)
    | exact lex_of_le_of_lt (Nat.le_refl _) (by omega)
/-- `func marshalValue(v any) (*yaml.Node, error)` -/
def marshalValue (lib : YamlLib) (v : Value) : Res Node :=
  match v with
  | .omap vv => OrderedMap.marshalYAML lib vv
  | .seq vv => newSeqNode lib vv
  | .strs vv => newSeqNodeStr vv
  | .str vv => .ok (Node.mk Kind.ScalarNode "!!str" vv [])
  | .null => .ok (Node.mk Kind.ScalarNode "!!null" "null" [])
  | .int n => scalarNode lib (.int n)
  | .int64 n => scalarNode lib (.int64 n)
  | .int32 n => scalarNode lib (.int32 n)
  | .float64 b => scalarNode lib (.float64 b)
  | .float32 b => scalarNode lib (.float32 b)
  | .bool b => scalarNode lib (.bool b)
  | .other t => scalarNode lib (.other t)
termination_by (sizeOf v, 0)
decreasing_by
  all_goals simp_wf
  all_goals apply Prod.Lex.left
  all_goals omega
/-- `func newSeqNode[T any](elems []T) (*yaml.Node, error)` at `T = any`. -/
def newSeqNode (lib : YamlLib) (elems : List Value) : Res Node :=
  match seqItems lib elems with
  | .ok content => .ok (Node.mk Kind.SequenceNode "!!seq" "" content)
  | .err e => .err e
  | .panic msg => .panic msg
termination_by (sizeOf elems, 1)
decreasing_by
  apply Prod.Lex.right; omega
/-- The loop `for _, el := range elems` of `newSeqNode`. -/
def seqItems (lib : YamlLib) (elems : List Value) : Res (List Node) :=
  match elems with
  | [] => .ok []
  | el :: rest =>
    match marshalValue lib el with
    | .err e => .err e
    | .panic msg => .panic msg
    | .ok enode =>
      match seqItems lib rest with
      | .err e => .err e
      | .panic msg => .panic msg
      | .ok content => .ok (enode :: content)
termination_by (sizeOf elems, 0)
decreasing_by
  all_goals simp_wf
  all_goals apply Prod.Lex.left
  all_goals omega
end

/-- `func (m OrderedMap) marshalYAML() (*yaml.Node, error)` on any receiver: the
method reads `m.keys` and `m.data[key]` only, and a read of the nil map gives the
nil value. -/
def GoOrderedMap.marshalYAML (lib : YamlLib) (m : GoOrderedMap) : Res Node :=
  OrderedMap.marshalYAML lib m.view

/-- The Mapping invariant: no key occurs twice in the key sequence, and the key
sequence holds exactly the keys of the association. -/
def Inv (m : OrderedMap) : Prop :=
  m.keys.Nodup ∧ (∀ k ∈ m.keys, k ∈ mapKeys m.data) ∧ (∀ k ∈ mapKeys m.data, k ∈ m.keys)

instance (m : OrderedMap) : Decidable (Inv m) := by
  unfold Inv; infer_instance

/-- The Mapping invariant on the struct with a map that may be nil: the nil map has
no keys. -/
def GoOrderedMap.Inv (m : GoOrderedMap) : Prop :=
  Regoref.Inv m.view

instance (m : GoOrderedMap) : Decidable m.Inv := by
  unfold GoOrderedMap.Inv; infer_instance

/-- The key sequence the specification describes for `InsertAfter`: `key` is
taken out of `ks`, then put right after the first `afterKey`, or last when
`afterKey` does not occur. -/
def placeAfter (afterKey key : String) : List String → List String
  | [] => [key]
  | x :: xs => if x = afterKey then x :: key :: xs else x :: placeAfter afterKey key xs

/-- The specification's key sequence after `InsertAfter(afterKey, key, _)`. -/
def specInsertAfterKeys (ks : List String) (afterKey key : String) : List String :=
  placeAfter afterKey key (ks.filter (fun k => decide (k ≠ key)))

/-- Whether `key` stands immediately after `afterKey` somewhere in `ks`. -/
def adjacent (afterKey key : String) : List String → Bool
  | x :: y :: rest => (x == afterKey && y == key) || adjacent afterKey key (y :: rest)
  | _ => false

/-- A three-key mapping on which the theorems are instantiated. -/
def sampleMap : OrderedMap :=
  OrderedMap.mk ["a", "b", "c"]
    [("a", Value.int 1), ("b", Value.str "x"), ("c", Value.null)]

/-! ## Predicates and sample inputs for the codec claims -/

mutual
/-- Whether the traversal of `parseYAMLNode` below `n` meets a mapping node with an
odd number of content entries: `n` itself, a value entry of a mapping node, or an
item of a sequence node, at any depth. -/
def oddMapping : Node → Bool
  | .mk Kind.MappingNode _ _ content =>
    decide (content.length % 2 ≠ 0) || oddInValues content
  | .mk Kind.SequenceNode _ _ content => oddInItems content
  | .mk _ _ _ _ => false
/-- `oddMapping` for one of the value entries (odd positions) of a mapping's content. -/
def oddInValues : List Node → Bool
  | _ :: valueNode :: rest => oddMapping valueNode || oddInValues rest
  | _ => false
/-- `oddMapping` for one of the items of a sequence's content. -/
def oddInItems : List Node → Bool
  | [] => false
  | item :: rest => oddMapping item || oddInItems rest
end

/-- A stand-in for the library on which the theorems are instantiated: it decodes
scalar keys to their text and `!!str`, `!!null` and `!!bool` scalars to their
values, and prints booleans and strings. -/
def demoLib : YamlLib where
  decodeString := fun n =>
    if n.kind = Kind.ScalarNode then .ok n.value else .error "cannot unmarshal into string"
  decodeAny := fun n =>
    if n.tag = "!!str" then .ok (Value.str n.value)
    else if n.tag = "!!null" then .ok Value.null
    else if n.tag = "!!bool" then .ok (Value.bool (n.value == "true"))
    else .error "cannot decode"
  sprintV := fun v =>
    match v with
    | .bool true => "true"
    | .bool false => "false"
    | .str s => s
    | _ => ""

/-- The node tree of the document `a: x` followed by `a: y`: one mapping node whose
two entries have the same key. -/
def dupNode : Node :=
  Node.mk Kind.MappingNode "!!map" ""
    [Node.mk Kind.ScalarNode "!!str" "a" [], Node.mk Kind.ScalarNode "!!str" "x" [],
     Node.mk Kind.ScalarNode "!!str" "a" [], Node.mk Kind.ScalarNode "!!str" "y" []]

/-- A mapping node whose only value is a mapping node with a key and no value. -/
def nestedOddNode : Node :=
  Node.mk Kind.MappingNode "!!map" ""
    [Node.mk Kind.ScalarNode "!!str" "a" [],
     Node.mk Kind.MappingNode "!!map" "" [Node.mk Kind.ScalarNode "!!str" "b" []]]

/-- A value of unsupported dynamic type occurs in `v`, at any depth: `v` itself, an
element of a `[]any`, or a value of the association of a nested Mapping. -/
inductive HasUnsupported : Value → Prop where
  | other (t : String) : HasUnsupported (Value.other t)
  | seq (xs : List Value) (x : Value) :
      x ∈ xs → HasUnsupported x → HasUnsupported (Value.seq xs)
  | omap (m : OrderedMap) (k : String) (v : Value) :
      mapGet m.data k = some v → HasUnsupported v → HasUnsupported (Value.omap m)

mutual
/-- The Mapping invariant holds at every Mapping inside `v`. -/
def Value.deepInv : Value → Bool
  | .omap m => m.deepInv
  | .seq xs => deepInvList xs
  | _ => true
/-- The Mapping invariant holds at `m` and at every Mapping nested in it. -/
def OrderedMap.deepInv : OrderedMap → Bool
  | .mk keys data => decide (Inv (OrderedMap.mk keys data)) && deepInvData data
/-- `Value.deepInv` for every value of an association. -/
def deepInvData : List (String × Value) → Bool
  | [] => true
  | (_, v) :: rest => v.deepInv && deepInvData rest
/-- `Value.deepInv` for every element of a sequence. -/
def deepInvList : List Value → Bool
  | [] => true
  | v :: rest => v.deepInv && deepInvList rest
end

/-- A Mapping whose nested Mapping holds a `uint`, a type `marshalValue` has no
case for. -/
def unsupportedMap : OrderedMap :=
  OrderedMap.mk ["name", "custom"]
    [("name", Value.str "n"),
     ("custom", Value.omap (OrderedMap.mk ["severity"] [("severity", Value.other "uint")]))]

mutual
/-- The value a round trip gives back for a supported `v`: the same nesting, keys
and order; an `int64` or `int32` is read back as an `int` and a `[]string` as a
`[]any` of strings.  A `float32` and a value of another dynamic type are not
supported values (`Value.supported`): they are left as they are here, which says
nothing about what is read back for them. -/
def normValue : Value → Value
  | .omap m => Value.omap (normMap m)
  | .seq xs => Value.seq (normList xs)
  | .strs xs => Value.seq (xs.map Value.str)
  | .str s => Value.str s
  | .int n => Value.int n
  | .int64 n => Value.int n
  | .int32 n => Value.int n
  | .float64 b => Value.float64 b
  | .float32 b => Value.float32 b
  | .bool b => Value.bool b
  | .null => Value.null
  | .other t => Value.other t
/-- `normValue` for a Mapping: the same key sequence, and under every key of the
sequence the `normValue` of its value. -/
def normMap : OrderedMap → OrderedMap
  | .mk keys data =>
    OrderedMap.mk keys (keys.map (fun k => (k, mapIndex (normData data) k)))
/-- `normValue` on every value of an association. -/
def normData : List (String × Value) → List (String × Value)
  | [] => []
  | (k, v) :: rest => (k, normValue v) :: normData rest
/-- `normValue` on every element of a sequence. -/
def normList : List Value → List Value
  | [] => []
  | v :: rest => normValue v :: normList rest
end

mutual
/-- A value the round-trip law speaks of: a string, null, a `[]string`, an `int`,
`int64`, `int32`, `float64` or `bool` that satisfies `P`, a `[]any` of such values,
or a nested Mapping that satisfies the invariant and holds such values.  A
`float32` is left out: the text `%v` prints for it (`0.1`) is read back as the
`float64` nearest to that text, in general another number than the `float32`. -/
def Value.supported (P : Value → Prop) : Value → Prop
  | .omap m => m.supported P
  | .seq xs => supportedList P xs
  | .strs _ => True
  | .str _ => True
  | .null => True
  | .int n => P (Value.int n)
  | .int64 n => P (Value.int64 n)
  | .int32 n => P (Value.int32 n)
  | .float64 b => P (Value.float64 b)
  | .float32 _ => False
  | .bool b => P (Value.bool b)
  | .other _ => False
/-- A Mapping that satisfies the invariant and holds supported values. -/
def OrderedMap.supported (P : Value → Prop) : OrderedMap → Prop
  | .mk keys data => Inv (OrderedMap.mk keys data) ∧ supportedData P data
/-- `Value.supported` for every value of an association. -/
def supportedData (P : Value → Prop) : List (String × Value) → Prop
  | [] => True
  | (_, v) :: rest => v.supported P ∧ supportedData P rest
/-- `Value.supported` for every element of a sequence. -/
def supportedList (P : Value → Prop) : List Value → Prop
  | [] => True
  | v :: rest => v.supported P ∧ supportedList P rest
end

/-- A Mapping built by `Set` and `InsertAfter` with supported values from the empty
Mapping whose map is allocated (what `UnmarshalYAML` leaves for a mapping node
without entries); the zero value, on which `Set` and `InsertAfter` panic, is not a
start. -/
inductive Built (P : Value → Prop) : GoOrderedMap → Prop where
  | empty : Built P (GoOrderedMap.alloc (OrderedMap.mk [] []))
  | set (m : GoOrderedMap) (key : String) (value : Value) :
      Built P m → value.supported P → Built P (m.Set key value).1
  | insertAfter (m : GoOrderedMap) (afterKey key : String) (value : Value) :
      Built P m → value.supported P → Built P (m.InsertAfter afterKey key value).1

/-- What the round-trip law needs from the library: a `!!str` key node decodes to
its text, a `!!str` node to the string, the `!!null` node to nil, and, for every
supported scalar that satisfies `P`, the node `marshalValue` makes for it (tag from
`inferYAMLTag`, text from `%v`) decodes back to that scalar, an `int64` or `int32`
as an `int`.  The library does not do so for every `float64` (see `nanLib`), and
nothing is asked for a `float32`. -/
structure LibFaithful (lib : YamlLib) (P : Value → Prop) : Prop where
  key : ∀ s, lib.decodeString (Node.mk Kind.ScalarNode "!!str" s []) = .ok s
  str : ∀ s, lib.decodeAny (Node.mk Kind.ScalarNode "!!str" s []) = .ok (Value.str s)
  null : lib.decodeAny (Node.mk Kind.ScalarNode "!!null" "null" []) = .ok Value.null
  scalar : ∀ v tag, P v → v.supported P → inferYAMLTag v = Res.ok tag →
    lib.decodeAny (Node.mk Kind.ScalarNode tag (lib.sprintV v) []) = .ok (normValue v)

/-- The scalars the stand-in library prints and decodes: the booleans. -/
def isBool (v : Value) : Prop :=
  ∃ b, v = Value.bool b

/-- A Mapping built by `Set` and `InsertAfter`: a string, a nested Mapping with a
boolean and a list, and a `[]string` moved to the second place. -/
def builtMap : GoOrderedMap :=
  ((((GoOrderedMap.alloc (OrderedMap.mk [] [])).Set "title" (Value.str "t")).1.Set "custom"
      (Value.omap (((OrderedMap.mk [] []).Set "deprecated" (Value.bool true)).Set "refs"
        (Value.seq [Value.null, Value.str "r"])))).1.InsertAfter
    "title" "aliases" (Value.strs ["x", "y"])).1

/-- The bit pattern of the `float64` that `math.NaN()` returns. -/
def nanBits : Nat :=
  0x7FF8000000000001

/-- A stand-in for the library that treats the NaN as the Go libraries do:
`fmt.Sprintf("%v", math.NaN())` is the text `NaN`, and `yaml.v3` resolves no float
from the text `NaN` (its spelling is `.nan`), so that `Decode` of a scalar node
with the tag `!!float` and that text returns an error.  Everything else is as in
`demoLib`. -/
def nanLib : YamlLib where
  decodeString := demoLib.decodeString
  decodeAny := fun n =>
    if n.tag = "!!float" ∧ n.value = "NaN" then
      .error "yaml: cannot decode !!str `NaN` as a !!float"
    else demoLib.decodeAny n
  sprintV := fun v =>
    match v with
    | .float64 b => if b = nanBits then "NaN" else demoLib.sprintV v
    | _ => demoLib.sprintV v

/-- The Mapping built by one `Set` of the key `score` to the `float64` NaN. -/
def nanMap : GoOrderedMap :=
  ((GoOrderedMap.alloc (OrderedMap.mk [] [])).Set "score" (Value.float64 nanBits)).1

/-- The node `marshalYAML` makes for `nanMap`. -/
def nanNode : Node :=
  Node.mk Kind.MappingNode "!!map" ""
    [Node.mk Kind.ScalarNode "!!str" "score" [], Node.mk Kind.ScalarNode "!!float" "NaN" []]

/-! ## Alias ordering (cmd/fmt/main.go, lines 90-131) -/

/-- `func hasAVDPrefix(s string) bool`: `len(s) >= 4 && s[:4] == "AVD-"`.  The first
four bytes are `AVD-` exactly when the first four characters are. -/
def hasAVDPrefix (s : String) : Bool :=
  decide (s.utf8ByteSize ≥ 4) && (s.take 4 == "AVD-")

/-- `func isUpperOrDigits(s string) bool`: a match of the expression
`^[A-Z0-9]+$`, one or more characters, each an upper-case letter or a digit. -/
def isUpperOrDigits (s : String) : Bool :=
  !s.data.isEmpty && s.data.all (fun c => c.isUpper || c.isDigit)

/-- The comparison function `sortAliases` passes to `slices.SortFunc`; `len` is the
length in bytes. -/
def cmpAlias (a b : String) : Int :=
  if hasAVDPrefix a ≠ hasAVDPrefix b then
    if hasAVDPrefix a then -1 else 1
  else if isUpperOrDigits a ≠ isUpperOrDigits b then
    if isUpperOrDigits a then -1 else 1
  else if a.utf8ByteSize ≠ b.utf8ByteSize then
    (a.utf8ByteSize : Int) - (b.utf8ByteSize : Int)
  else if a < b then -1
  else if a > b then 1
  else 0

/-- The order `cmpAlias` induces: `a` may stand before `b`. -/
def aliasLe (a b : String) : Prop :=
  cmpAlias a b ≤ 0

instance : DecidableRel aliasLe := fun a b => by
  unfold aliasLe; infer_instance

/-- Go's `slices.SortFunc(xs, cmp)` from the standard library: the slice in
ascending order of `cmp`. -/
def slicesSortFunc (cmp : String → String → Int) (xs : List String) : List String :=
  xs.insertionSort (fun a b => cmp a b ≤ 0)

/-- `func sortAliases(xs []string)`: the slice after the call. -/
def sortAliases (xs : List String) : List String :=
  slicesSortFunc cmpAlias xs

/-! ## Typed extraction and flattening (orderedmap.go, lines 69-80 and 229-241) -/

/-- The concrete dynamic types a stored value can have; a type parameter `V` of
`GetFromMap` is one of them. -/
inductive GoType where
  | omap
  | seq
  | strs
  | str
  | int
  | int64
  | int32
  | float64
  | float32
  | bool
  | other (typeName : String)
  deriving DecidableEq, Repr

/-- The dynamic type of a value; the nil interface value has none. -/
def Value.goType : Value → Option GoType
  | .omap _ => some GoType.omap
  | .seq _ => some GoType.seq
  | .strs _ => some GoType.strs
  | .str _ => some GoType.str
  | .int _ => some GoType.int
  | .int64 _ => some GoType.int64
  | .int32 _ => some GoType.int32
  | .float64 _ => some GoType.float64
  | .float32 _ => some GoType.float32
  | .bool _ => some GoType.bool
  | .null => none
  | .other t => some (GoType.other t)

/-- The zero value `var zero V`; the nil pointer of `*OrderedMap` is written
`Value.null`. -/
def zeroValue : GoType → Value
  | .omap => Value.null
  | .seq => Value.seq []
  | .strs => Value.strs []
  | .str => Value.str ""
  | .int => Value.int 0
  | .int64 => Value.int64 0
  | .int32 => Value.int32 0
  | .float64 => Value.float64 0
  | .float32 => Value.float32 0
  | .bool => Value.bool false
  | .other t => Value.other t

/-- `func GetFromMap[V any](om *OrderedMap, key string) (V, bool)` for a concrete
type `V`; the type assertion `raw.(V)` holds when the dynamic type of `raw` is `V`. -/
def GetFromMap (V : GoType) (om : OrderedMap) (key : String) : Value × Bool :=
  let zero := zeroValue V
  let (raw, found) := om.Get key
  if !found then (zero, false)
  else if raw.goType = some V then (raw, true)
  else (zero, false)

/-- The values of the `map[string]any` that `Unwrap` returns: a map made by a nested
`Unwrap`, or a value carried over as it is. -/
inductive Plain where
  | umap (entries : List (String × Plain))
  | val (v : Value)

mutual
/-- `func (m *OrderedMap) Unwrap() map[string]any` -/
def OrderedMap.Unwrap : OrderedMap → List (String × Plain)
  | .mk _ data => unwrapData data
/-- The loop `for k, v := range m.data` of `Unwrap`. -/
def unwrapData : List (String × Value) → List (String × Plain)
  | [] => []
  | (k, v) :: rest => (k, unwrapValue v) :: unwrapData rest
/-- The type switch of `Unwrap` on one value. -/
def unwrapValue : Value → Plain
  | .omap vv => Plain.umap vv.Unwrap
  | .seq xs => Plain.val (Value.seq xs)
  | .strs xs => Plain.val (Value.strs xs)
  | .str s => Plain.val (Value.str s)
  | .int n => Plain.val (Value.int n)
  | .int64 n => Plain.val (Value.int64 n)
  | .int32 n => Plain.val (Value.int32 n)
  | .float64 b => Plain.val (Value.float64 b)
  | .float32 b => Plain.val (Value.float32 b)
  | .bool b => Plain.val (Value.bool b)
  | .null => Plain.val Value.null
  | .other t => Plain.val (Value.other t)
end

/-- Read of the map `Unwrap` returns. -/
def plainGet : List (String × Plain) → String → Option Plain
  | [], _ => none
  | (k, v) :: rest, key => if k = key then some v else plainGet rest key

mutual
/-- An ordered Mapping occurs in `v`: `v` is one, or an element of a `[]any`
holds one. -/
def Value.hasOrdered : Value → Bool
  | .omap _ => true
  | .seq xs => hasOrderedList xs
  | _ => false
/-- `Value.hasOrdered` for one of the elements of a sequence. -/
def hasOrderedList : List Value → Bool
  | [] => false
  | v :: rest => v.hasOrdered || hasOrderedList rest
end

mutual
/-- An ordered Mapping remains somewhere in a result of `Unwrap`. -/
def Plain.hasOrdered : Plain → Bool
  | .umap entries => hasOrderedEntries entries
  | .val v => v.hasOrdered
/-- `Plain.hasOrdered` for one of the values of an unwrapped map. -/
def hasOrderedEntries : List (String × Plain) → Bool
  | [] => false
  | (_, p) :: rest => p.hasOrdered || hasOrderedEntries rest
end

/-- A Mapping with a list of Mappings, as the document `rules:` with the two items
`- id: a` and `- id: b` parses. -/
def listOfMapsMap : OrderedMap :=
  OrderedMap.mk ["rules"]
    [("rules", Value.seq
      [Value.omap (OrderedMap.mk ["id"] [("id", Value.str "a")]),
       Value.omap (OrderedMap.mk ["id"] [("id", Value.str "b")])])]

/-! ## Pruning (cmd/fmt/main.go, lines 75-88)

`pruneEmptyValues` removes keys while `Iter` ranges over `m.keys`.  The range
statement reads the slice header once, and `slices.DeleteFunc` shifts the kept
elements down inside the same backing array and zeroes the vacated tail, so the
loop is modelled on the backing array. -/

/-- The key slice during the loop: the backing array the range statement walks, and
the current length of `om.keys`, which is the first `len` elements of `arr`. -/
structure KeySlice where
  arr : List String
  len : Nat

/-- The slice `om.keys`. -/
def KeySlice.keys (s : KeySlice) : List String :=
  s.arr.take s.len

/-- `om.keys = slices.DeleteFunc(om.keys, ...)` on the backing array: the kept keys
move to the front, the vacated elements become the zero string, and the elements
beyond the old length stay as they are. -/
def KeySlice.deleteFunc (s : KeySlice) (key : String) : KeySlice :=
  let kept := Regoref.deleteKey s.keys key
  { arr := kept ++ List.replicate (s.len - kept.length) "" ++ s.arr.drop s.len,
    len := kept.length }

/-- The state of `pruneEmptyValues` between two iterations. -/
structure PruneState where
  slice : KeySlice
  data : List (String × Value)

/-- One iteration of the loop body for the key `k` that `Iter` yields; `rec` is
the recursive call for a nested Mapping. -/
def pruneBody (rec : OrderedMap → Option OrderedMap) (st : PruneState) (k : String) :
    Option PruneState :=
  match mapIndex st.data k with
  | .null => some { slice := st.slice.deleteFunc k, data := mapDelete st.data k }
  | .seq [] => some { slice := st.slice.deleteFunc k, data := mapDelete st.data k }
  | .omap vv =>
    match rec vv with
    | some pruned => some { slice := st.slice, data := mapSet st.data k (Value.omap pruned) }
    | none => none
  | _ => some st

/-- The iterations `i, i+1, ..., i+n-1` of `for _, k := range m.keys`: each reads
`k` from the backing array at its index. -/
def pruneLoop (rec : OrderedMap → Option OrderedMap) :
    Nat → Nat → PruneState → Option PruneState
  | 0, _, st => some st
  | n + 1, i, st =>
    match pruneBody rec st (st.slice.arr.getD i "") with
    | some st2 => pruneLoop rec n (i + 1) st2
    | none => none

/-- `func pruneEmptyValues(om *regoref.OrderedMap)`: the Mapping after the call;
`fuel` bounds the depth of nested calls, and `none` means it did not suffice
(`pruneEmptyValues_returns`: the nesting depth of the Mapping suffices). -/
def pruneEmptyValues : Nat → OrderedMap → Option OrderedMap
  | 0, _ => none
  | fuel + 1, om =>
    match pruneLoop (pruneEmptyValues fuel) om.keys.length 0
        { slice := { arr := om.keys, len := om.keys.length }, data := om.data } with
    | some st => some (OrderedMap.mk st.slice.keys st.data)
    | none => none

mutual
/-- The depth of nested calls `pruneEmptyValues` makes below a value: the nesting
depth of Mappings that are directly values of Mappings. -/
def Value.depth : Value → Nat
  | .omap m => m.depth
  | _ => 0
/-- The nesting depth of a Mapping, at least one. -/
def OrderedMap.depth : OrderedMap → Nat
  | .mk _ data => dataDepth data + 1
/-- The largest depth of a value of an association. -/
def dataDepth : List (String × Value) → Nat
  | [] => 0
  | (_, v) :: rest => max v.depth (dataDepth rest)
end

/-- A Mapping with two empty values next to each other, as the document
`related_resources: []` followed by `aliases: []` and `title: t` parses. -/
def twoEmptyMap : OrderedMap :=
  OrderedMap.mk ["related_resources", "aliases", "title"]
    [("related_resources", Value.seq []), ("aliases", Value.seq []),
     ("title", Value.str "t")]

/-! ## The identifier migration (cmd/migrate/main.go, internal/metadata) -/

/-- `type CustomMetadata struct` of `internal/metadata`. -/
structure CustomMetadata where
  Libarary : Bool
  ID : String
  AVDID : String
  Provider : String
  Service : String
  ShortCode : String
  Aliases : List String

/-- The library and runtime behaviour `transformAvd2Id` relies on. -/
structure MigrateLib where
  /-- `mapstructure.Decode(customMap.Unwrap(), &custom)`: the decoded struct, or the
  error the transform panics with -/
  decode : List (String × Plain) → Except String CustomMetadata
  /-- `slices.Collect(maps.Keys(set))`: the keys of the set, in the order the
  runtime happens to iterate the map -/
  collect : List String → List String

/-- `strings.HasSuffix(s, suffix)` -/
def hasSuffix (s suffix : String) : Bool :=
  suffix.data.isSuffixOf s.data

/-- `strings.Contains(s, substr)` -/
def containsStr (s substr : String) : Bool :=
  s.data.tails.any (fun t => substr.data.isPrefixOf t)

/-- `strings.TrimPrefix(s, p)` -/
def trimPrefix (s p : String) : String :=
  if p.data.isPrefixOf s.data then String.mk (s.data.drop p.data.length) else s

/-- `strings.ReplaceAll(s, old, new)` for a one-character `old`. -/
def replaceAll (s : String) (old : Char) (new : String) : String :=
  String.mk (s.data.flatMap (fun c => if c = old then new.data else [c]))

/-- `func buildLongID(custom metadata.CustomMetadata) string` -/
def buildLongID (custom : CustomMetadata) : String :=
  let service := replaceAll custom.Service '-' ""
  let shortCode := replaceAll custom.ShortCode '_' "-"
  let parts := [custom.Provider]
  let parts := if custom.Service ≠ "" then parts ++ [service] else parts
  let parts := parts ++ [shortCode]
  String.intercalate "-" parts

/-- `func rebuildAliases(custom metadata.CustomMetadata, newID string) []string`:
the set is the list of its distinct keys. -/
def rebuildAliases (lib : MigrateLib) (custom : CustomMetadata) (newID : String) :
    List String :=
  let set := ([custom.ID, custom.AVDID, custom.ShortCode] ++ custom.Aliases).dedup
  let set := set.filter (fun k => !(k == newID))
  lib.collect set

/-- The assignment to `custom.Provider` in `transformAvd2Id`. -/
def fillProvider (filePath : String) (custom : CustomMetadata) : CustomMetadata :=
  if custom.Provider = "" then
    if containsStr filePath "checks/docker" then { custom with Provider := "docker" }
    else if containsStr filePath "checks/kubernetes" then
      { custom with Provider := "kubernetes" }
    else custom
  else custom

/-- The writes of `transformAvd2Id` to the custom Mapping, from `customMap.Set("id",
newID)` to `customMap.Remove("short_code")`. -/
def migrateCustom (lib : MigrateLib) (custom : CustomMetadata) (customMap : OrderedMap) :
    OrderedMap :=
  let newID := trimPrefix custom.AVDID "AVD-"
  let customMap := customMap.Set "id" (Value.str newID)
  let longID := buildLongID custom
  let customMap := customMap.Set "long_id" (Value.str longID)
  let newAliases := rebuildAliases lib custom newID
  let customMap := customMap.Set "aliases" (Value.strs newAliases)
  let customMap := customMap.MoveAfter "id" "long_id"
  let customMap := customMap.MoveAfter "long_id" "aliases"
  let customMap := customMap.Remove "avd_id"
  customMap.Remove "short_code"

/-- `func transformAvd2Id(filePath string, om *regoref.OrderedMap)`: the Mapping
after the call, or the panic on a decode error. -/
def transformAvd2Id (lib : MigrateLib) (filePath : String) (om : OrderedMap) :
    Res OrderedMap :=
  if hasSuffix filePath "_test.rego" then Res.ok om
  else
    match GetFromMap GoType.omap om "custom" with
    | (Value.omap customMap, true) =>
      match lib.decode customMap.Unwrap with
      | .error err => Res.panic err
      | .ok custom =>
        if custom.AVDID = "" ∧ custom.ShortCode = "" then Res.ok om
        else
          let custom := fillProvider filePath custom
          Res.ok (om.Set "custom" (Value.omap (migrateCustom lib custom customMap)))
    | _ => Res.ok om

/-- The five keys `transformAvd2Id` writes or removes. -/
def migratedKeys : List String :=
  ["id", "long_id", "aliases", "avd_id", "short_code"]

/-- A stand-in for the decoder and the runtime: it reads `avd_id` and `short_code`
when they hold strings, and iterates a set in list order. -/
def demoMigrateLib : MigrateLib where
  decode := fun m =>
    .ok {
      Libarary := false
      ID := ""
      AVDID := match plainGet m "avd_id" with
        | some (Plain.val (Value.str s)) => s
        | _ => ""
      Provider := ""
      Service := ""
      ShortCode := match plainGet m "short_code" with
        | some (Plain.val (Value.str s)) => s
        | _ => ""
      Aliases := [] }
  collect := fun set => set

/-- A Mapping with a legacy custom section, as the document
`title: t` with `custom:` holding `avd_id: AVD-AWS-0001`, `severity: LOW` and
`short_code: no-public-access` parses. -/
def legacyMap : OrderedMap :=
  OrderedMap.mk ["title", "custom"]
    [("title", Value.str "t"),
     ("custom", Value.omap (OrderedMap.mk ["avd_id", "severity", "short_code"]
        [("avd_id", Value.str "AVD-AWS-0001"), ("severity", Value.str "LOW"),
         ("short_code", Value.str "no-public-access")]))]

/-- The custom section of `legacyMap`. -/
def legacyCustom : OrderedMap :=
  OrderedMap.mk ["avd_id", "severity", "short_code"]
    [("avd_id", Value.str "AVD-AWS-0001"), ("severity", Value.str "LOW"),
     ("short_code", Value.str "no-public-access")]

/-! ## The per-file operation (refactor.go)

File contents and texts are lists of bytes, written as `List Char`. -/

/-- The white-space class of the regular expression: tab, newline, form feed,
carriage return and space. -/
def isSpaceByte (c : Char) : Bool :=
  c == '\t' || c == '\n' || c == '\x0c' || c == '\r' || c == ' '

/-- The identifier class of the regular expression: letters, digits, underscore
and dot. -/
def isIdentByte (c : Char) : Bool :=
  c.isAlphanum || c == '_' || c == '.'

/-- Whether the expression of `packageRe` without its line anchor matches at the
start of `s`: after the white space comes `package`, then at least one white-space
byte, then, after the white space, an identifier byte. -/
def matchHere (s : List Char) : Bool :=
  let s1 := s.dropWhile isSpaceByte
  "package".data.isPrefixOf s1 &&
    (match s1.drop 7 with
     | [] => false
     | c :: rest =>
       isSpaceByte c &&
         (match (c :: rest).dropWhile isSpaceByte with
          | [] => false
          | d :: _ => isIdentByte d))

/-- The search of `packageRe.FindSubmatchIndex` from offset `i` on: the first offset
at the start of a line at which the expression matches. -/
def findFrom : List Char → Bool → Nat → Option Nat
  | [], _, _ => none
  | c :: cs, atLineStart, i =>
    if atLineStart && matchHere (c :: cs) then some i
    else findFrom cs (c == '\n') (i + 1)

/-- `idx[0]` of `packageRe.FindSubmatchIndex(data)`, or `none` when there is no
match. -/
def findPackage (data : List Char) : Option Nat :=
  findFrom data true 0

/-- `bytes.Split` and `bytes.SplitSeq` with the newline as separator. -/
def bytesSplit : List Char → List (List Char)
  | [] => [[]]
  | c :: cs =>
    if c = '\n' then [] :: bytesSplit cs
    else
      match bytesSplit cs with
      | [] => [[c]]
      | l :: ls => (c :: l) :: ls

/-- `bytes.TrimPrefix(line, []byte("#"))` -/
def trimHash : List Char → List Char
  | '#' :: rest => rest
  | line => line

/-- The loop `for i, line := range lines[1:]` of `Run` that fills `buf`, from the
`i`-th line on. -/
def payloadLoop (buf : List Char) : Nat → List (List Char) → List Char
  | _, [] => buf
  | i, line :: rest =>
    let buf := if i > 0 then buf ++ ['\n'] else buf
    payloadLoop (buf ++ trimHash line) (i + 1) rest

/-- The loop `for line := range bytes.SplitSeq(yamlBytes, ...)` of `Run` that fills
`outBuf`. -/
def wrapLoop (outBuf : List Char) : List (List Char) → List Char
  | [] => outBuf
  | line :: rest =>
    if line.length = 0 then wrapLoop (outBuf ++ ['#', '\n']) rest
    else wrapLoop (outBuf ++ ['#', ' '] ++ line ++ ['\n']) rest

/-- The text library `Run` calls: the parser behind `yaml.Unmarshal` and the
emitter behind `Encoder.Encode` with indent 2. -/
structure TextLib where
  /-- the node of a payload that `yaml.Unmarshal` hands to `UnmarshalYAML`, `none`
  when the payload holds no document and the method is not called, or the error of
  a payload that is not well-formed -/
  parseText : List Char → Except String (Option Node)
  /-- the text the encoder writes for a node -/
  encodeNode : Node → Except String (List Char)

/-- `yaml.Unmarshal(buf.Bytes(), &om)` for `var om OrderedMap`: `om` starts as the
zero value and stays the zero value when `UnmarshalYAML` is not called. -/
def yamlUnmarshal (lib : YamlLib) (tlib : TextLib) (buf : List Char) :
    Except String GoOrderedMap :=
  match tlib.parseText buf with
  | .error err => .error err
  | .ok none => .ok GoOrderedMap.zero
  | .ok (some n) =>
    match GoOrderedMap.UnmarshalYAML lib GoOrderedMap.zero n with
    | (_, some err) => .error err
    | (om, none) => .ok om

/-- `dec.Encode(om)`: `MarshalYAML` builds the node, the encoder writes it. -/
def yamlEncode (lib : YamlLib) (tlib : TextLib) (om : GoOrderedMap) : Res (List Char) :=
  match GoOrderedMap.marshalYAML lib om with
  | .err e => .err e
  | .panic msg => .panic msg
  | .ok node =>
    match tlib.encodeNode node with
    | .error err => .err err
    | .ok text => .ok text

/-- `type Transform func(filePath string, annot *OrderedMap)`: the Mapping after the
call, or a panic. -/
abbrev Transform := String → GoOrderedMap → Res GoOrderedMap

/-- The loop `for _, f := range transforms`. -/
def applyTransforms (filePath : String) :
    List Transform → GoOrderedMap → Res GoOrderedMap
  | [], om => .ok om
  | f :: rest, om =>
    match f filePath om with
    | .ok om2 => applyTransforms filePath rest om2
    | .err e => .err e
    | .panic msg => .panic msg

/-- The canonical text of a processed file: split off the payload in front of
offset `packageStart`, parse it, run the transforms, serialise. -/
def canonicalText (lib : YamlLib) (tlib : TextLib) (transforms : List Transform)
    (filePath : String) (data : List Char) (packageStart : Nat) : Res (List Char) :=
  let annotationsData := data.take packageStart
  let lines := bytesSplit annotationsData
  let buf := payloadLoop [] 0 lines.tail
  match yamlUnmarshal lib tlib buf with
  | .error err => .err err
  | .ok om =>
    match applyTransforms filePath transforms om with
    | .err e => .err e
    | .panic msg => .panic msg
    | .ok om2 => yamlEncode lib tlib om2

/-- The body of `walkFn` in `Run` for one file with content `data`: `none` when the
file is skipped, otherwise the bytes written to `out`. -/
def runFile (lib : YamlLib) (tlib : TextLib) (transforms : List Transform)
    (filePath : String) (data : List Char) : Res (Option (List Char)) :=
  if !hasSuffix filePath ".rego" then .ok none
  else if !("# METADATA".data.isPrefixOf data) then .ok none
  else
    match findPackage data with
    | none => .ok none
    | some packageStart =>
      let lines := bytesSplit (data.take packageStart)
      match canonicalText lib tlib transforms filePath data packageStart with
      | .err e => .err e
      | .panic msg => .panic msg
      | .ok yamlBytes =>
        match yamlBytes.getLast? with
        | none => .panic "index out of range [-1]"
        | some last =>
          let yamlBytes := if last = '\n' then yamlBytes.dropLast else yamlBytes
          let outBuf := lines.headD [] ++ ['\n']
          let outBuf := wrapLoop outBuf (bytesSplit yamlBytes)
          .ok (some (outBuf ++ data.drop packageStart))

/-- The first line of a file, without its newline. -/
def firstLine (data : List Char) : List Char :=
  data.takeWhile (fun c => decide (c ≠ '\n'))

/-- A canonical text without its one trailing newline, if it has one. -/
def dropTrailingNewline (t : List Char) : List Char :=
  if t.getLast? = some '\n' then t.dropLast else t

/-- The wrapped form of one canonical line: the bare marker for a line of length
zero, the marker and one space before any other line. -/
def wrapLine (line : List Char) : List Char :=
  if line = [] then ['#'] else '#' :: ' ' :: line

/-- The wrapped canonical lines of a text: every line of the text without its
trailing newline, wrapped and ended by one newline. -/
def wrapText (t : List Char) : List Char :=
  (bytesSplit (dropTrailingNewline t)).flatMap (fun line => wrapLine line ++ ['\n'])

/-- A file whose metadata line has no space after the comment marker. -/
def tightFile : List Char :=
  "# METADATA\n#title: t\npackage foo\n".data

/-- A file with a metadata block in the form the wrapping produces. -/
def sampleFile : List Char :=
  "# METADATA\n# title: t\n\npackage foo\n\ndeny := true\n".data

/-- A stand-in for the text library: every payload is an empty document and every
node is written as the one line `title: t`. -/
def demoTextLib : TextLib where
  parseText := fun _ => .ok none
  encodeNode := fun _ => .ok "title: t\n".data

/-! ## Lemmas on maps and slices -/

theorem mapGet_mapSet (d : List (String × Value)) (k k2 : String) (v : Value) :
    mapGet (mapSet d k v) k2 = if k2 = k then some v else mapGet d k2 := by
  induction d with
  | nil =>
    by_cases h : k2 = k
    · simp [mapSet, mapGet, h]
    · have h2 : ¬ k = k2 := fun e => h e.symm
      simp [mapSet, mapGet, h, h2]
  | cons p rest ih =>
    obtain ⟨k1, v1⟩ := p
    by_cases h1 : k1 = k
    · subst h1
      by_cases h : k2 = k1
      · subst h; simp [mapSet, mapGet]
      · have h2 : ¬ k1 = k2 := fun e => h e.symm
        simp [mapSet, mapGet, h, h2]
    · by_cases h : k2 = k
      · subst h
        simp [mapSet, mapGet, h1, ih]
      · by_cases h3 : k1 = k2
        · simp [mapSet, mapGet, h1, h, h3]
        · simp [mapSet, mapGet, h1, h, h3, ih]

theorem mapGet_mapDelete (d : List (String × Value)) (k k2 : String) :
    mapGet (mapDelete d k) k2 = if k2 = k then none else mapGet d k2 := by
  induction d with
  | nil => simp [mapDelete, mapGet]
  | cons p rest ih =>
    obtain ⟨k1, v1⟩ := p
    unfold mapDelete at ih ⊢
    rw [List.filter_cons]
    by_cases h1 : k1 = k
    · subst h1
      have hb : (!((k1, v1).1 == k1)) = false := by simp
      rw [hb, if_neg (by simp), ih]
      by_cases h : k2 = k1
      · simp [h]
      · have h2 : ¬ k1 = k2 := fun e => h e.symm
        simp [mapGet, h, h2]
    · have hb : (!((k1, v1).1 == k)) = true := by simp [h1]
      rw [hb, if_pos rfl]
      by_cases h3 : k1 = k2
      · subst h3
        simp [mapGet, h1]
      · simp only [mapGet, h3, if_false]
        exact ih

theorem mem_mapKeys_iff (d : List (String × Value)) (k : String) :
    k ∈ mapKeys d ↔ (mapGet d k).isSome = true := by
  induction d with
  | nil => simp [mapKeys, mapGet]
  | cons p rest ih =>
    obtain ⟨k1, v1⟩ := p
    by_cases h : k1 = k
    · simp [mapKeys, mapGet, h]
    · have h2 : ¬ k = k1 := fun e => h e.symm
      simp only [mapKeys, List.map_cons, List.mem_cons, mapGet, h, h2, if_false, false_or]
      exact ih

theorem mapKeys_mapSet (d : List (String × Value)) (k k2 : String) (v : Value) :
    k2 ∈ mapKeys (mapSet d k v) ↔ (k2 = k ∨ k2 ∈ mapKeys d) := by
  rw [mem_mapKeys_iff, mem_mapKeys_iff, mapGet_mapSet]
  by_cases h : k2 = k <;> simp [h]

theorem mapKeys_mapDelete (d : List (String × Value)) (k k2 : String) :
    k2 ∈ mapKeys (mapDelete d k) ↔ (k2 ≠ k ∧ k2 ∈ mapKeys d) := by
  rw [mem_mapKeys_iff, mem_mapKeys_iff, mapGet_mapDelete]
  by_cases h : k2 = k <;> simp [h]

theorem mapDelete_of_not_mem (d : List (String × Value)) (k : String)
    (h : k ∉ mapKeys d) : mapDelete d k = d := by
  unfold mapDelete
  rw [List.filter_eq_self]
  intro p hp
  have : p.1 ≠ k := by
    intro e
    apply h
    rw [← e]
    exact List.mem_map_of_mem Prod.fst hp
  simpa using this

theorem mem_deleteKey (s : List String) (key k : String) :
    k ∈ deleteKey s key ↔ (k ∈ s ∧ k ≠ key) := by
  simp [deleteKey]

theorem deleteKey_of_not_mem (s : List String) (key : String) (h : key ∉ s) :
    deleteKey s key = s := by
  unfold deleteKey
  rw [List.filter_eq_self]
  intro a ha
  have : a ≠ key := fun e => h (e ▸ ha)
  simpa using this

theorem deleteKey_nodup (s : List String) (key : String) (h : s.Nodup) :
    (deleteKey s key).Nodup :=
  h.filter _

theorem slicesIndex_ge (s : List String) (v : String) : -1 ≤ slicesIndex s v := by
  induction s with
  | nil => simp [slicesIndex]
  | cons x xs ih =>
    unfold slicesIndex
    split
    · omega
    · split <;> omega

theorem slicesIndex_eq_neg_one (s : List String) (v : String) :
    slicesIndex s v = -1 ↔ v ∉ s := by
  induction s with
  | nil => simp [slicesIndex]
  | cons x xs ih =>
    have hge := slicesIndex_ge xs v
    unfold slicesIndex
    by_cases h : x = v
    · subst h; simp
    · have h2 : ¬ v = x := fun e => h e.symm
      simp only [h, if_false, List.mem_cons, h2, false_or]
      rw [← ih]
      split
      · simp_all
      · constructor
        · intro h3; omega
        · intro h3; contradiction

/-- The sub-slice arithmetic of `InsertAfter` computes `placeAfter`. -/
theorem insert_at_index (s : List String) (afterKey key : String) :
    (if slicesIndex s afterKey = -1 then s ++ [key]
     else s.take ((slicesIndex s afterKey).toNat + 1) ++
       ([key] ++ s.drop ((slicesIndex s afterKey).toNat + 1)))
      = placeAfter afterKey key s := by
  induction s with
  | nil => simp [slicesIndex, placeAfter]
  | cons x xs ih =>
    have hge := slicesIndex_ge xs afterKey
    by_cases h : x = afterKey
    · simp [slicesIndex, placeAfter, h]
    · by_cases h2 : slicesIndex xs afterKey = -1
      · rw [if_pos h2] at ih
        simp [slicesIndex, placeAfter, h, h2, ← ih]
      · rw [if_neg h2] at ih
        have h3 : ¬ (slicesIndex xs afterKey + 1 = -1) := by omega
        have h4 : (slicesIndex xs afterKey + 1).toNat = (slicesIndex xs afterKey).toNat + 1 := by
          omega
        simp only [slicesIndex, placeAfter, h, h2, if_false, h3, h4, List.take_succ_cons,
          List.drop_succ_cons, List.cons_append, ← ih]

theorem deleteKey_eq_filter (s : List String) (key : String) :
    deleteKey s key = s.filter (fun k => decide (k ≠ key)) := by
  unfold deleteKey
  congr 1
  funext k
  by_cases h : k = key <;> simp [h]

theorem InsertAfter_keys (om : OrderedMap) (afterKey key : String) (value : Value) :
    (om.InsertAfter afterKey key value).keys = specInsertAfterKeys om.keys afterKey key := by
  unfold OrderedMap.InsertAfter specInsertAfterKeys
  simp only [OrderedMap.keys_mk]
  rw [insert_at_index, deleteKey_eq_filter]

theorem mem_placeAfter (a key : String) (s : List String) (k : String) :
    k ∈ placeAfter a key s ↔ (k = key ∨ k ∈ s) := by
  induction s with
  | nil => simp [placeAfter]
  | cons x xs ih =>
    unfold placeAfter
    split
    · simp only [List.mem_cons]; tauto
    · simp only [List.mem_cons, ih]; tauto

theorem placeAfter_nodup (a key : String) (s : List String) (hs : s.Nodup) (hk : key ∉ s) :
    (placeAfter a key s).Nodup := by
  induction s with
  | nil => simp [placeAfter]
  | cons x xs ih =>
    rw [List.nodup_cons] at hs
    have hx : key ≠ x := fun e => hk (by simp [e])
    have hxs : key ∉ xs := fun e => hk (by simp [e])
    unfold placeAfter
    split
    · rw [List.nodup_cons, List.nodup_cons]
      refine ⟨?_, hxs, hs.2⟩
      simp only [List.mem_cons, not_or]
      exact ⟨fun e => hx e.symm, hs.1⟩
    · rw [List.nodup_cons]
      refine ⟨?_, ih hs.2 hxs⟩
      rw [mem_placeAfter]
      simp only [not_or]
      exact ⟨fun e => hx e.symm, hs.1⟩

theorem filter_ne_of_not_mem (s : List String) (key : String) (h : key ∉ s) :
    s.filter (fun k => decide (k ≠ key)) = s := by
  rw [List.filter_eq_self]
  intro b hb
  have : b ≠ key := fun e => h (e ▸ hb)
  exact decide_eq_true this

theorem placeAfter_filter (a key : String) (s : List String) (hk : key ∉ s) :
    (placeAfter a key s).filter (fun k => decide (k ≠ key)) = s := by
  induction s with
  | nil => simp [placeAfter]
  | cons x xs ih =>
    have hx : x ≠ key := fun e => hk (by simp [e])
    have hxs : key ∉ xs := fun e => hk (by simp [e])
    have hdx : decide (x ≠ key) = true := decide_eq_true hx
    have hdk : decide (key ≠ key) = false := decide_eq_false (by simp)
    unfold placeAfter
    split
    · rw [List.filter_cons, hdx, if_pos rfl, List.filter_cons, hdk, if_neg (by simp),
        filter_ne_of_not_mem xs key hxs]
    · rw [List.filter_cons, hdx, if_pos rfl, ih hxs]

/-! ## Claims on the mapping operations -/

theorem Get_eq (m : OrderedMap) (k : String) :
    m.Get k = ((mapGet m.data k).getD Value.null, (mapGet m.data k).isSome) := by
  unfold OrderedMap.Get
  cases mapGet m.data k <;> rfl

theorem Get_snd_iff (m : OrderedMap) (k : String) :
    (m.Get k).2 = true ↔ k ∈ mapKeys m.data := by
  rw [Get_eq, mem_mapKeys_iff]

theorem Inv_Set (m : OrderedMap) (key : String) (value : Value) (h : Inv m) :
    Inv (m.Set key value) := by
  obtain ⟨hnd, h1, h2⟩ := h
  unfold OrderedMap.Set
  by_cases hk : (m.Get key).2 = true
  · have hmem : key ∈ m.keys := h2 key ((Get_snd_iff m key).1 hk)
    simp only [hk, if_true]
    refine ⟨hnd, ?_, ?_⟩
    · intro k hkm
      simp only [OrderedMap.data_mk, OrderedMap.keys_mk] at hkm ⊢
      exact (mapKeys_mapSet _ _ _ _).2 (Or.inr (h1 k hkm))
    · intro k hkm
      simp only [OrderedMap.data_mk, OrderedMap.keys_mk] at hkm ⊢
      rcases (mapKeys_mapSet _ _ _ _).1 hkm with e | e
      · exact e ▸ hmem
      · exact h2 k e
  · have hnm : key ∉ m.keys := fun hm => hk ((Get_snd_iff m key).2 (h1 key hm))
    have hk2 : (m.Get key).2 = false := by simpa using hk
    simp only [hk2, Bool.false_eq_true, if_false]
    refine ⟨?_, ?_, ?_⟩
    · simp only [OrderedMap.keys_mk]
      rw [List.nodup_append]
      refine ⟨hnd, List.nodup_singleton _, ?_⟩
      intro a ha hb
      rw [List.mem_singleton] at hb
      exact hnm (hb ▸ ha)
    · intro k hkm
      simp only [OrderedMap.data_mk, OrderedMap.keys_mk, Bool.false_eq_true, if_false,
        List.mem_append, List.mem_singleton] at hkm ⊢
      rcases hkm with e | e
      · exact (mapKeys_mapSet _ _ _ _).2 (Or.inr (h1 k e))
      · exact (mapKeys_mapSet _ _ _ _).2 (Or.inl e)
    · intro k hkm
      simp only [OrderedMap.data_mk, OrderedMap.keys_mk, Bool.false_eq_true, if_false,
        List.mem_append, List.mem_singleton] at hkm ⊢
      rcases (mapKeys_mapSet _ _ _ _).1 hkm with e | e
      · exact Or.inr e
      · exact Or.inl (h2 k e)

theorem Inv_InsertAfter (m : OrderedMap) (afterKey key : String) (value : Value)
    (h : Inv m) : Inv (m.InsertAfter afterKey key value) := by
  obtain ⟨hnd, h1, h2⟩ := h
  have hkeys := InsertAfter_keys m afterKey key value
  have hdata : (m.InsertAfter afterKey key value).data = mapSet m.data key value := rfl
  have hnot : key ∉ m.keys.filter (fun k => decide (k ≠ key)) := by simp
  refine ⟨?_, ?_, ?_⟩
  · rw [hkeys]
    exact placeAfter_nodup _ _ _ (hnd.filter _) hnot
  · intro k hk
    rw [hkeys, specInsertAfterKeys, mem_placeAfter] at hk
    rw [hdata, mapKeys_mapSet]
    rcases hk with e | e
    · exact Or.inl e
    · exact Or.inr (h1 k (List.mem_filter.1 e).1)
  · intro k hk
    rw [hdata, mapKeys_mapSet] at hk
    rw [hkeys, specInsertAfterKeys, mem_placeAfter]
    by_cases e : k = key
    · exact Or.inl e
    · refine Or.inr (List.mem_filter.2 ⟨?_, by simpa using e⟩)
      rcases hk with e2 | e2
      · exact absurd e2 e
      · exact h2 k e2

theorem Inv_MoveAfter (m : OrderedMap) (afterKey key : String) (h : Inv m) :
    Inv (m.MoveAfter afterKey key) := by
  unfold OrderedMap.MoveAfter
  split
  · exact Inv_InsertAfter m afterKey key _ h
  · exact h

theorem Inv_Remove (m : OrderedMap) (key : String) (h : Inv m) : Inv (m.Remove key) := by
  obtain ⟨hnd, h1, h2⟩ := h
  unfold OrderedMap.Remove
  refine ⟨deleteKey_nodup _ _ hnd, ?_, ?_⟩
  · intro k hk
    simp only [OrderedMap.keys_mk, OrderedMap.data_mk] at hk ⊢
    rw [mem_deleteKey] at hk
    exact (mapKeys_mapDelete _ _ _).2 ⟨hk.2, h1 k hk.1⟩
  · intro k hk
    simp only [OrderedMap.keys_mk, OrderedMap.data_mk] at hk ⊢
    rw [mapKeys_mapDelete] at hk
    exact (mem_deleteKey _ _ _).2 ⟨h2 k hk.2, hk.1⟩

theorem sampleMap_Inv : Inv sampleMap := by
  unfold Inv sampleMap
  decide

theorem view_alloc (m : OrderedMap) : (GoOrderedMap.alloc m).view = m := by
  cases m
  rfl

theorem Get_alloc (m : OrderedMap) (key : String) :
    (GoOrderedMap.alloc m).Get key = m.Get key := rfl

theorem Set_alloc (m : OrderedMap) (key : String) (value : Value) :
    (GoOrderedMap.alloc m).Set key value = (GoOrderedMap.alloc (m.Set key value), none) := rfl

theorem InsertAfter_alloc (m : OrderedMap) (afterKey key : String) (value : Value) :
    (GoOrderedMap.alloc m).InsertAfter afterKey key value =
      (GoOrderedMap.alloc (m.InsertAfter afterKey key value), none) := rfl

theorem MoveAfter_alloc (m : OrderedMap) (afterKey key : String) :
    (GoOrderedMap.alloc m).MoveAfter afterKey key =
      (GoOrderedMap.alloc (m.MoveAfter afterKey key), none) := by
  unfold GoOrderedMap.MoveAfter OrderedMap.MoveAfter
  rw [Get_alloc]
  split
  · exact InsertAfter_alloc m afterKey key _
  · rfl

theorem Remove_alloc (m : OrderedMap) (key : String) :
    (GoOrderedMap.alloc m).Remove key = GoOrderedMap.alloc (m.Remove key) := rfl

theorem eq_alloc_of_isSome (m : GoOrderedMap) (h : m.data.isSome = true) :
    ∃ a, m = GoOrderedMap.alloc a := by
  obtain ⟨keys, data⟩ := m
  cases data with
  | none => simp at h
  | some d => exact ⟨OrderedMap.mk keys d, rfl⟩

theorem Inv_alloc (m : OrderedMap) : (GoOrderedMap.alloc m).Inv ↔ Inv m := by
  unfold GoOrderedMap.Inv
  rw [view_alloc]

/-- C1 as stated fails at the zero value, the Mapping that `var om OrderedMap`
declares: it satisfies the invariant, Set and InsertAfter panic on it at the write
to the nil map, and the key they appended before stays in the key sequence without
an entry in the association. -/
theorem C1_zero_value_counterexample :
    GoOrderedMap.zero.Inv ∧
      GoOrderedMap.zero.Set "a" (Value.int 1) =
        (GoOrderedMap.mk ["a"] none, some "assignment to entry in nil map") ∧
      GoOrderedMap.zero.InsertAfter "b" "a" (Value.int 1) =
        (GoOrderedMap.mk ["a"] none, some "assignment to entry in nil map") ∧
      ¬ (GoOrderedMap.mk ["a"] none).Inv :=
  ⟨by decide, rfl, rfl, by decide⟩

/-- C1 (amended): for every Mapping that satisfies the Mapping invariant and every
key, afterKey and value: when the map of the Mapping is allocated, Set and
InsertAfter return without a panic and the Mapping satisfies the invariant again;
on every Mapping, the zero value included, MoveAfter and Remove return without a
panic and the Mapping satisfies the invariant again. -/
theorem C1_operations_preserve_invariant (m : GoOrderedMap) (afterKey key : String)
    (value : Value) (h : m.Inv) :
    (m.data.isSome = true →
        (m.Set key value).2 = none ∧ (m.Set key value).1.Inv ∧
          (m.InsertAfter afterKey key value).2 = none ∧
          (m.InsertAfter afterKey key value).1.Inv) ∧
      (m.MoveAfter afterKey key).2 = none ∧ (m.MoveAfter afterKey key).1.Inv ∧
      (m.Remove key).Inv := by
  obtain ⟨keys, data⟩ := m
  cases data with
  | none =>
    refine ⟨fun hd => by simp at hd, rfl, h, ?_⟩
    exact Inv_Remove (OrderedMap.mk keys []) key h
  | some d =>
    have ha : Inv (OrderedMap.mk keys d) := h
    have e : (GoOrderedMap.mk keys (some d)) = GoOrderedMap.alloc (OrderedMap.mk keys d) := rfl
    rw [e, Set_alloc, InsertAfter_alloc, MoveAfter_alloc, Remove_alloc]
    simp only [Inv_alloc]
    exact ⟨fun _ => ⟨trivial, Inv_Set _ key value ha, trivial,
      Inv_InsertAfter _ afterKey key value ha⟩, trivial, Inv_MoveAfter _ afterKey key ha,
      Inv_Remove _ key ha⟩

/-- C1 (amended) at the mapping with keys a, b, c, whose map is allocated: each of
the four operations returns and keeps the invariant. -/
theorem C1_operations_preserve_invariant_witness :
    (GoOrderedMap.alloc sampleMap).Inv ∧ (GoOrderedMap.alloc sampleMap).data.isSome = true ∧
      (((GoOrderedMap.alloc sampleMap).Set "d" (Value.int 2)).2 = none ∧
        ((GoOrderedMap.alloc sampleMap).Set "d" (Value.int 2)).1.Inv ∧
        ((GoOrderedMap.alloc sampleMap).InsertAfter "a" "d" (Value.int 2)).2 = none ∧
        ((GoOrderedMap.alloc sampleMap).InsertAfter "a" "d" (Value.int 2)).1.Inv) ∧
      ((GoOrderedMap.alloc sampleMap).MoveAfter "a" "d").2 = none ∧
      ((GoOrderedMap.alloc sampleMap).MoveAfter "a" "d").1.Inv ∧
      ((GoOrderedMap.alloc sampleMap).Remove "d").Inv :=
  ⟨(Inv_alloc sampleMap).2 sampleMap_Inv, rfl,
    (C1_operations_preserve_invariant (GoOrderedMap.alloc sampleMap) "a" "d" (Value.int 2)
      ((Inv_alloc sampleMap).2 sampleMap_Inv)).1 rfl,
    (C1_operations_preserve_invariant (GoOrderedMap.alloc sampleMap) "a" "d" (Value.int 2)
      ((Inv_alloc sampleMap).2 sampleMap_Inv)).2⟩

theorem Get_Set_self (m : OrderedMap) (key : String) (value : Value) :
    (m.Set key value).Get key = (value, true) := by
  rw [Get_eq]
  simp [OrderedMap.Set, mapGet_mapSet]

theorem Get_Set_other (m : OrderedMap) (key k : String) (value : Value) (hk : k ≠ key) :
    (m.Set key value).Get k = m.Get k := by
  rw [Get_eq, Get_eq]
  simp [OrderedMap.Set, mapGet_mapSet, hk]

theorem Set_order_and_values (m : OrderedMap) (key : String) (value : Value)
    (h : Inv m) :
    (key ∈ m.keys → (m.Set key value).keys = m.keys) ∧
      (key ∉ m.keys → (m.Set key value).keys = m.keys ++ [key]) ∧
      (m.Set key value).Get key = (value, true) ∧
      (∀ k, k ≠ key → (m.Set key value).Get k = m.Get k) := by
  obtain ⟨_, h1, h2⟩ := h
  refine ⟨?_, ?_, Get_Set_self m key value, fun k hk => Get_Set_other m key k value hk⟩
  · intro hmem
    have : (m.Get key).2 = true := (Get_snd_iff m key).2 (h1 key hmem)
    simp [OrderedMap.Set, this]
  · intro hmem
    have : (m.Get key).2 = false := by
      cases hg : (m.Get key).2
      · rfl
      · exact absurd (h2 key ((Get_snd_iff m key).1 hg)) hmem
    simp [OrderedMap.Set, this]

/-- C3 as stated fails at the zero value, the Mapping that `var om OrderedMap`
declares: it satisfies the invariant and the key a is absent, Set("a", 1) appends
the key and then panics at the write to the nil map, and Get("a") on the Mapping
it leaves returns (nil, false), not (1, true). -/
theorem C3_Set_zero_value_counterexample :
    GoOrderedMap.zero.Inv ∧ "a" ∉ GoOrderedMap.zero.keys ∧
      GoOrderedMap.zero.Set "a" (Value.int 1) =
        (GoOrderedMap.mk ["a"] none, some "assignment to entry in nil map") ∧
      (GoOrderedMap.zero.Set "a" (Value.int 1)).1.Get "a" = (Value.null, false) :=
  ⟨by decide, by decide, rfl, rfl⟩

/-- C3 (amended): on a Mapping that satisfies the invariant and whose map is
allocated, Set(key, value) returns without a panic, leaves the key sequence
unchanged when the key is present and appends the key last when it is absent;
afterwards Get(key) returns (value, found) and every other key keeps its value. -/
theorem C3_Set_order_and_values (m : GoOrderedMap) (key : String) (value : Value)
    (h : m.Inv) (hd : m.data.isSome = true) :
    (m.Set key value).2 = none ∧
      (key ∈ m.keys → (m.Set key value).1.keys = m.keys) ∧
      (key ∉ m.keys → (m.Set key value).1.keys = m.keys ++ [key]) ∧
      (m.Set key value).1.Get key = (value, true) ∧
      (∀ k, k ≠ key → (m.Set key value).1.Get k = m.Get k) := by
  obtain ⟨a, rfl⟩ := eq_alloc_of_isSome m hd
  rw [Inv_alloc] at h
  rw [Set_alloc]
  simp only [Get_alloc]
  exact ⟨trivial, Set_order_and_values a key value h⟩

/-- C3 (amended) at the mapping with keys a, b, c, whose map is allocated, and the
present key b. -/
theorem C3_Set_order_and_values_witness :
    (GoOrderedMap.alloc sampleMap).Inv ∧ (GoOrderedMap.alloc sampleMap).data.isSome = true ∧
      ((GoOrderedMap.alloc sampleMap).Set "b" Value.null).2 = none ∧
      ((GoOrderedMap.alloc sampleMap).Set "b" Value.null).1.keys = ["a", "b", "c"] ∧
      ((GoOrderedMap.alloc sampleMap).Set "b" Value.null).1.Get "b" = (Value.null, true) ∧
      (∀ k, k ≠ "b" →
        ((GoOrderedMap.alloc sampleMap).Set "b" Value.null).1.Get k =
          (GoOrderedMap.alloc sampleMap).Get k) :=
  ⟨(Inv_alloc sampleMap).2 sampleMap_Inv, rfl,
    (C3_Set_order_and_values (GoOrderedMap.alloc sampleMap) "b" Value.null
      ((Inv_alloc sampleMap).2 sampleMap_Inv) rfl).1,
    (C3_Set_order_and_values (GoOrderedMap.alloc sampleMap) "b" Value.null
      ((Inv_alloc sampleMap).2 sampleMap_Inv) rfl).2.1 (by decide),
    (C3_Set_order_and_values (GoOrderedMap.alloc sampleMap) "b" Value.null
      ((Inv_alloc sampleMap).2 sampleMap_Inv) rfl).2.2.2.1,
    (C3_Set_order_and_values (GoOrderedMap.alloc sampleMap) "b" Value.null
      ((Inv_alloc sampleMap).2 sampleMap_Inv) rfl).2.2.2.2⟩

theorem placeAfter_of_not_mem (a key : String) (s : List String) (h : a ∉ s) :
    placeAfter a key s = s ++ [key] := by
  induction s with
  | nil => rfl
  | cons x xs ih =>
    have hx : x ≠ a := fun e => h (by simp [e])
    have hxs : a ∉ xs := fun e => h (by simp [e])
    simp [placeAfter, hx, ih hxs]

theorem placeAfter_of_mem (a key : String) (s : List String) (h : a ∈ s) :
    ∃ pre post, s = pre ++ a :: post ∧ a ∉ pre ∧
      placeAfter a key s = pre ++ a :: key :: post := by
  induction s with
  | nil => simp at h
  | cons x xs ih =>
    by_cases hx : x = a
    · exact ⟨[], xs, by simp [hx], by simp, by simp [placeAfter, hx]⟩
    · have hxs : a ∈ xs := by
        rcases List.mem_cons.1 h with e | e
        · exact absurd e.symm hx
        · exact e
      obtain ⟨pre, post, e1, e2, e3⟩ := ih hxs
      refine ⟨x :: pre, post, by simp [e1], ?_, by simp [placeAfter, hx, e3]⟩
      simp only [List.mem_cons, not_or]
      exact ⟨fun e => hx e.symm, e2⟩

theorem adjacent_append (a key : String) (pre post : List String) :
    adjacent a key (pre ++ a :: key :: post) = true := by
  induction pre with
  | nil => simp [adjacent]
  | cons x xs ih =>
    cases xs with
    | nil => simp [adjacent]
    | cons y ys =>
      simp only [List.cons_append] at ih ⊢
      simp [adjacent, ih]

theorem Get_InsertAfter_self (m : OrderedMap) (afterKey key : String) (value : Value) :
    (m.InsertAfter afterKey key value).Get key = (value, true) := by
  rw [Get_eq]
  simp [OrderedMap.InsertAfter, mapGet_mapSet]

theorem Get_InsertAfter_other (m : OrderedMap) (afterKey key k : String) (value : Value)
    (hk : k ≠ key) : (m.InsertAfter afterKey key value).Get k = m.Get k := by
  rw [Get_eq, Get_eq]
  simp [OrderedMap.InsertAfter, mapGet_mapSet, hk]

theorem InsertAfter_keys_filter (m : OrderedMap) (afterKey key : String) (value : Value) :
    (m.InsertAfter afterKey key value).keys.filter (fun k => decide (k ≠ key)) =
      m.keys.filter (fun k => decide (k ≠ key)) := by
  rw [InsertAfter_keys, specInsertAfterKeys]
  exact placeAfter_filter _ _ _ (by simp)

theorem InsertAfter_semantics (m : OrderedMap) (afterKey key : String) (value : Value)
    (h : Inv m) :
    (afterKey ∈ m.keys.filter (fun k => decide (k ≠ key)) →
        ∃ pre post, m.keys.filter (fun k => decide (k ≠ key)) = pre ++ afterKey :: post ∧
          afterKey ∉ pre ∧
          (m.InsertAfter afterKey key value).keys = pre ++ afterKey :: key :: post) ∧
      (afterKey ∉ m.keys.filter (fun k => decide (k ≠ key)) →
        (m.InsertAfter afterKey key value).keys =
          m.keys.filter (fun k => decide (k ≠ key)) ++ [key]) ∧
      (m.InsertAfter afterKey key value).keys.count key = 1 ∧
      (m.InsertAfter afterKey key value).Get key = (value, true) ∧
      (m.InsertAfter afterKey key value).keys.filter (fun k => decide (k ≠ key)) =
        m.keys.filter (fun k => decide (k ≠ key)) ∧
      (∀ k, k ≠ key → (m.InsertAfter afterKey key value).Get k = m.Get k) := by
  have hkeys := InsertAfter_keys m afterKey key value
  refine ⟨?_, ?_, ?_, Get_InsertAfter_self m afterKey key value,
    InsertAfter_keys_filter m afterKey key value,
    fun k hk => Get_InsertAfter_other m afterKey key k value hk⟩
  · intro hmem
    obtain ⟨pre, post, e1, e2, e3⟩ := placeAfter_of_mem afterKey key _ hmem
    exact ⟨pre, post, e1, e2, by rw [hkeys, specInsertAfterKeys, e3]⟩
  · intro hmem
    rw [hkeys, specInsertAfterKeys, placeAfter_of_not_mem _ _ _ hmem]
  · have hnd := (Inv_InsertAfter m afterKey key value h).1
    have hmem : key ∈ (m.InsertAfter afterKey key value).keys := by
      rw [hkeys, specInsertAfterKeys, mem_placeAfter]
      exact Or.inl rfl
    exact List.count_eq_one_of_mem hnd hmem

/-- C4 as stated fails at the zero value, the Mapping that `var om OrderedMap`
declares: it satisfies the invariant, InsertAfter("b", "x", nil) appends the key
and then panics at the write to the nil map, and Get("x") on the Mapping it leaves
returns (nil, false): the key is in the key sequence without a value. -/
theorem C4_InsertAfter_zero_value_counterexample :
    GoOrderedMap.zero.Inv ∧
      GoOrderedMap.zero.InsertAfter "b" "x" Value.null =
        (GoOrderedMap.mk ["x"] none, some "assignment to entry in nil map") ∧
      (GoOrderedMap.zero.InsertAfter "b" "x" Value.null).1.Get "x" = (Value.null, false) :=
  ⟨by decide, rfl, rfl⟩

/-- C4 (amended): on a Mapping that satisfies the invariant and whose map is
allocated, InsertAfter(afterKey, key, value) returns without a panic; afterwards
the key sequence is the old sequence with key removed and key then put right after
afterKey, or last when afterKey does not occur in it (which is also the case when
afterKey is key itself); key occurs once, Get(key) returns value, and the other
keys keep their relative order and their values. -/
theorem C4_InsertAfter_semantics (m : GoOrderedMap) (afterKey key : String) (value : Value)
    (h : m.Inv) (hd : m.data.isSome = true) :
    (m.InsertAfter afterKey key value).2 = none ∧
      (afterKey ∈ m.keys.filter (fun k => decide (k ≠ key)) →
        ∃ pre post, m.keys.filter (fun k => decide (k ≠ key)) = pre ++ afterKey :: post ∧
          afterKey ∉ pre ∧
          (m.InsertAfter afterKey key value).1.keys = pre ++ afterKey :: key :: post) ∧
      (afterKey ∉ m.keys.filter (fun k => decide (k ≠ key)) →
        (m.InsertAfter afterKey key value).1.keys =
          m.keys.filter (fun k => decide (k ≠ key)) ++ [key]) ∧
      (m.InsertAfter afterKey key value).1.keys.count key = 1 ∧
      (m.InsertAfter afterKey key value).1.Get key = (value, true) ∧
      (m.InsertAfter afterKey key value).1.keys.filter (fun k => decide (k ≠ key)) =
        m.keys.filter (fun k => decide (k ≠ key)) ∧
      (∀ k, k ≠ key → (m.InsertAfter afterKey key value).1.Get k = m.Get k) := by
  obtain ⟨a, rfl⟩ := eq_alloc_of_isSome m hd
  rw [Inv_alloc] at h
  rw [InsertAfter_alloc]
  simp only [Get_alloc]
  exact ⟨trivial, InsertAfter_semantics a afterKey key value h⟩

/-- C4 (amended) at the example of the specification: InsertAfter("b", "x", v) on
the order a, b, c, with an allocated map, gives a, b, x, c. -/
theorem C4_InsertAfter_semantics_witness :
    (GoOrderedMap.alloc sampleMap).Inv ∧ (GoOrderedMap.alloc sampleMap).data.isSome = true ∧
      ((GoOrderedMap.alloc sampleMap).InsertAfter "b" "x" Value.null).2 = none ∧
      ((GoOrderedMap.alloc sampleMap).InsertAfter "b" "x" Value.null).1.keys =
        ["a", "b", "x", "c"] ∧
      ((GoOrderedMap.alloc sampleMap).InsertAfter "b" "x" Value.null).1.keys.count "x" = 1 ∧
      ((GoOrderedMap.alloc sampleMap).InsertAfter "b" "x" Value.null).1.Get "x" =
        (Value.null, true) :=
  ⟨(Inv_alloc sampleMap).2 sampleMap_Inv, rfl,
    (C4_InsertAfter_semantics (GoOrderedMap.alloc sampleMap) "b" "x" Value.null
      ((Inv_alloc sampleMap).2 sampleMap_Inv) rfl).1,
    by decide,
    (C4_InsertAfter_semantics (GoOrderedMap.alloc sampleMap) "b" "x" Value.null
      ((Inv_alloc sampleMap).2 sampleMap_Inv) rfl).2.2.2.1,
    (C4_InsertAfter_semantics (GoOrderedMap.alloc sampleMap) "b" "x" Value.null
      ((Inv_alloc sampleMap).2 sampleMap_Inv) rfl).2.2.2.2.1⟩

theorem Get_fst_of_found (m : OrderedMap) (key : String) (h : (m.Get key).2 = true) :
    mapGet m.data key = some (m.Get key).1 := by
  rw [Get_eq] at h ⊢
  cases hg : mapGet m.data key with
  | none => rw [hg] at h; simp at h
  | some v => rfl

theorem Get_InsertAfter_same_value (m : OrderedMap) (afterKey key : String)
    (h : (m.Get key).2 = true) (k : String) :
    (m.InsertAfter afterKey key (m.Get key).1).Get k = m.Get k := by
  by_cases hk : k = key
  · subst hk
    rw [Get_InsertAfter_self]
    ext
    · rfl
    · exact h.symm
  · exact Get_InsertAfter_other m afterKey key k _ hk

/-- C5 as stated fails when afterKey is key itself: on the order a, b, c, where b
exists, MoveAfter("b", "b") gives a, c, b, in which b does not stand immediately
after b. -/
theorem C5_MoveAfter_same_key_counterexample :
    Inv sampleMap ∧ (sampleMap.Get "b").2 = true ∧
      (sampleMap.MoveAfter "b" "b").keys = ["a", "c", "b"] ∧
      adjacent "b" "b" (sampleMap.MoveAfter "b" "b").keys = false :=
  ⟨sampleMap_Inv, by decide, by decide, by decide⟩

/-- C5 (amended): on a Mapping satisfying the invariant in which key and afterKey
both exist and are different keys, after MoveAfter(afterKey, key) the key stands
immediately after afterKey; whether or not they differ, Get returns the same
values as before for every key, the key set is unchanged and the other keys keep
their relative order; when afterKey is key itself the key is moved to the end. -/
theorem C5_MoveAfter_semantics (m : OrderedMap) (afterKey key : String) (h : Inv m)
    (hkey : (m.Get key).2 = true) (hafter : (m.Get afterKey).2 = true) :
    (afterKey ≠ key → adjacent afterKey key (m.MoveAfter afterKey key).keys = true) ∧
      (afterKey = key →
        (m.MoveAfter afterKey key).keys =
          m.keys.filter (fun k => decide (k ≠ key)) ++ [key]) ∧
      (∀ k, (m.MoveAfter afterKey key).Get k = m.Get k) ∧
      (∀ k, k ∈ (m.MoveAfter afterKey key).keys ↔ k ∈ m.keys) ∧
      (m.MoveAfter afterKey key).keys.filter (fun k => decide (k ≠ key)) =
        m.keys.filter (fun k => decide (k ≠ key)) := by
  have hmove : m.MoveAfter afterKey key = m.InsertAfter afterKey key (m.Get key).1 := by
    simp [OrderedMap.MoveAfter, hkey]
  have hkeys := InsertAfter_keys m afterKey key (m.Get key).1
  have hkmem : key ∈ m.keys := h.2.2 key ((Get_snd_iff m key).1 hkey)
  have hamem : afterKey ∈ m.keys := h.2.2 afterKey ((Get_snd_iff m afterKey).1 hafter)
  rw [hmove]
  refine ⟨?_, ?_, Get_InsertAfter_same_value m afterKey key hkey, ?_,
    InsertAfter_keys_filter m afterKey key _⟩
  · intro hne
    have hmem : afterKey ∈ m.keys.filter (fun k => decide (k ≠ key)) :=
      List.mem_filter.2 ⟨hamem, by simpa using hne⟩
    obtain ⟨pre, post, _, _, e3⟩ := placeAfter_of_mem afterKey key _ hmem
    rw [hkeys, specInsertAfterKeys, e3]
    exact adjacent_append afterKey key pre post
  · intro heq
    subst heq
    rw [hkeys, specInsertAfterKeys, placeAfter_of_not_mem _ _ _ (by simp)]
  · intro k
    rw [hkeys, specInsertAfterKeys, mem_placeAfter]
    constructor
    · rintro (e | e)
      · exact e ▸ hkmem
      · exact (List.mem_filter.1 e).1
    · intro hk
      by_cases e : k = key
      · exact Or.inl e
      · exact Or.inr (List.mem_filter.2 ⟨hk, by simpa using e⟩)

/-- C5 (amended) at the order a, b, c: MoveAfter("a", "c") puts c immediately
after a. -/
theorem C5_MoveAfter_semantics_witness :
    Inv sampleMap ∧ (sampleMap.Get "c").2 = true ∧ (sampleMap.Get "a").2 = true ∧
      adjacent "a" "c" (sampleMap.MoveAfter "a" "c").keys = true :=
  ⟨sampleMap_Inv, by decide, by decide,
    (C5_MoveAfter_semantics sampleMap "a" "c" sampleMap_Inv (by decide) (by decide)).1
      (by decide)⟩

/-- C6: for every Mapping, every afterKey and every key that Get reports as not
found, MoveAfter(afterKey, key) returns the Mapping unchanged (same key sequence,
same association). -/
theorem C6_MoveAfter_missing_key_noop (m : OrderedMap) (afterKey key : String)
    (h : (m.Get key).2 = false) : m.MoveAfter afterKey key = m := by
  simp [OrderedMap.MoveAfter, h]

/-- C6 at the order a, b, c and the missing key z. -/
theorem C6_MoveAfter_missing_key_noop_witness :
    (sampleMap.Get "z").2 = false ∧ sampleMap.MoveAfter "a" "z" = sampleMap :=
  ⟨by decide, C6_MoveAfter_missing_key_noop sampleMap "a" "z" (by decide)⟩

/-- C7: on a Mapping satisfying the invariant, after Remove(key) Get(key) reports
not found and key does not occur in the key sequence; every other key keeps its
value; the key sequence is the old one without key, so the other keys keep their
relative order; and if key was absent the Mapping is unchanged. -/
theorem C7_Remove_semantics (m : OrderedMap) (key : String) (h : Inv m) :
    (m.Remove key).Get key = (Value.null, false) ∧
      key ∉ (m.Remove key).keys ∧
      (∀ k, k ≠ key → (m.Remove key).Get k = m.Get k) ∧
      (m.Remove key).keys = m.keys.filter (fun k => decide (k ≠ key)) ∧
      (key ∉ m.keys → m.Remove key = m) := by
  refine ⟨?_, ?_, ?_, ?_, ?_⟩
  · rw [Get_eq]
    simp [OrderedMap.Remove, mapGet_mapDelete]
  · simp [OrderedMap.Remove, mem_deleteKey]
  · intro k hk
    rw [Get_eq, Get_eq]
    simp [OrderedMap.Remove, mapGet_mapDelete, hk]
  · simp [OrderedMap.Remove, deleteKey_eq_filter]
  · intro hk
    have hd : key ∉ mapKeys m.data := fun e => hk (h.2.2 key e)
    unfold OrderedMap.Remove
    rw [deleteKey_of_not_mem _ _ hk, mapDelete_of_not_mem _ _ hd]
    exact OrderedMap.eta m

/-- C7 at the order a, b, c: Remove("b") leaves a, c. -/
theorem C7_Remove_semantics_witness :
    Inv sampleMap ∧ (sampleMap.Remove "b").keys = ["a", "c"] ∧
      (sampleMap.Remove "b").Get "b" = (Value.null, false) :=
  ⟨sampleMap_Inv, by decide, (C7_Remove_semantics sampleMap "b" sampleMap_Inv).1⟩

/-! ## Claims on parsing -/

theorem UnmarshalYAML_not_mapping (lib : YamlLib) (m : OrderedMap) (n : Node)
    (h : n.kind ≠ Kind.MappingNode) :
    m.UnmarshalYAML lib n = (m, some ("expected map node, got " ++ n.tag)) := by
  obtain ⟨kind, tag, value, content⟩ := n
  simp only [Node.kind] at h
  rw [OrderedMap.UnmarshalYAML]
  simp [h, Node.tag]

theorem UnmarshalYAML_odd (lib : YamlLib) (m : OrderedMap) (n : Node)
    (h : n.kind = Kind.MappingNode) (hodd : n.content.length % 2 ≠ 0) :
    m.UnmarshalYAML lib n = (m, some "invalid map node content length") := by
  obtain ⟨kind, tag, value, content⟩ := n
  simp only [Node.kind, Node.content] at h hodd
  rw [OrderedMap.UnmarshalYAML]
  simp [h, hodd]

theorem UnmarshalYAML_even (lib : YamlLib) (m : OrderedMap) (n : Node)
    (h : n.kind = Kind.MappingNode) (heven : n.content.length % 2 = 0) :
    m.UnmarshalYAML lib n = unmarshalLoop lib (OrderedMap.mk [] []) n.content := by
  obtain ⟨kind, tag, value, content⟩ := n
  simp only [Node.kind, Node.content] at h heven
  rw [OrderedMap.UnmarshalYAML]
  simp [h, heven, Node.content]

mutual
theorem parse_err (lib : YamlLib) (n : Node) (h : oddMapping n = true) :
    ∃ e, parseYAMLNode lib n = .error e := by
  match n, h with
  | .mk Kind.MappingNode tag value content, h =>
    rw [parseYAMLNode]
    simp only [oddMapping, Bool.or_eq_true, decide_eq_true_eq] at h
    by_cases hodd : content.length % 2 ≠ 0
    · rw [UnmarshalYAML_odd lib (OrderedMap.mk [] []) (Node.mk Kind.MappingNode tag value content) rfl hodd]
      exact ⟨_, rfl⟩
    · have heven : content.length % 2 = 0 := by omega
      rw [UnmarshalYAML_even lib (OrderedMap.mk [] []) (Node.mk Kind.MappingNode tag value content) rfl heven]
      have h2 : oddInValues content = true := by
        rcases h with h | h
        · exact absurd h hodd
        · exact h
      obtain ⟨e, he⟩ := loop_err lib content (OrderedMap.mk [] []) h2
      simp only [Node.content]
      generalize unmarshalLoop lib (OrderedMap.mk [] []) content = r at he
      obtain ⟨r1, r2⟩ := r
      simp only at he
      subst he
      exact ⟨_, rfl⟩
  | .mk Kind.SequenceNode tag value content, h =>
    rw [parseYAMLNode]
    simp only [oddMapping] at h
    obtain ⟨e, he⟩ := items_err lib content h
    rw [he]
    exact ⟨_, rfl⟩
  | .mk Kind.zero _ _ _, h => simp [oddMapping] at h
  | .mk Kind.DocumentNode _ _ _, h => simp [oddMapping] at h
  | .mk Kind.ScalarNode _ _ _, h => simp [oddMapping] at h
  | .mk Kind.AliasNode _ _ _, h => simp [oddMapping] at h
theorem loop_err (lib : YamlLib) (content : List Node) (m : OrderedMap)
    (h : oddInValues content = true) : ∃ e, (unmarshalLoop lib m content).2 = some e := by
  match content, h with
  | [], h => simp [oddInValues] at h
  | [_], h => simp [oddInValues] at h
  | keyNode :: valueNode :: rest, h =>
    rw [unmarshalLoop]
    simp only [oddInValues, Bool.or_eq_true] at h
    cases hk : lib.decodeString keyNode with
    | error err => exact ⟨_, rfl⟩
    | ok key =>
      simp only
      cases hv : parseYAMLNode lib valueNode with
      | error err => exact ⟨_, rfl⟩
      | ok v =>
        simp only
        rcases h with h | h
        · obtain ⟨e, he⟩ := parse_err lib valueNode h
          rw [he] at hv
          cases hv
        · exact loop_err lib rest _ h
theorem items_err (lib : YamlLib) (items : List Node) (h : oddInItems items = true) :
    ∃ e, parseItems lib items = .error e := by
  match items, h with
  | [], h => simp [oddInItems] at h
  | item :: rest, h =>
    rw [parseItems]
    simp only [oddInItems, Bool.or_eq_true] at h
    cases hv : parseYAMLNode lib item with
    | error err => exact ⟨_, rfl⟩
    | ok v =>
      simp only
      rcases h with h | h
      · obtain ⟨e, he⟩ := parse_err lib item h
        rw [he] at hv
        cases hv
      · obtain ⟨e, he⟩ := items_err lib rest h
        rw [he]
        exact ⟨_, rfl⟩
end

/-- C9: UnmarshalYAML returns an error when the node is not a mapping node and
when the node is a mapping node with an odd number of content entries, and in both
cases the receiver is left as it was; it also returns an error whenever a mapping
node reached by the traversal (a value of a mapping, an item of a sequence, at any
depth) has an odd number of content entries. -/
theorem C9_parse_errors (lib : YamlLib) (m : OrderedMap) (n : Node) :
    (n.kind ≠ Kind.MappingNode →
        (m.UnmarshalYAML lib n).2 = some ("expected map node, got " ++ n.tag) ∧
          (m.UnmarshalYAML lib n).1 = m) ∧
      (n.kind = Kind.MappingNode → n.content.length % 2 ≠ 0 →
        (m.UnmarshalYAML lib n).2 = some "invalid map node content length" ∧
          (m.UnmarshalYAML lib n).1 = m) ∧
      (oddMapping n = true → ∃ e, (m.UnmarshalYAML lib n).2 = some e) := by
  refine ⟨?_, ?_, ?_⟩
  · intro h
    rw [UnmarshalYAML_not_mapping lib m n h]
    exact ⟨rfl, rfl⟩
  · intro h hodd
    rw [UnmarshalYAML_odd lib m n h hodd]
    exact ⟨rfl, rfl⟩
  · intro h
    by_cases hk : n.kind = Kind.MappingNode
    · by_cases hodd : n.content.length % 2 ≠ 0
      · rw [UnmarshalYAML_odd lib m n hk hodd]
        exact ⟨_, rfl⟩
      · have heven : n.content.length % 2 = 0 := by omega
        rw [UnmarshalYAML_even lib m n hk heven]
        obtain ⟨kind, tag, value, content⟩ := n
        simp only [Node.kind] at hk
        subst hk
        simp only [Node.content] at hodd ⊢
        simp only [oddMapping, Bool.or_eq_true, decide_eq_true_eq] at h
        rcases h with h | h
        · exact absurd h hodd
        · exact loop_err lib content _ h
    · rw [UnmarshalYAML_not_mapping lib m n hk]
      exact ⟨_, rfl⟩

/-- C9 at a mapping whose value is a mapping with a key and no value: the parse
returns an error. -/
theorem C9_parse_errors_witness :
    oddMapping nestedOddNode = true ∧
      ∃ e, (sampleMap.UnmarshalYAML demoLib nestedOddNode).2 = some e :=
  ⟨by decide, (C9_parse_errors demoLib sampleMap nestedOddNode).2.2 (by decide)⟩

/-- C8 (the code at the failing input): on a mapping node whose two entries both
have the key a, UnmarshalYAML returns no error and leaves the key sequence a, a,
with one association entry; this Mapping does not satisfy the invariant. -/
theorem C8_duplicate_key_breaks_invariant (lib : YamlLib) (m : OrderedMap) (v1 v2 : Value)
    (hk : lib.decodeString (Node.mk Kind.ScalarNode "!!str" "a" []) = .ok "a")
    (h1 : lib.decodeAny (Node.mk Kind.ScalarNode "!!str" "x" []) = .ok v1)
    (h2 : lib.decodeAny (Node.mk Kind.ScalarNode "!!str" "y" []) = .ok v2) :
    m.UnmarshalYAML lib dupNode = (OrderedMap.mk ["a", "a"] [("a", v2)], none) ∧
      ¬ Inv (OrderedMap.mk ["a", "a"] [("a", v2)]) := by
  constructor
  · simp [dupNode, OrderedMap.UnmarshalYAML, unmarshalLoop, parseYAMLNode, hk, h1, h2, mapSet]
  · intro h
    have := h.1
    simp at this

/-- C8 at the stand-in library: the duplicate-key document parses without error
into a Mapping with the key sequence a, a. -/
theorem C8_duplicate_key_breaks_invariant_witness :
    sampleMap.UnmarshalYAML demoLib dupNode =
        (OrderedMap.mk ["a", "a"] [("a", Value.str "y")], none) ∧
      ¬ Inv (OrderedMap.mk ["a", "a"] [("a", Value.str "y")]) :=
  C8_duplicate_key_breaks_invariant demoLib sampleMap (Value.str "x") (Value.str "y")
    rfl rfl rfl

/-! ## Claims on serialising -/

mutual
theorem marshalYAML_ne_err (lib : YamlLib) (m : OrderedMap) (e : String) :
    OrderedMap.marshalYAML lib m ≠ Res.err e := by
  rw [OrderedMap.marshalYAML]
  cases h : marshalKeys lib m.data m.keys with
  | ok c => simp
  | err e2 => exact absurd h (marshalKeys_ne_err lib m.data m.keys e2)
  | panic msg => simp
termination_by (sizeOf m, 0)
decreasing_by
  apply Prod.Lex.left
  cases m
  simp [OrderedMap.data]
theorem marshalKeys_ne_err (lib : YamlLib) (data : List (String × Value))
    (keys : List String) (e : String) : marshalKeys lib data keys ≠ Res.err e := by
  match keys with
  | [] => rw [marshalKeys]; simp
  | key :: rest =>
    rw [marshalKeys]
    cases h : marshalValue lib (mapIndex data key) with
    | err e2 => exact absurd h (marshalValue_ne_err lib (mapIndex data key) e2)
    | panic msg => simp
    | ok valNode =>
      cases h2 : marshalKeys lib data rest with
      | err e2 => exact absurd h2 (marshalKeys_ne_err lib data rest e2)
      | panic msg => simp
      | ok c => simp
termination_by (sizeOf data, keys.length)
decreasing_by
  all_goals simp_wf
  all_goals first
    | exact lex_of_le_of_lt (mapIndex_sizeOf _ _) (by omega)
    | exact lex_of_le_of_lt (Nat.le_refl _) (by omega)
theorem marshalValue_ne_err (lib : YamlLib) (v : Value) (e : String) :
    marshalValue lib v ≠ Res.err e := by
  match v with
  | .omap vv => rw [marshalValue]; exact marshalYAML_ne_err lib vv e
  | .seq vv => rw [marshalValue]; exact newSeqNode_ne_err lib vv e
  | .strs vv => rw [marshalValue]; simp [newSeqNodeStr]
  | .str vv => rw [marshalValue]; simp
  | .null => rw [marshalValue]; simp
  | .int n => rw [marshalValue]; simp [scalarNode, inferYAMLTag]
  | .int64 n => rw [marshalValue]; simp [scalarNode, inferYAMLTag]
  | .int32 n => rw [marshalValue]; simp [scalarNode, inferYAMLTag]
  | .float64 b => rw [marshalValue]; simp [scalarNode, inferYAMLTag]
  | .float32 b => rw [marshalValue]; simp [scalarNode, inferYAMLTag]
  | .bool b => rw [marshalValue]; simp [scalarNode, inferYAMLTag]
  | .other t => rw [marshalValue]; simp [scalarNode, inferYAMLTag]
termination_by (sizeOf v, 0)
decreasing_by
  all_goals simp_wf
  all_goals apply Prod.Lex.left
  all_goals omega
theorem newSeqNode_ne_err (lib : YamlLib) (elems : List Value) (e : String) :
    newSeqNode lib elems ≠ Res.err e := by
  rw [newSeqNode]
  cases h : seqItems lib elems with
  | ok c => simp
  | err e2 => exact absurd h (seqItems_ne_err lib elems e2)
  | panic msg => simp
termination_by (sizeOf elems, 1)
decreasing_by
  apply Prod.Lex.right; omega
theorem seqItems_ne_err (lib : YamlLib) (elems : List Value) (e : String) :
    seqItems lib elems ≠ Res.err e := by
  match elems with
  | [] => rw [seqItems]; simp
  | el :: rest =>
    rw [seqItems]
    cases h : marshalValue lib el with
    | err e2 => exact absurd h (marshalValue_ne_err lib el e2)
    | panic msg => simp
    | ok enode =>
      cases h2 : seqItems lib rest with
      | err e2 => exact absurd h2 (seqItems_ne_err lib rest e2)
      | panic msg => simp
      | ok c => simp
termination_by (sizeOf elems, 0)
decreasing_by
  all_goals simp_wf
  all_goals apply Prod.Lex.left
  all_goals omega
end

theorem seqItems_panics (lib : YamlLib) (elems : List Value) (x : Value) (hx : x ∈ elems)
    (hp : ∃ msg, marshalValue lib x = Res.panic msg) :
    ∃ msg, seqItems lib elems = Res.panic msg := by
  induction elems with
  | nil => simp at hx
  | cons el rest ih =>
    rw [seqItems]
    cases h : marshalValue lib el with
    | err e2 => exact absurd h (marshalValue_ne_err lib el e2)
    | panic msg => exact ⟨msg, rfl⟩
    | ok enode =>
      have hx2 : x ∈ rest := by
        rcases List.mem_cons.1 hx with e | e
        · obtain ⟨msg, hm⟩ := hp
          rw [e, h] at hm
          cases hm
        · exact e
      obtain ⟨msg, hm⟩ := ih hx2
      exact ⟨msg, by simp [hm]⟩

theorem marshalKeys_panics (lib : YamlLib) (data : List (String × Value))
    (keys : List String) (k : String) (hk : k ∈ keys)
    (hp : ∃ msg, marshalValue lib (mapIndex data k) = Res.panic msg) :
    ∃ msg, marshalKeys lib data keys = Res.panic msg := by
  induction keys with
  | nil => simp at hk
  | cons key rest ih =>
    rw [marshalKeys]
    cases h : marshalValue lib (mapIndex data key) with
    | err e2 => exact absurd h (marshalValue_ne_err lib _ e2)
    | panic msg => exact ⟨msg, rfl⟩
    | ok valNode =>
      have hk2 : k ∈ rest := by
        rcases List.mem_cons.1 hk with e | e
        · obtain ⟨msg, hm⟩ := hp
          rw [e, h] at hm
          cases hm
        · exact e
      obtain ⟨msg, hm⟩ := ih hk2
      exact ⟨msg, by simp [hm]⟩

theorem deepInvList_mem (xs : List Value) (x : Value) (hx : x ∈ xs)
    (h : deepInvList xs = true) : x.deepInv = true := by
  induction xs with
  | nil => simp at hx
  | cons y ys ih =>
    simp only [deepInvList, Bool.and_eq_true] at h
    rcases List.mem_cons.1 hx with e | e
    · exact e ▸ h.1
    · exact ih e h.2

theorem deepInvData_get (d : List (String × Value)) (k : String) (v : Value)
    (hg : mapGet d k = some v) (h : deepInvData d = true) : v.deepInv = true := by
  induction d with
  | nil => simp [mapGet] at hg
  | cons p rest ih =>
    obtain ⟨k1, v1⟩ := p
    simp only [deepInvData, Bool.and_eq_true] at h
    simp only [mapGet] at hg
    split at hg
    · cases hg; exact h.1
    · exact ih hg h.2

theorem deepInv_map (m : OrderedMap) (h : m.deepInv = true) :
    Inv m ∧ deepInvData m.data = true := by
  cases m with
  | mk keys data =>
    simp only [OrderedMap.deepInv, Bool.and_eq_true, decide_eq_true_eq] at h
    exact h

theorem marshalValue_panics (lib : YamlLib) (v : Value) (hu : HasUnsupported v) :
    v.deepInv = true → ∃ msg, marshalValue lib v = Res.panic msg := by
  induction hu with
  | other t =>
    intro _
    rw [marshalValue]
    exact ⟨_, by simp [scalarNode, inferYAMLTag]; rfl⟩
  | seq xs x hx _ ih =>
    intro hd
    simp only [Value.deepInv] at hd
    obtain ⟨msg, hm⟩ := seqItems_panics lib xs x hx (ih (deepInvList_mem xs x hx hd))
    rw [marshalValue, newSeqNode, hm]
    exact ⟨msg, rfl⟩
  | omap m k v hg _ ih =>
    intro hd
    simp only [Value.deepInv] at hd
    obtain ⟨hinv, hdata⟩ := deepInv_map m hd
    have hk : k ∈ m.keys := hinv.2.2 k ((mem_mapKeys_iff _ _).2 (by simp [hg]))
    have hidx : mapIndex m.data k = v := by simp [mapIndex, hg]
    obtain ⟨msg, hm⟩ := marshalKeys_panics lib m.data m.keys k hk
      (by rw [hidx]; exact ih (deepInvData_get _ _ _ hg hdata))
    rw [marshalValue, OrderedMap.marshalYAML, hm]
    exact ⟨msg, rfl⟩

theorem marshalValue_other (lib : YamlLib) (t : String) :
    marshalValue lib (Value.other t) = Res.panic ("unsupported type: " ++ t) := by
  rw [marshalValue]
  rfl

theorem marshalValue_str (lib : YamlLib) (s : String) :
    marshalValue lib (Value.str s) = Res.ok (Node.mk Kind.ScalarNode "!!str" s []) := by
  rw [marshalValue]

theorem marshalValue_omap (lib : YamlLib) (m : OrderedMap) :
    marshalValue lib (Value.omap m) = OrderedMap.marshalYAML lib m := by
  rw [marshalValue]

theorem marshalYAML_of_keys_panic (lib : YamlLib) (m : OrderedMap) (msg : String)
    (h : marshalKeys lib m.data m.keys = Res.panic msg) :
    OrderedMap.marshalYAML lib m = Res.panic msg := by
  rw [OrderedMap.marshalYAML, h]

theorem marshalKeys_cons_panic (lib : YamlLib) (data : List (String × Value))
    (key : String) (rest : List String) (msg : String)
    (h : marshalValue lib (mapIndex data key) = Res.panic msg) :
    marshalKeys lib data (key :: rest) = Res.panic msg := by
  rw [marshalKeys, h]

theorem marshalKeys_cons_ok_panic (lib : YamlLib) (data : List (String × Value))
    (key : String) (rest : List String) (n : Node) (msg : String)
    (h : marshalValue lib (mapIndex data key) = Res.ok n)
    (h2 : marshalKeys lib data rest = Res.panic msg) :
    marshalKeys lib data (key :: rest) = Res.panic msg := by
  rw [marshalKeys, h]
  simp only
  rw [h2]

theorem unsupportedMap_has : HasUnsupported (Value.omap unsupportedMap) :=
  HasUnsupported.omap unsupportedMap "custom" _ rfl
    (HasUnsupported.omap _ "severity" _ rfl (HasUnsupported.other "uint"))

theorem unsupportedMap_deepInv : unsupportedMap.deepInv = true := by
  decide

/-- C10 as stated fails: the Mapping whose nested Mapping holds a uint satisfies the
invariant at every level and contains a value of unsupported type, and marshalYAML
on it does not return an error: the call panics in inferYAMLTag. -/
theorem C10_unsupported_value_counterexample :
    unsupportedMap.deepInv = true ∧ HasUnsupported (Value.omap unsupportedMap) ∧
      OrderedMap.marshalYAML demoLib unsupportedMap = Res.panic "unsupported type: uint" ∧
      ∀ e, OrderedMap.marshalYAML demoLib unsupportedMap ≠ Res.err e :=
  ⟨unsupportedMap_deepInv, unsupportedMap_has,
    marshalYAML_of_keys_panic demoLib unsupportedMap _
      (marshalKeys_cons_ok_panic demoLib _ "name" ["custom"] _ _
        (marshalValue_str demoLib "n")
        (marshalKeys_cons_panic demoLib _ "custom" [] _
          ((marshalValue_omap demoLib _).trans
            (marshalYAML_of_keys_panic demoLib
              (OrderedMap.mk ["severity"] [("severity", Value.other "uint")]) _
              (marshalKeys_cons_panic demoLib _ "severity" [] _
                (marshalValue_other demoLib "uint")))))),
    fun e => marshalYAML_ne_err demoLib unsupportedMap e⟩

/-- C10 (amended): marshalYAML never returns an error; for every Mapping that
satisfies the invariant at every level and contains, at any depth, a value whose
dynamic type is not one of the supported kinds, marshalYAML panics. -/
theorem C10_unsupported_value_panics (lib : YamlLib) (m : OrderedMap)
    (hinv : m.deepInv = true) (hu : HasUnsupported (Value.omap m)) :
    (∃ msg, OrderedMap.marshalYAML lib m = Res.panic msg) ∧
      ∀ e, OrderedMap.marshalYAML lib m ≠ Res.err e := by
  refine ⟨?_, fun e => marshalYAML_ne_err lib m e⟩
  have h := marshalValue_panics lib (Value.omap m) hu (by simpa [Value.deepInv] using hinv)
  rw [marshalValue] at h
  exact h

/-- C10 (amended) at the Mapping whose nested Mapping holds a uint. -/
theorem C10_unsupported_value_panics_witness :
    unsupportedMap.deepInv = true ∧ HasUnsupported (Value.omap unsupportedMap) ∧
      (∃ msg, OrderedMap.marshalYAML demoLib unsupportedMap = Res.panic msg) :=
  ⟨unsupportedMap_deepInv, unsupportedMap_has,
    (C10_unsupported_value_panics demoLib unsupportedMap unsupportedMap_deepInv
      unsupportedMap_has).1⟩

/-! ## The round trip -/

theorem mapIndex_normData (d : List (String × Value)) (k : String) :
    mapIndex (normData d) k = normValue (mapIndex d k) := by
  induction d with
  | nil => simp [normData, mapIndex, mapGet, normValue]
  | cons p rest ih =>
    obtain ⟨k1, v1⟩ := p
    by_cases h : k1 = k
    · simp [normData, mapIndex, mapGet, h]
    · simp only [mapIndex, normData, mapGet, h, if_false] at ih ⊢
      exact ih

theorem supported_mapIndex (P : Value → Prop) (d : List (String × Value)) (k : String)
    (h : supportedData P d) : (mapIndex d k).supported P := by
  induction d with
  | nil => simp [mapIndex, mapGet, Value.supported]
  | cons p rest ih =>
    obtain ⟨k1, v1⟩ := p
    simp only [supportedData] at h
    by_cases hk : k1 = k
    · simpa [mapIndex, mapGet, hk] using h.1
    · simp only [mapIndex, mapGet, hk, if_false] at ih ⊢
      exact ih h.2

theorem supportedData_mapSet (P : Value → Prop) (d : List (String × Value)) (k : String)
    (v : Value) (h : supportedData P d) (hv : v.supported P) :
    supportedData P (mapSet d k v) := by
  induction d with
  | nil => simpa [mapSet, supportedData] using hv
  | cons p rest ih =>
    obtain ⟨k1, v1⟩ := p
    simp only [supportedData] at h
    by_cases hk : k1 = k
    · simpa [mapSet, hk, supportedData] using ⟨hv, h.2⟩
    · simpa [mapSet, hk, supportedData] using ⟨h.1, ih h.2⟩

theorem supported_map_iff (P : Value → Prop) (m : OrderedMap) :
    m.supported P ↔ Inv m ∧ supportedData P m.data := by
  cases m
  simp [OrderedMap.supported]

theorem Built_alloc (P : Value → Prop) (m : GoOrderedMap) (h : Built P m) :
    ∃ a, m = GoOrderedMap.alloc a ∧ a.supported P := by
  induction h with
  | empty =>
    refine ⟨OrderedMap.mk [] [], rfl, ?_⟩
    rw [supported_map_iff]
    exact ⟨by decide, by simp [supportedData]⟩
  | set m key value _ hv ih =>
    obtain ⟨a, rfl, ha⟩ := ih
    rw [supported_map_iff] at ha
    refine ⟨a.Set key value, by rw [Set_alloc], ?_⟩
    rw [supported_map_iff]
    exact ⟨Inv_Set a key value ha.1, supportedData_mapSet P _ _ _ ha.2 hv⟩
  | insertAfter m afterKey key value _ hv ih =>
    obtain ⟨a, rfl, ha⟩ := ih
    rw [supported_map_iff] at ha
    refine ⟨a.InsertAfter afterKey key value, by rw [InsertAfter_alloc], ?_⟩
    rw [supported_map_iff]
    exact ⟨Inv_InsertAfter a afterKey key value ha.1, supportedData_mapSet P _ _ _ ha.2 hv⟩

theorem GoUnmarshalYAML_of_loop (lib : YamlLib) (m : GoOrderedMap) (n : Node)
    (res : OrderedMap) (e : Option String) (hk : n.kind = Kind.MappingNode)
    (he : n.content.length % 2 = 0)
    (h : unmarshalLoop lib (OrderedMap.mk [] []) n.content = (res, e)) :
    GoOrderedMap.UnmarshalYAML lib m n = (GoOrderedMap.alloc res, e) := by
  unfold GoOrderedMap.UnmarshalYAML
  rw [if_neg (by simp [hk]), if_neg (by simp [he]), h]

theorem GoUnmarshalYAML_of_ok (lib : YamlLib) (m : GoOrderedMap) (r : OrderedMap) (n : Node)
    (res : OrderedMap) (h : OrderedMap.UnmarshalYAML lib r n = (res, none)) :
    GoOrderedMap.UnmarshalYAML lib m n = (GoOrderedMap.alloc res, none) := by
  by_cases hk : n.kind = Kind.MappingNode
  · by_cases he : n.content.length % 2 = 0
    · rw [UnmarshalYAML_even lib r n hk he] at h
      exact GoUnmarshalYAML_of_loop lib m n res none hk he h
    · rw [UnmarshalYAML_odd lib r n hk he] at h
      exact absurd (congrArg Prod.snd h) (by simp)
  · rw [UnmarshalYAML_not_mapping lib r n hk] at h
    exact absurd (congrArg Prod.snd h) (by simp)

theorem mapSet_of_not_mem (d : List (String × Value)) (k : String) (v : Value)
    (h : k ∉ mapKeys d) : mapSet d k v = d ++ [(k, v)] := by
  induction d with
  | nil => rfl
  | cons p rest ih =>
    obtain ⟨k1, v1⟩ := p
    have h1 : k1 ≠ k := fun e => h (by simp [mapKeys, e])
    have h2 : k ∉ mapKeys rest := fun e => h (by
      simp only [mapKeys, List.map_cons, List.mem_cons]
      exact Or.inr e)
    simp [mapSet, h1, ih h2]

theorem loop_fold_eq (f : String → Value) (keys : List String) (ks0 : List String)
    (d0 : List (String × Value)) (hnd : keys.Nodup) (hdis : ∀ k ∈ keys, k ∉ mapKeys d0) :
    keys.foldl (fun a k => OrderedMap.mk (a.keys ++ [k]) (mapSet a.data k (f k)))
        (OrderedMap.mk ks0 d0) =
      OrderedMap.mk (ks0 ++ keys) (d0 ++ keys.map (fun k => (k, f k))) := by
  induction keys generalizing ks0 d0 with
  | nil => simp
  | cons k rest ih =>
    rw [List.nodup_cons] at hnd
    have hk : k ∉ mapKeys d0 := hdis k (by simp)
    simp only [List.foldl_cons, OrderedMap.keys_mk, OrderedMap.data_mk]
    rw [mapSet_of_not_mem d0 k (f k) hk, ih _ _ hnd.2]
    · simp
    · intro k2 hk2 hmem
      simp only [mapKeys, List.map_append, List.map_cons, List.map_nil, List.mem_append,
        List.mem_singleton] at hmem
      rcases hmem with e | e
      · exact hdis k2 (by simp [hk2]) e
      · exact hnd.1 (e ▸ hk2)

theorem parseYAMLNode_scalar (lib : YamlLib) (tag value : String) (content : List Node) :
    parseYAMLNode lib (Node.mk Kind.ScalarNode tag value content) =
      lib.decodeAny (Node.mk Kind.ScalarNode tag value content) := by
  rw [parseYAMLNode]
  all_goals intro h
  all_goals cases h

theorem unmarshalLoop_nil (lib : YamlLib) (m : OrderedMap) :
    unmarshalLoop lib m [] = (m, none) := by
  rw [unmarshalLoop]
  intro keyNode valueNode rest h
  cases h

theorem parseItems_strs (lib : YamlLib) (P : Value → Prop) (hlib : LibFaithful lib P)
    (xs : List String) :
    parseItems lib (xs.map (fun el => Node.mk Kind.ScalarNode "!!str" el [])) =
      .ok (xs.map Value.str) := by
  induction xs with
  | nil => rw [List.map_nil, parseItems]; rfl
  | cons x rest ih =>
    rw [List.map_cons, parseItems, parseYAMLNode_scalar, hlib.str]
    simp only
    rw [ih]
    rfl

mutual
theorem rt_map (lib : YamlLib) (P : Value → Prop) (hlib : LibFaithful lib P)
    (m : OrderedMap) (hs : m.supported P) :
    ∃ n, OrderedMap.marshalYAML lib m = Res.ok n ∧
      ∀ r, OrderedMap.UnmarshalYAML lib r n = (normMap m, none) := by
  rw [supported_map_iff] at hs
  obtain ⟨hinv, hdata⟩ := hs
  obtain ⟨c, hc, heven, hloop⟩ := rt_keys lib P hlib m.data m.keys
    (fun k _ => supported_mapIndex P m.data k hdata)
  refine ⟨Node.mk Kind.MappingNode "!!map" "" c, ?_, ?_⟩
  · rw [OrderedMap.marshalYAML, hc]
  · intro r
    rw [UnmarshalYAML_even lib r (Node.mk Kind.MappingNode "!!map" "" c) rfl heven]
    simp only [Node.content]
    rw [hloop, loop_fold_eq _ _ _ _ hinv.1 (by simp [mapKeys])]
    cases m
    simp [normMap, mapIndex_normData]
termination_by (sizeOf m, 0)
decreasing_by
  apply Prod.Lex.left
  cases m
  simp [OrderedMap.data]
theorem rt_keys (lib : YamlLib) (P : Value → Prop) (hlib : LibFaithful lib P)
    (data : List (String × Value)) (keys : List String)
    (hs : ∀ k ∈ keys, (mapIndex data k).supported P) :
    ∃ c, marshalKeys lib data keys = Res.ok c ∧ c.length % 2 = 0 ∧
      ∀ acc, unmarshalLoop lib acc c =
        (keys.foldl (fun a k =>
          OrderedMap.mk (a.keys ++ [k]) (mapSet a.data k (normValue (mapIndex data k)))) acc,
          none) := by
  match keys, hs with
  | [], _ =>
    refine ⟨[], by rw [marshalKeys], rfl, fun acc => ?_⟩
    rw [unmarshalLoop_nil]
    rfl
  | key :: rest, hs =>
    obtain ⟨n, hn, hp⟩ := rt_value lib P hlib (mapIndex data key) (hs key (by simp))
    obtain ⟨c, hc, heven, hloop⟩ := rt_keys lib P hlib data rest
      (fun k hk => hs k (by simp [hk]))
    refine ⟨Node.mk Kind.ScalarNode "!!str" key [] :: n :: c, ?_, ?_, ?_⟩
    · rw [marshalKeys, hn]
      simp only
      rw [hc]
    · simp only [List.length_cons]
      omega
    · intro acc
      rw [unmarshalLoop, hlib.key]
      simp only
      rw [hp]
      simp only
      rw [hloop]
      rfl
termination_by (sizeOf data, keys.length)
decreasing_by
  all_goals simp_wf
  all_goals first
    | exact lex_of_le_of_lt (mapIndex_sizeOf _ _) (by omega)
    | exact lex_of_le_of_lt (Nat.le_refl _) (by omega)
theorem rt_value (lib : YamlLib) (P : Value → Prop) (hlib : LibFaithful lib P)
    (v : Value) (hs : v.supported P) :
    ∃ n, marshalValue lib v = Res.ok n ∧ parseYAMLNode lib n = .ok (normValue v) := by
  match v, hs with
  | .omap m, hs =>
    simp only [Value.supported] at hs
    obtain ⟨n, hn, hp⟩ := rt_map lib P hlib m hs
    have hkind : ∃ c, n = Node.mk Kind.MappingNode "!!map" "" c := by
      rw [OrderedMap.marshalYAML] at hn
      cases hk : marshalKeys lib m.data m.keys with
      | ok c => rw [hk] at hn; cases hn; exact ⟨c, rfl⟩
      | err e => rw [hk] at hn; cases hn
      | panic msg => rw [hk] at hn; cases hn
    obtain ⟨c, rfl⟩ := hkind
    refine ⟨_, by rw [marshalValue]; exact hn, ?_⟩
    rw [parseYAMLNode, hp]
    simp [normValue]
  | .seq xs, hs =>
    simp only [Value.supported] at hs
    obtain ⟨c, hc, hp⟩ := rt_items lib P hlib xs hs
    refine ⟨Node.mk Kind.SequenceNode "!!seq" "" c, ?_, ?_⟩
    · rw [marshalValue, newSeqNode, hc]
    · rw [parseYAMLNode, hp]
      simp [normValue]
  | .strs xs, _ =>
    refine ⟨_, by rw [marshalValue]; rfl, ?_⟩
    rw [parseYAMLNode, parseItems_strs lib P hlib]
    simp [normValue]
  | .str s, _ =>
    refine ⟨_, by rw [marshalValue], ?_⟩
    rw [parseYAMLNode_scalar, hlib.str]
    simp [normValue]
  | .null, _ =>
    refine ⟨_, by rw [marshalValue], ?_⟩
    rw [parseYAMLNode_scalar, hlib.null]
    simp [normValue]
  | .int n, hs =>
    refine ⟨_, by rw [marshalValue]; rfl, ?_⟩
    rw [parseYAMLNode_scalar]
    exact hlib.scalar _ _ hs hs rfl
  | .int64 n, hs =>
    refine ⟨_, by rw [marshalValue]; rfl, ?_⟩
    rw [parseYAMLNode_scalar]
    exact hlib.scalar _ _ hs hs rfl
  | .int32 n, hs =>
    refine ⟨_, by rw [marshalValue]; rfl, ?_⟩
    rw [parseYAMLNode_scalar]
    exact hlib.scalar _ _ hs hs rfl
  | .float64 b, hs =>
    refine ⟨_, by rw [marshalValue]; rfl, ?_⟩
    rw [parseYAMLNode_scalar]
    exact hlib.scalar _ _ hs hs rfl
  | .float32 b, hs => simp [Value.supported] at hs
  | .bool b, hs =>
    refine ⟨_, by rw [marshalValue]; rfl, ?_⟩
    rw [parseYAMLNode_scalar]
    exact hlib.scalar _ _ hs hs rfl
  | .other t, hs => simp [Value.supported] at hs
termination_by (sizeOf v, 0)
decreasing_by
  all_goals simp_wf
  all_goals apply Prod.Lex.left
  all_goals omega
theorem rt_items (lib : YamlLib) (P : Value → Prop) (hlib : LibFaithful lib P)
    (elems : List Value) (hs : supportedList P elems) :
    ∃ c, seqItems lib elems = Res.ok c ∧ parseItems lib c = .ok (normList elems) := by
  match elems, hs with
  | [], _ =>
    refine ⟨[], by rw [seqItems], ?_⟩
    rw [parseItems]
    simp [normList]
  | el :: rest, hs =>
    simp only [supportedList] at hs
    obtain ⟨n, hn, hp⟩ := rt_value lib P hlib el hs.1
    obtain ⟨c, hc, hpc⟩ := rt_items lib P hlib rest hs.2
    refine ⟨n :: c, ?_, ?_⟩
    · rw [seqItems, hn]
      simp only
      rw [hc]
    · rw [parseItems, hp]
      simp only
      rw [hpc]
      simp [normList]
termination_by (sizeOf elems, 0)
decreasing_by
  all_goals simp_wf
  all_goals apply Prod.Lex.left
  all_goals omega
end

theorem normMap_keys (m : OrderedMap) : (normMap m).keys = m.keys := by
  cases m
  simp [normMap]

theorem mapGet_map_of_mem (f : String → Value) (keys : List String) (k : String)
    (h : k ∈ keys) : mapGet (keys.map (fun k => (k, f k))) k = some (f k) := by
  induction keys with
  | nil => simp at h
  | cons x rest ih =>
    by_cases hx : x = k
    · simp [mapGet, hx]
    · have hr : k ∈ rest := by
        rcases List.mem_cons.1 h with e | e
        · exact absurd e.symm hx
        · exact e
      simp only [List.map_cons, mapGet, hx, if_false]
      exact ih hr

theorem mapGet_map_of_not_mem (f : String → Value) (keys : List String) (k : String)
    (h : k ∉ keys) : mapGet (keys.map (fun k => (k, f k))) k = none := by
  induction keys with
  | nil => simp [mapGet]
  | cons x rest ih =>
    have hx : x ≠ k := fun e => h (by simp [e])
    have hr : k ∉ rest := fun e => h (by simp [e])
    simp only [List.map_cons, mapGet, hx, if_false]
    exact ih hr

theorem normMap_get (m : OrderedMap) (h : Inv m) (k : String) :
    mapGet (normMap m).data k = (mapGet m.data k).map normValue := by
  cases m with
  | mk keys data =>
    simp only [normMap, OrderedMap.data_mk]
    by_cases hk : k ∈ keys
    · rw [mapGet_map_of_mem _ _ _ hk, mapIndex_normData]
      have hd : k ∈ mapKeys data := h.2.1 k hk
      rw [mem_mapKeys_iff] at hd
      cases hg : mapGet data k with
      | none => rw [hg] at hd; simp at hd
      | some v => simp [mapIndex, hg]
    · rw [mapGet_map_of_not_mem _ _ _ hk]
      have hd : k ∉ mapKeys data := fun e => hk (h.2.2 k e)
      rw [mem_mapKeys_iff] at hd
      cases hg : mapGet data k with
      | none => rfl
      | some v => rw [hg] at hd; simp at hd

theorem marshalYAML_of_keys_ok (lib : YamlLib) (m : OrderedMap) (c : List Node)
    (h : marshalKeys lib m.data m.keys = Res.ok c) :
    OrderedMap.marshalYAML lib m = Res.ok (Node.mk Kind.MappingNode "!!map" "" c) := by
  rw [OrderedMap.marshalYAML, h]

theorem marshalKeys_nil (lib : YamlLib) (data : List (String × Value)) :
    marshalKeys lib data [] = Res.ok [] := by
  rw [marshalKeys]

theorem marshalKeys_cons_ok (lib : YamlLib) (data : List (String × Value))
    (key : String) (rest : List String) (n : Node) (c : List Node)
    (h : marshalValue lib (mapIndex data key) = Res.ok n)
    (h2 : marshalKeys lib data rest = Res.ok c) :
    marshalKeys lib data (key :: rest) =
      Res.ok (Node.mk Kind.ScalarNode "!!str" key [] :: n :: c) := by
  rw [marshalKeys, h]
  simp only
  rw [h2]

theorem marshalValue_float64 (lib : YamlLib) (b : Nat) :
    marshalValue lib (Value.float64 b) =
      Res.ok (Node.mk Kind.ScalarNode "!!float" (lib.sprintV (Value.float64 b)) []) := by
  rw [marshalValue]
  rfl

theorem unmarshalLoop_value_err (lib : YamlLib) (m : OrderedMap) (keyNode valueNode : Node)
    (rest : List Node) (key err : String) (hk : lib.decodeString keyNode = .ok key)
    (hv : parseYAMLNode lib valueNode = .error err) :
    unmarshalLoop lib m (keyNode :: valueNode :: rest) =
      (OrderedMap.mk (m.keys ++ [key]) m.data, some err) := by
  rw [unmarshalLoop, hk]
  simp only
  rw [hv]

/-- C2 as stated fails for a float: the Mapping built from the allocated empty
Mapping by Set("score", NaN) is serialised to the scalar with tag `!!float` and the
text `NaN` that `%v` prints, and UnmarshalYAML on that node returns the error of
the library, which reads no float from that text. -/
theorem C2_round_trip_NaN_counterexample :
    Built (fun _ => True) nanMap ∧
      GoOrderedMap.marshalYAML nanLib nanMap = Res.ok nanNode ∧
      GoOrderedMap.UnmarshalYAML nanLib GoOrderedMap.zero nanNode =
        (GoOrderedMap.alloc (OrderedMap.mk ["score"] []),
          some "yaml: cannot decode !!str `NaN` as a !!float") :=
  ⟨Built.set _ "score" (Value.float64 nanBits) Built.empty trivial,
    marshalYAML_of_keys_ok nanLib (OrderedMap.mk ["score"] [("score", Value.float64 nanBits)]) _
      (marshalKeys_cons_ok nanLib _ "score" [] _ _ (marshalValue_float64 nanLib nanBits)
        (marshalKeys_nil nanLib _)),
    GoUnmarshalYAML_of_loop nanLib GoOrderedMap.zero nanNode _ _ rfl rfl
      (unmarshalLoop_value_err nanLib (OrderedMap.mk [] [])
        (Node.mk Kind.ScalarNode "!!str" "score" []) (Node.mk Kind.ScalarNode "!!float" "NaN" [])
        [] "score" _ rfl ((parseYAMLNode_scalar nanLib "!!float" "NaN" []).trans rfl))⟩

/-- C2 (amended): for a library that decodes the scalar nodes marshalValue makes
for the scalars in P back to these scalars (LibFaithful; the Go libraries do not do
so for the float64 NaN, which P then leaves out), and every Mapping m built from
the allocated empty Mapping by Set and InsertAfter with supported values (strings,
null, lists of strings, the integers, float64 values and booleans in P, sequences
and nested Mappings of such values; float32 values left out), marshalYAML returns
a node on which UnmarshalYAML, whatever the receiver held, returns no error and
leaves a Mapping with an allocated map, the key sequence of m and, under every
key, the value of m read back (normValue: same nesting, keys and order at every
depth, int64 and int32 as int, a list of strings as a sequence), which satisfies
the invariant. -/
theorem C2_round_trip (lib : YamlLib) (P : Value → Prop) (hlib : LibFaithful lib P)
    (m : GoOrderedMap) (hm : Built P m) (r : GoOrderedMap) :
    ∃ n, GoOrderedMap.marshalYAML lib m = Res.ok n ∧
      GoOrderedMap.UnmarshalYAML lib r n = (GoOrderedMap.alloc (normMap m.view), none) ∧
      (normMap m.view).keys = m.keys ∧
      (∀ k, mapGet (normMap m.view).data k = (mapGet m.view.data k).map normValue) ∧
      Inv (normMap m.view) := by
  obtain ⟨a, rfl, hs⟩ := Built_alloc P m hm
  unfold GoOrderedMap.marshalYAML
  rw [view_alloc]
  have hinv : Inv a := ((supported_map_iff P a).1 hs).1
  obtain ⟨n, hn, hp⟩ := rt_map lib P hlib a hs
  refine ⟨n, hn, GoUnmarshalYAML_of_ok lib r a n _ (hp a), normMap_keys a,
    normMap_get a hinv, ?_⟩
  refine ⟨?_, ?_, ?_⟩
  · rw [normMap_keys]; exact hinv.1
  · intro k hk
    rw [normMap_keys] at hk
    rw [mem_mapKeys_iff, normMap_get a hinv]
    have := (mem_mapKeys_iff a.data k).1 (hinv.2.1 k hk)
    cases hg : mapGet a.data k with
    | none => rw [hg] at this; simp at this
    | some v => simp
  · intro k hk
    rw [mem_mapKeys_iff, normMap_get a hinv] at hk
    rw [normMap_keys]
    apply hinv.2.2 k
    rw [mem_mapKeys_iff]
    cases hg : mapGet a.data k with
    | none => rw [hg] at hk; simp at hk
    | some v => simp

theorem demoLib_faithful : LibFaithful demoLib isBool where
  key := fun s => by simp [demoLib, Node.kind, Node.value]
  str := fun s => by simp [demoLib, Node.tag, Node.value]
  null := by simp [demoLib, Node.tag]
  scalar := by
    rintro v tag ⟨b, rfl⟩ _ htag
    simp only [inferYAMLTag] at htag
    cases htag
    cases b <;> simp [demoLib, Node.tag, Node.value, normValue]

theorem builtMap_Built : Built isBool builtMap := by
  unfold builtMap
  refine Built.insertAfter _ _ _ _ (Built.set _ _ _ (Built.set _ _ _ Built.empty ?_) ?_) ?_
  · simp [Value.supported]
  · simp only [Value.supported]
    rw [supported_map_iff]
    refine ⟨by decide, ?_⟩
    refine supportedData_mapSet isBool _ _ _ (supportedData_mapSet isBool _ _ _ ?_ ?_) ?_
    · simp [supportedData]
    · simp only [Value.supported]; exact ⟨true, rfl⟩
    · simp [Value.supported, supportedList]
  · simp [Value.supported]

/-- C2 (amended) at a Mapping built by Set and InsertAfter that holds a string, a
nested Mapping with a boolean and a list, and a list of strings, with the stand-in
library and the zero value as the receiver. -/
theorem C2_round_trip_witness :
    LibFaithful demoLib isBool ∧ Built isBool builtMap ∧
      ∃ n, GoOrderedMap.marshalYAML demoLib builtMap = Res.ok n ∧
        GoOrderedMap.UnmarshalYAML demoLib GoOrderedMap.zero n =
          (GoOrderedMap.alloc (normMap builtMap.view), none) ∧
        (normMap builtMap.view).keys = builtMap.keys ∧
        (∀ k, mapGet (normMap builtMap.view).data k =
          (mapGet builtMap.view.data k).map normValue) ∧
        Inv (normMap builtMap.view) :=
  ⟨demoLib_faithful, builtMap_Built,
    C2_round_trip demoLib isBool demoLib_faithful builtMap builtMap_Built GoOrderedMap.zero⟩

/-! ## Claims on the alias order -/

theorem aliasLe_iff (a b : String) :
    aliasLe a b ↔
      (hasAVDPrefix a = true ∧ hasAVDPrefix b = false) ∨
        (hasAVDPrefix a = hasAVDPrefix b ∧
          ((isUpperOrDigits a = true ∧ isUpperOrDigits b = false) ∨
            (isUpperOrDigits a = isUpperOrDigits b ∧
              (a.utf8ByteSize < b.utf8ByteSize ∨
                (a.utf8ByteSize = b.utf8ByteSize ∧ a ≤ b))))) := by
  unfold aliasLe cmpAlias
  cases hasAVDPrefix a <;> cases hasAVDPrefix b <;>
    cases isUpperOrDigits a <;> cases isUpperOrDigits b <;>
    simp [-String.le_iff_toList_le, -String.lt_iff_toList_lt]
  all_goals
    by_cases hs : a.utf8ByteSize = b.utf8ByteSize
    · simp only [hs, if_true, lt_irrefl, false_or, true_and]
      rcases lt_trichotomy a b with h | h | h
      · simp only [h, if_true, le_of_lt h, iff_true]
        omega
      · subst h
        simp only [lt_irrefl, if_false, le_refl]
      · have h1 : ¬ a < b := not_lt.2 (le_of_lt h)
        have h2 : ¬ a ≤ b := not_le.2 h
        simp only [h1, h2, if_false, h, if_true, iff_false]
        omega
    · simp only [hs, if_false, false_and, or_false]
      omega

theorem aliasLe_total (a b : String) : aliasLe a b ∨ aliasLe b a := by
  rw [aliasLe_iff, aliasLe_iff]
  cases hasAVDPrefix a <;> cases hasAVDPrefix b <;>
    cases isUpperOrDigits a <;> cases isUpperOrDigits b <;>
    simp [-String.le_iff_toList_le, -String.lt_iff_toList_lt]
  all_goals
    rcases lt_trichotomy a.utf8ByteSize b.utf8ByteSize with h | h | h
    · exact Or.inl (Or.inl h)
    · rcases le_total a b with h2 | h2
      · exact Or.inl (Or.inr ⟨h, h2⟩)
      · exact Or.inr (Or.inr ⟨h.symm, h2⟩)
    · exact Or.inr (Or.inl h)

theorem aliasLe_trans (a b c : String) (h1 : aliasLe a b) (h2 : aliasLe b c) :
    aliasLe a c := by
  rw [aliasLe_iff] at h1 h2 ⊢
  generalize hasAVDPrefix a = pa at h1 h2 ⊢
  generalize hasAVDPrefix b = pb at h1 h2 ⊢
  generalize hasAVDPrefix c = pc at h1 h2 ⊢
  generalize isUpperOrDigits a = ua at h1 h2 ⊢
  generalize isUpperOrDigits b = ub at h1 h2 ⊢
  generalize isUpperOrDigits c = uc at h1 h2 ⊢
  cases pa <;> cases pb <;> cases pc <;> cases ua <;> cases ub <;> cases uc <;>
    simp [-String.le_iff_toList_le, -String.lt_iff_toList_lt] at h1 h2 ⊢
  all_goals
    rcases h1 with h1 | ⟨e1, h1⟩
    · rcases h2 with h2 | ⟨e2, _⟩
      · exact Or.inl (lt_trans h1 h2)
      · exact Or.inl (e2 ▸ h1)
    · rcases h2 with h2 | ⟨e2, h2⟩
      · exact Or.inl (e1 ▸ h2)
      · exact Or.inr ⟨e1.trans e2, le_trans h1 h2⟩

theorem aliasLe_antisymm (a b : String) (h1 : aliasLe a b) (h2 : aliasLe b a) : a = b := by
  rw [aliasLe_iff] at h1 h2
  generalize hasAVDPrefix a = pa at h1 h2
  generalize hasAVDPrefix b = pb at h1 h2
  generalize isUpperOrDigits a = ua at h1 h2
  generalize isUpperOrDigits b = ub at h1 h2
  cases pa <;> cases pb <;> cases ua <;> cases ub <;>
    simp [-String.le_iff_toList_le, -String.lt_iff_toList_lt] at h1 h2
  all_goals
    rcases h1 with h1 | ⟨_, h1⟩
    · rcases h2 with h2 | ⟨e2, _⟩
      · omega
      · omega
    · rcases h2 with h2 | ⟨_, h2⟩
      · omega
      · exact le_antisymm h1 h2

instance : IsTotal String aliasLe := ⟨aliasLe_total⟩

instance : IsTrans String aliasLe := ⟨aliasLe_trans⟩

instance : IsAntisymm String aliasLe := ⟨aliasLe_antisymm⟩

theorem sortAliases_eq (xs : List String) : sortAliases xs = xs.insertionSort aliasLe := rfl

/-- C15: sortAliases returns a permutation of its input that is sorted by the order
of the comparison function (AVD- entries first, then entries of upper-case letters
and digits only, then shorter before longer, then lexicographically); this order is
total, transitive and antisymmetric, so every sorted permutation of the input is
that result, the result is the same for every permutation of the input, and the
aliases cfg-1, AVD-001, ABC, longname come out as AVD-001, ABC, cfg-1, longname. -/
theorem C15_sortAliases_sorted (xs : List String) :
    (sortAliases xs).Perm xs ∧ (sortAliases xs).Sorted aliasLe ∧
      (∀ a b, aliasLe a b ∨ aliasLe b a) ∧
      (∀ a b, aliasLe a b → aliasLe b a → a = b) ∧
      (∀ ys : List String, ys.Perm xs → ys.Sorted aliasLe → ys = sortAliases xs) ∧
      (∀ ys : List String, ys.Perm xs → sortAliases ys = sortAliases xs) ∧
      sortAliases ["cfg-1", "AVD-001", "ABC", "longname"] =
        ["AVD-001", "ABC", "cfg-1", "longname"] := by
  have hperm : ∀ zs : List String, (sortAliases zs).Perm zs := fun zs => by
    rw [sortAliases_eq]; exact List.perm_insertionSort aliasLe zs
  have hsorted : ∀ zs : List String, (sortAliases zs).Sorted aliasLe := fun zs => by
    rw [sortAliases_eq]; exact List.sorted_insertionSort aliasLe zs
  refine ⟨hperm xs, hsorted xs, aliasLe_total, aliasLe_antisymm, ?_, ?_, ?_⟩
  · intro ys hp hs
    exact List.eq_of_perm_of_sorted (hp.trans (hperm xs).symm) hs (hsorted xs)
  · intro ys hp
    exact List.eq_of_perm_of_sorted ((hperm ys).trans (hp.trans (hperm xs).symm))
      (hsorted ys) (hsorted xs)
  · decide

/-- C15 at the aliases of the specification given in another order: the sorted
slice is the same. -/
theorem C15_sortAliases_sorted_witness :
    ["longname", "ABC", "cfg-1", "AVD-001"].Perm ["cfg-1", "AVD-001", "ABC", "longname"] ∧
      sortAliases ["longname", "ABC", "cfg-1", "AVD-001"] =
        sortAliases ["cfg-1", "AVD-001", "ABC", "longname"] :=
  ⟨by decide,
    (C15_sortAliases_sorted ["cfg-1", "AVD-001", "ABC", "longname"]).2.2.2.2.2.1
      ["longname", "ABC", "cfg-1", "AVD-001"] (by decide)⟩

/-! ## Claims on typed extraction and flattening -/

/-- C19: for a concrete type V, GetFromMap returns found exactly when the key is
present and the stored value has dynamic type V, and then returns the stored value;
otherwise it returns the zero value of V and not found.  A stored value of another
type is never converted, and the function takes the Mapping as a value it does not
return, so the Mapping is as before. -/
theorem C19_GetFromMap_typed (V : GoType) (om : OrderedMap) (key : String) :
    ((GetFromMap V om key).2 = true ↔
        ∃ v, mapGet om.data key = some v ∧ v.goType = some V) ∧
      (∀ v, mapGet om.data key = some v → v.goType = some V →
        GetFromMap V om key = (v, true)) ∧
      ((∀ v, mapGet om.data key = some v → v.goType ≠ some V) →
        GetFromMap V om key = (zeroValue V, false)) := by
  unfold GetFromMap OrderedMap.Get
  cases hg : mapGet om.data key with
  | none => simp
  | some raw =>
    by_cases ht : raw.goType = some V
    · simp [ht]
    · simp [ht]

/-- C19 at the mapping with keys a, b, c: b holds a string, so it is found as a
string and not found as an int. -/
theorem C19_GetFromMap_typed_witness :
    GetFromMap GoType.str sampleMap "b" = (Value.str "x", true) ∧
      GetFromMap GoType.int sampleMap "b" = (Value.int 0, false) :=
  ⟨(C19_GetFromMap_typed GoType.str sampleMap "b").2.1 (Value.str "x") rfl rfl,
    (C19_GetFromMap_typed GoType.int sampleMap "b").2.2 (by
      intro v hv
      have : v = Value.str "x" := by
        have h2 : mapGet sampleMap.data "b" = some (Value.str "x") := rfl
        rw [h2] at hv
        exact (Option.some.inj hv).symm
      subst this
      decide)⟩

theorem unwrapData_keys (d : List (String × Value)) :
    (unwrapData d).map Prod.fst = mapKeys d := by
  induction d with
  | nil => simp [unwrapData, mapKeys]
  | cons p rest ih =>
    obtain ⟨k, v⟩ := p
    simp only [unwrapData, List.map_cons, mapKeys] at ih ⊢
    rw [ih]

theorem plainGet_unwrapData (d : List (String × Value)) (k : String) :
    plainGet (unwrapData d) k = (mapGet d k).map unwrapValue := by
  induction d with
  | nil => simp [unwrapData, plainGet, mapGet]
  | cons p rest ih =>
    obtain ⟨k1, v1⟩ := p
    by_cases h : k1 = k
    · simp [unwrapData, plainGet, mapGet, h]
    · simp only [unwrapData, plainGet, mapGet, h, if_false]
      exact ih

/-- C18 (the code at the failing input): on the Mapping whose key rules holds a
list of two Mappings, Unwrap returns one entry, rules, whose value is the list as it
was; the two ordered Mappings in it are not flattened, so an ordered Mapping remains
in the result. -/
theorem C18_Unwrap_keeps_maps_in_lists :
    Inv listOfMapsMap ∧
      listOfMapsMap.Unwrap =
        [("rules", Plain.val (Value.seq
          [Value.omap (OrderedMap.mk ["id"] [("id", Value.str "a")]),
           Value.omap (OrderedMap.mk ["id"] [("id", Value.str "b")])]))] ∧
      hasOrderedEntries listOfMapsMap.Unwrap = true :=
  ⟨by decide, rfl, by decide⟩

/-- What Unwrap does do: the result has the key set of the association, a value that
is itself a Mapping is replaced by its own Unwrap, and every other value is carried
over as it is. -/
theorem Unwrap_entries (m : OrderedMap) (k : String) :
    m.Unwrap.map Prod.fst = mapKeys m.data ∧
      plainGet m.Unwrap k = (mapGet m.data k).map unwrapValue := by
  cases m with
  | mk keys data =>
    simp only [OrderedMap.Unwrap, OrderedMap.data_mk]
    exact ⟨unwrapData_keys data, plainGet_unwrapData data k⟩

/-! ## Claims on pruning -/

/-- C16 (the code at the failing input): on the Mapping with the keys
related_resources, aliases, title, of which the first two hold an empty list,
pruneEmptyValues returns with the key aliases still present and still holding the
empty list: after related_resources is removed, aliases has moved to the index the
loop has just left, and the loop goes on with the next index. -/
theorem C16_prune_skips_after_removal :
    Inv twoEmptyMap ∧
      (pruneEmptyValues 1 twoEmptyMap).map OrderedMap.keys = some ["aliases", "title"] ∧
      (pruneEmptyValues 1 twoEmptyMap).map (fun m => m.Get "aliases") =
        some (Value.seq [], true) :=
  ⟨by decide, by decide, rfl⟩

theorem dataDepth_mapIndex (d : List (String × Value)) (k : String) :
    (mapIndex d k).depth ≤ dataDepth d := by
  induction d with
  | nil => simp [mapIndex, mapGet, Value.depth, dataDepth]
  | cons p rest ih =>
    obtain ⟨k1, v1⟩ := p
    by_cases h : k1 = k
    · simp only [mapIndex, mapGet, h, if_true, Option.getD_some, dataDepth]
      exact Nat.le_max_left _ _
    · simp only [mapIndex, mapGet, h, if_false, dataDepth] at ih ⊢
      exact Nat.le_trans ih (Nat.le_max_right _ _)

theorem dataDepth_mapDelete (d : List (String × Value)) (k : String) :
    dataDepth (mapDelete d k) ≤ dataDepth d := by
  induction d with
  | nil => simp [mapDelete, dataDepth]
  | cons p rest ih =>
    obtain ⟨k1, v1⟩ := p
    unfold mapDelete at ih ⊢
    rw [List.filter_cons]
    split
    · simp only [dataDepth]
      exact max_le_max (Nat.le_refl _) ih
    · simp only [dataDepth]
      exact Nat.le_trans ih (Nat.le_max_right _ _)

theorem dataDepth_mapSet (d : List (String × Value)) (k : String) (v : Value) (n : Nat)
    (hd : dataDepth d ≤ n) (hv : v.depth ≤ n) : dataDepth (mapSet d k v) ≤ n := by
  induction d with
  | nil =>
    simp only [mapSet, dataDepth]
    exact max_le hv (Nat.zero_le _)
  | cons p rest ih =>
    obtain ⟨k1, v1⟩ := p
    simp only [dataDepth] at hd
    have h1 : v1.depth ≤ n := Nat.le_trans (Nat.le_max_left _ _) hd
    have h2 : dataDepth rest ≤ n := Nat.le_trans (Nat.le_max_right _ _) hd
    unfold mapSet
    split
    · simp only [dataDepth]
      exact max_le hv h2
    · simp only [dataDepth]
      exact max_le h1 (ih h2)

theorem depth_mk (keys : List String) (data : List (String × Value)) :
    (OrderedMap.mk keys data).depth = dataDepth data + 1 := by
  simp [OrderedMap.depth]

theorem pruneBody_returns (rec : OrderedMap → Option OrderedMap) (n : Nat)
    (hrec : ∀ m : OrderedMap, m.depth ≤ n → ∃ r, rec m = some r ∧ r.depth ≤ m.depth)
    (st : PruneState) (k : String) (hst : dataDepth st.data ≤ n) :
    ∃ st2, pruneBody rec st k = some st2 ∧ dataDepth st2.data ≤ n := by
  have hidx := dataDepth_mapIndex st.data k
  unfold pruneBody
  cases hv : mapIndex st.data k with
  | null => exact ⟨_, rfl, Nat.le_trans (dataDepth_mapDelete _ _) hst⟩
  | seq xs =>
    cases xs with
    | nil => exact ⟨_, rfl, Nat.le_trans (dataDepth_mapDelete _ _) hst⟩
    | cons x rest => exact ⟨_, rfl, hst⟩
  | omap vv =>
    rw [hv] at hidx
    simp only [Value.depth] at hidx
    obtain ⟨r, hr, hle⟩ := hrec vv (Nat.le_trans hidx hst)
    simp only [hr]
    refine ⟨_, rfl, dataDepth_mapSet _ _ _ n hst ?_⟩
    simp only [Value.depth]
    exact Nat.le_trans hle (Nat.le_trans hidx hst)
  | strs xs => exact ⟨_, rfl, hst⟩
  | str s => exact ⟨_, rfl, hst⟩
  | int i => exact ⟨_, rfl, hst⟩
  | int64 i => exact ⟨_, rfl, hst⟩
  | int32 i => exact ⟨_, rfl, hst⟩
  | float64 b => exact ⟨_, rfl, hst⟩
  | float32 b => exact ⟨_, rfl, hst⟩
  | bool b => exact ⟨_, rfl, hst⟩
  | other t => exact ⟨_, rfl, hst⟩

theorem pruneLoop_returns (rec : OrderedMap → Option OrderedMap) (n : Nat)
    (hrec : ∀ m : OrderedMap, m.depth ≤ n → ∃ r, rec m = some r ∧ r.depth ≤ m.depth)
    (count i : Nat) (st : PruneState) (hst : dataDepth st.data ≤ n) :
    ∃ st2, pruneLoop rec count i st = some st2 ∧ dataDepth st2.data ≤ n := by
  induction count generalizing i st with
  | zero => exact ⟨st, rfl, hst⟩
  | succ c ih =>
    obtain ⟨st1, h1, hle1⟩ := pruneBody_returns rec n hrec st (st.slice.arr.getD i "") hst
    obtain ⟨st2, h2, hle2⟩ := ih (i + 1) st1 hle1
    refine ⟨st2, ?_, hle2⟩
    simp only [pruneLoop, h1]
    exact h2

/-- The call of pruneEmptyValues returns: with fuel at least the nesting depth of the
Mapping it yields a Mapping, whose nesting depth is not larger. -/
theorem pruneEmptyValues_returns (fuel : Nat) (m : OrderedMap) (h : m.depth ≤ fuel) :
    ∃ r, pruneEmptyValues fuel m = some r ∧ r.depth ≤ m.depth := by
  induction fuel generalizing m with
  | zero =>
    cases m with
    | mk keys data =>
      rw [depth_mk] at h
      omega
  | succ f ih =>
    cases m with
    | mk keys data =>
      rw [depth_mk] at h
      have hrec : ∀ m2 : OrderedMap, m2.depth ≤ dataDepth data →
          ∃ r, pruneEmptyValues f m2 = some r ∧ r.depth ≤ m2.depth :=
        fun m2 h2 => ih m2 (by omega)
      obtain ⟨st, hst, hle⟩ := pruneLoop_returns (pruneEmptyValues f) (dataDepth data) hrec
        keys.length 0 { slice := { arr := keys, len := keys.length }, data := data }
        (Nat.le_refl _)
      refine ⟨OrderedMap.mk st.slice.keys st.data, ?_, ?_⟩
      · simp only [pruneEmptyValues, OrderedMap.keys_mk, OrderedMap.data_mk, hst]
      · rw [depth_mk, depth_mk]
        omega

/-! ## Claims on the identifier migration -/

theorem Get_MoveAfter (m : OrderedMap) (afterKey key k : String) :
    (m.MoveAfter afterKey key).Get k = m.Get k := by
  unfold OrderedMap.MoveAfter
  by_cases h : (m.Get key).2 = true
  · rw [if_pos h]
    exact Get_InsertAfter_same_value m afterKey key h k
  · rw [if_neg h]

theorem Get_Remove_self (m : OrderedMap) (key : String) :
    (m.Remove key).Get key = (Value.null, false) := by
  rw [Get_eq]
  simp [OrderedMap.Remove, mapGet_mapDelete]

theorem Get_Remove_other (m : OrderedMap) (key k : String) (hk : k ≠ key) :
    (m.Remove key).Get k = m.Get k := by
  rw [Get_eq, Get_eq]
  simp [OrderedMap.Remove, mapGet_mapDelete, hk]

theorem Remove_keys (m : OrderedMap) (key : String) :
    (m.Remove key).keys = m.keys.filter (fun k => decide (k ≠ key)) := by
  simp [OrderedMap.Remove, deleteKey_eq_filter]

theorem Set_keys_filter (m : OrderedMap) (key : String) (v : Value) :
    (m.Set key v).keys.filter (fun k => decide (k ≠ key)) =
      m.keys.filter (fun k => decide (k ≠ key)) := by
  unfold OrderedMap.Set
  by_cases h : (m.Get key).2 = true
  · simp [h]
  · have h2 : (m.Get key).2 = false := by simpa using h
    simp [h2, List.filter_append]

theorem MoveAfter_keys_filter (m : OrderedMap) (afterKey key : String) :
    (m.MoveAfter afterKey key).keys.filter (fun k => decide (k ≠ key)) =
      m.keys.filter (fun k => decide (k ≠ key)) := by
  unfold OrderedMap.MoveAfter
  by_cases h : (m.Get key).2 = true
  · rw [if_pos h]
    exact InsertAfter_keys_filter m afterKey key _
  · rw [if_neg h]

theorem Remove_keys_filter (m : OrderedMap) (key : String) :
    (m.Remove key).keys.filter (fun k => decide (k ≠ key)) =
      m.keys.filter (fun k => decide (k ≠ key)) := by
  rw [Remove_keys, List.filter_filter]
  congr 1
  funext k
  simp

theorem filter_keep_congr (keep : String → Bool) (key : String) (l1 l2 : List String)
    (hkeep : ∀ k, keep k = true → k ≠ key)
    (h : l1.filter (fun k => decide (k ≠ key)) = l2.filter (fun k => decide (k ≠ key))) :
    l1.filter keep = l2.filter keep := by
  have e : ∀ l : List String,
      l.filter keep = (l.filter (fun k => decide (k ≠ key))).filter keep := by
    intro l
    rw [List.filter_filter]
    apply List.filter_congr
    intro k _
    cases hk : keep k
    · simp
    · simp [hkeep k hk]
  rw [e l1, e l2, h]

theorem placeAfter_append (a key : String) (l r : List String) (h : a ∉ l) :
    placeAfter a key (l ++ a :: r) = l ++ a :: key :: r := by
  induction l with
  | nil => simp [placeAfter]
  | cons x xs ih =>
    have hx : x ≠ a := fun e => h (by simp [e])
    have hxs : a ∉ xs := fun e => h (by simp [e])
    simp [placeAfter, hx, ih hxs]

theorem MoveAfter_keys_found (m : OrderedMap) (afterKey key : String)
    (h : (m.Get key).2 = true) :
    (m.MoveAfter afterKey key).keys =
      placeAfter afterKey key (m.keys.filter (fun k => decide (k ≠ key))) := by
  unfold OrderedMap.MoveAfter
  rw [if_pos h, InsertAfter_keys, specInsertAfterKeys]

theorem mem_keys_of_found (m : OrderedMap) (h : Inv m) (k : String)
    (hk : (m.Get k).2 = true) : k ∈ m.keys :=
  h.2.2 k ((Get_snd_iff m k).1 hk)

theorem trimPrefix_append (p n : String) : trimPrefix (p ++ n) p = n := by
  unfold trimPrefix
  have h : p.data.isPrefixOf (p ++ n).data = true := by
    rw [String.data_append, List.isPrefixOf_iff_prefix]
    exact List.prefix_append _ _
  rw [if_pos h, String.data_append, List.drop_left]

theorem fillProvider_AVDID (filePath : String) (custom : CustomMetadata) :
    (fillProvider filePath custom).AVDID = custom.AVDID := by
  unfold fillProvider
  split
  · split
    · rfl
    · split <;> rfl
  · rfl

theorem transformAvd2Id_eq (lib : MigrateLib) (filePath : String) (om customMap : OrderedMap)
    (custom : CustomMetadata)
    (hpath : hasSuffix filePath "_test.rego" = false)
    (hcustom : mapGet om.data "custom" = some (Value.omap customMap))
    (hdecode : lib.decode customMap.Unwrap = .ok custom)
    (hne : ¬ (custom.AVDID = "" ∧ custom.ShortCode = "")) :
    transformAvd2Id lib filePath om =
      Res.ok (om.Set "custom"
        (Value.omap (migrateCustom lib (fillProvider filePath custom) customMap))) := by
  have hget : GetFromMap GoType.omap om "custom" = (Value.omap customMap, true) := by
    simp [GetFromMap, OrderedMap.Get, hcustom, Value.goType]
  unfold transformAvd2Id
  rw [hget]
  simp only [hpath, Bool.false_eq_true, if_false, hdecode, hne]

theorem Get_migrateCustom_other (lib : MigrateLib) (custom : CustomMetadata)
    (m : OrderedMap) (k : String) (hk : k ∉ migratedKeys) :
    (migrateCustom lib custom m).Get k = m.Get k := by
  simp only [migratedKeys, List.mem_cons, List.mem_singleton, List.not_mem_nil, or_false,
    not_or] at hk
  obtain ⟨h1, h2, h3, h4, h5⟩ := hk
  unfold migrateCustom
  simp only
  rw [Get_Remove_other _ _ _ h5, Get_Remove_other _ _ _ h4, Get_MoveAfter, Get_MoveAfter,
    Get_Set_other _ _ _ _ h3, Get_Set_other _ _ _ _ h2, Get_Set_other _ _ _ _ h1]

theorem Get_migrateCustom_id (lib : MigrateLib) (custom : CustomMetadata) (m : OrderedMap) :
    (migrateCustom lib custom m).Get "id" =
      (Value.str (trimPrefix custom.AVDID "AVD-"), true) := by
  unfold migrateCustom
  simp only
  rw [Get_Remove_other _ _ _ (by decide), Get_Remove_other _ _ _ (by decide), Get_MoveAfter,
    Get_MoveAfter, Get_Set_other _ _ _ _ (by decide), Get_Set_other _ _ _ _ (by decide),
    Get_Set_self]

theorem Get_migrateCustom_removed (lib : MigrateLib) (custom : CustomMetadata)
    (m : OrderedMap) :
    (migrateCustom lib custom m).Get "avd_id" = (Value.null, false) ∧
      (migrateCustom lib custom m).Get "short_code" = (Value.null, false) := by
  unfold migrateCustom
  simp only
  constructor
  · rw [Get_Remove_other _ _ _ (by decide), Get_Remove_self]
  · rw [Get_Remove_self]

theorem keys_migrateCustom_removed (lib : MigrateLib) (custom : CustomMetadata)
    (m : OrderedMap) :
    "avd_id" ∉ (migrateCustom lib custom m).keys ∧
      "short_code" ∉ (migrateCustom lib custom m).keys := by
  unfold migrateCustom
  simp only
  constructor
  · rw [Remove_keys, Remove_keys]
    simp
  · rw [Remove_keys]
    simp

/-- C17: for a file path that does not end in _test.rego and a Mapping whose custom
section decodes with the legacy identifier AVD- followed by n, transformAvd2Id
returns, and in the custom Mapping it stores id is the string n and neither avd_id
nor short_code is a key. -/
theorem C17_migrate_sets_id (lib : MigrateLib) (filePath : String)
    (om customMap : OrderedMap) (custom : CustomMetadata) (n : String)
    (hpath : hasSuffix filePath "_test.rego" = false)
    (hcustom : mapGet om.data "custom" = some (Value.omap customMap))
    (hdecode : lib.decode customMap.Unwrap = .ok custom)
    (havd : custom.AVDID = "AVD-" ++ n) :
    ∃ cm, transformAvd2Id lib filePath om = Res.ok (om.Set "custom" (Value.omap cm)) ∧
      (om.Set "custom" (Value.omap cm)).Get "custom" = (Value.omap cm, true) ∧
      cm.Get "id" = (Value.str n, true) ∧
      cm.Get "avd_id" = (Value.null, false) ∧ cm.Get "short_code" = (Value.null, false) ∧
      "avd_id" ∉ cm.keys ∧ "short_code" ∉ cm.keys := by
  have hne : ¬ (custom.AVDID = "" ∧ custom.ShortCode = "") := by
    rintro ⟨h, _⟩
    rw [havd] at h
    have h2 := congrArg String.data h
    rw [String.data_append] at h2
    cases h2
  refine ⟨migrateCustom lib (fillProvider filePath custom) customMap,
    transformAvd2Id_eq lib filePath om customMap custom hpath hcustom hdecode hne,
    Get_Set_self _ _ _, ?_, (Get_migrateCustom_removed _ _ _).1,
    (Get_migrateCustom_removed _ _ _).2, (keys_migrateCustom_removed _ _ _).1,
    (keys_migrateCustom_removed _ _ _).2⟩
  rw [Get_migrateCustom_id, fillProvider_AVDID, havd, trimPrefix_append]

/-- C17 at the legacy Mapping whose custom section holds avd_id AVD-AWS-0001, with
the stand-in decoder: the custom Mapping gets id AWS-0001. -/
theorem C17_migrate_sets_id_witness :
    ∃ cm, transformAvd2Id demoMigrateLib "checks/cloud/aws/s3/public.rego" legacyMap =
        Res.ok (legacyMap.Set "custom" (Value.omap cm)) ∧
      (legacyMap.Set "custom" (Value.omap cm)).Get "custom" = (Value.omap cm, true) ∧
      cm.Get "id" = (Value.str "AWS-0001", true) ∧
      cm.Get "avd_id" = (Value.null, false) ∧ cm.Get "short_code" = (Value.null, false) ∧
      "avd_id" ∉ cm.keys ∧ "short_code" ∉ cm.keys :=
  C17_migrate_sets_id demoMigrateLib "checks/cloud/aws/s3/public.rego" legacyMap
    legacyCustom
    { Libarary := false, ID := "", AVDID := "AVD-AWS-0001", Provider := "", Service := "",
      ShortCode := "no-public-access", Aliases := [] }
    "AWS-0001" (by decide) rfl rfl (by decide)

theorem Inv_migrateCustom (lib : MigrateLib) (custom : CustomMetadata) (m : OrderedMap)
    (h : Inv m) : Inv (migrateCustom lib custom m) := by
  unfold migrateCustom
  simp only
  exact Inv_Remove _ _ (Inv_Remove _ _ (Inv_MoveAfter _ _ _ (Inv_MoveAfter _ _ _
    (Inv_Set _ _ _ (Inv_Set _ _ _ (Inv_Set _ _ _ h))))))

theorem filter_around_three (p : String → Bool) (pre post : List String) (a b c : String)
    (ha : p a = true) (hb : p b = true) (hc : p c = true) :
    (pre ++ a :: b :: c :: post).filter p =
      pre.filter p ++ a :: b :: c :: post.filter p := by
  simp [List.filter_append, List.filter_cons, ha, hb, hc]

theorem keys_migrateCustom_consecutive (lib : MigrateLib) (custom : CustomMetadata)
    (m : OrderedMap) (h : Inv m) :
    ∃ pre post,
      (migrateCustom lib custom m).keys = pre ++ "id" :: "long_id" :: "aliases" :: post := by
  unfold migrateCustom
  simp only
  generalize hm3 : ((m.Set "id" (Value.str (trimPrefix custom.AVDID "AVD-"))).Set "long_id"
    (Value.str (buildLongID custom))).Set "aliases"
    (Value.strs (rebuildAliases lib custom (trimPrefix custom.AVDID "AVD-"))) = m3
  have hinv3 : Inv m3 := by
    rw [← hm3]
    exact Inv_Set _ _ _ (Inv_Set _ _ _ (Inv_Set _ _ _ h))
  have hid : (m3.Get "id").2 = true := by
    rw [← hm3, Get_Set_other _ _ _ _ (by decide), Get_Set_other _ _ _ _ (by decide),
      Get_Set_self]
  have hlong : (m3.Get "long_id").2 = true := by
    rw [← hm3, Get_Set_other _ _ _ _ (by decide), Get_Set_self]
  have hal : (m3.Get "aliases").2 = true := by
    rw [← hm3, Get_Set_self]
  -- long_id is put right after id
  have hidmem : "id" ∈ m3.keys.filter (fun k => decide (k ≠ "long_id")) :=
    List.mem_filter.2 ⟨mem_keys_of_found m3 hinv3 "id" hid, by decide⟩
  obtain ⟨pre, post, _, _, hk4⟩ := placeAfter_of_mem "id" "long_id" _ hidmem
  have hkeys4 : (m3.MoveAfter "id" "long_id").keys = pre ++ "id" :: "long_id" :: post := by
    rw [MoveAfter_keys_found m3 "id" "long_id" hlong, hk4]
  have hinv4 : Inv (m3.MoveAfter "id" "long_id") := Inv_MoveAfter _ _ _ hinv3
  have hnd4 : (pre ++ "id" :: "long_id" :: post).Nodup := hkeys4 ▸ hinv4.1
  have hlongpre : "long_id" ∉ pre := by
    intro hmem
    have := (List.nodup_append.1 hnd4).2.2 hmem (by simp)
    exact this
  have hal4 : ((m3.MoveAfter "id" "long_id").Get "aliases").2 = true := by
    rw [Get_MoveAfter]
    exact hal
  -- aliases is put right after long_id
  have hkeys5 : ((m3.MoveAfter "id" "long_id").MoveAfter "long_id" "aliases").keys =
      (pre.filter (fun k => decide (k ≠ "aliases")) ++ ["id"]) ++
        "long_id" :: "aliases" :: post.filter (fun k => decide (k ≠ "aliases")) := by
    rw [MoveAfter_keys_found _ "long_id" "aliases" hal4, hkeys4]
    have e : (pre ++ "id" :: "long_id" :: post).filter (fun k => decide (k ≠ "aliases")) =
        (pre.filter (fun k => decide (k ≠ "aliases")) ++ ["id"]) ++
          "long_id" :: post.filter (fun k => decide (k ≠ "aliases")) := by
      simp [List.filter_append, List.filter_cons]
    rw [e]
    apply placeAfter_append
    intro hmem
    rcases List.mem_append.1 hmem with h1 | h1
    · exact hlongpre (List.mem_filter.1 h1).1
    · simp at h1
  rw [Remove_keys, Remove_keys, hkeys5]
  refine ⟨((pre.filter (fun k => decide (k ≠ "aliases"))).filter
      (fun k => decide (k ≠ "avd_id"))).filter (fun k => decide (k ≠ "short_code")),
    ((post.filter (fun k => decide (k ≠ "aliases"))).filter
      (fun k => decide (k ≠ "avd_id"))).filter (fun k => decide (k ≠ "short_code")), ?_⟩
  rw [List.append_assoc, List.singleton_append,
    filter_around_three _ _ _ "id" "long_id" "aliases" (by decide) (by decide) (by decide),
    filter_around_three _ _ _ "id" "long_id" "aliases" (by decide) (by decide) (by decide)]

theorem keys_migrateCustom_others (lib : MigrateLib) (custom : CustomMetadata)
    (m : OrderedMap) :
    (migrateCustom lib custom m).keys.filter (fun k => decide (k ∉ migratedKeys)) =
      m.keys.filter (fun k => decide (k ∉ migratedKeys)) := by
  have hkeep : ∀ key, key ∈ migratedKeys →
      ∀ k, (fun k => decide (k ∉ migratedKeys)) k = true → k ≠ key := by
    intro key hkey k hk e
    simp only [decide_eq_true_eq] at hk
    exact hk (e ▸ hkey)
  unfold migrateCustom
  simp only
  refine (filter_keep_congr _ "short_code" _ _ (hkeep _ (by decide))
    (Remove_keys_filter _ _)).trans ?_
  refine (filter_keep_congr _ "avd_id" _ _ (hkeep _ (by decide))
    (Remove_keys_filter _ _)).trans ?_
  refine (filter_keep_congr _ "aliases" _ _ (hkeep _ (by decide))
    (MoveAfter_keys_filter _ _ _)).trans ?_
  refine (filter_keep_congr _ "long_id" _ _ (hkeep _ (by decide))
    (MoveAfter_keys_filter _ _ _)).trans ?_
  refine (filter_keep_congr _ "aliases" _ _ (hkeep _ (by decide))
    (Set_keys_filter _ _ _)).trans ?_
  refine (filter_keep_congr _ "long_id" _ _ (hkeep _ (by decide))
    (Set_keys_filter _ _ _)).trans ?_
  exact filter_keep_congr _ "id" _ _ (hkeep _ (by decide)) (Set_keys_filter _ _ _)

/-- C20: for a file path that does not end in _test.rego and a Mapping whose custom
section satisfies the invariant and decodes with a non-empty avd_id or short_code,
transformAvd2Id returns, and in the custom Mapping it stores the keys id, long_id
and aliases stand next to each other in that order, each occurs once, and the keys
other than id, long_id, aliases, avd_id and short_code keep their relative order and
their values. -/
theorem C20_migrate_key_order (lib : MigrateLib) (filePath : String)
    (om customMap : OrderedMap) (custom : CustomMetadata)
    (hpath : hasSuffix filePath "_test.rego" = false)
    (hcustom : mapGet om.data "custom" = some (Value.omap customMap))
    (hinv : Inv customMap)
    (hdecode : lib.decode customMap.Unwrap = .ok custom)
    (hne : custom.AVDID ≠ "" ∨ custom.ShortCode ≠ "") :
    ∃ cm, transformAvd2Id lib filePath om = Res.ok (om.Set "custom" (Value.omap cm)) ∧
      (∃ pre post, cm.keys = pre ++ "id" :: "long_id" :: "aliases" :: post) ∧
      cm.keys.count "id" = 1 ∧ cm.keys.count "long_id" = 1 ∧
      cm.keys.count "aliases" = 1 ∧
      cm.keys.filter (fun k => decide (k ∉ migratedKeys)) =
        customMap.keys.filter (fun k => decide (k ∉ migratedKeys)) ∧
      (∀ k, k ∉ migratedKeys → cm.Get k = customMap.Get k) := by
  have hne2 : ¬ (custom.AVDID = "" ∧ custom.ShortCode = "") := by
    rintro ⟨h1, h2⟩
    rcases hne with h | h
    · exact h h1
    · exact h h2
  obtain ⟨pre, post, hkeys⟩ :=
    keys_migrateCustom_consecutive lib (fillProvider filePath custom) customMap hinv
  have hnd := (Inv_migrateCustom lib (fillProvider filePath custom) customMap hinv).1
  refine ⟨migrateCustom lib (fillProvider filePath custom) customMap,
    transformAvd2Id_eq lib filePath om customMap custom hpath hcustom hdecode hne2,
    ⟨pre, post, hkeys⟩, ?_, ?_, ?_, keys_migrateCustom_others _ _ _,
    fun k hk => Get_migrateCustom_other _ _ _ k hk⟩
  · exact List.count_eq_one_of_mem hnd (by rw [hkeys]; simp)
  · exact List.count_eq_one_of_mem hnd (by rw [hkeys]; simp)
  · exact List.count_eq_one_of_mem hnd (by rw [hkeys]; simp)

/-- C20 at the legacy Mapping whose custom section has the keys avd_id, severity,
short_code, with the stand-in decoder. -/
theorem C20_migrate_key_order_witness :
    Inv legacyCustom ∧
      ∃ cm, transformAvd2Id demoMigrateLib "checks/cloud/aws/s3/public.rego" legacyMap =
          Res.ok (legacyMap.Set "custom" (Value.omap cm)) ∧
        (∃ pre post, cm.keys = pre ++ "id" :: "long_id" :: "aliases" :: post) ∧
        cm.keys.count "id" = 1 ∧ cm.keys.count "long_id" = 1 ∧
        cm.keys.count "aliases" = 1 ∧
        cm.keys.filter (fun k => decide (k ∉ migratedKeys)) =
          legacyCustom.keys.filter (fun k => decide (k ∉ migratedKeys)) ∧
        (∀ k, k ∉ migratedKeys → cm.Get k = legacyCustom.Get k) :=
  ⟨by decide,
    C20_migrate_key_order demoMigrateLib "checks/cloud/aws/s3/public.rego" legacyMap
      legacyCustom
      { Libarary := false, ID := "", AVDID := "AVD-AWS-0001", Provider := "", Service := "",
        ShortCode := "no-public-access", Aliases := [] }
      (by decide) rfl (by decide) rfl (Or.inl (by decide))⟩

/-! ## Claims on the per-file operation -/

theorem wrapLoop_eq (outBuf : List Char) (ls : List (List Char)) :
    wrapLoop outBuf ls = outBuf ++ ls.flatMap (fun line => wrapLine line ++ ['\n']) := by
  induction ls generalizing outBuf with
  | nil => simp [wrapLoop]
  | cons l rest ih =>
    unfold wrapLoop
    by_cases h : l = []
    · subst h
      simp [ih, wrapLine]
    · have h2 : ¬ l.length = 0 := fun e => h (List.length_eq_zero.1 e)
      rw [if_neg h2, ih]
      simp [wrapLine, h]

theorem bytesSplit_ne_nil (s : List Char) : bytesSplit s ≠ [] := by
  induction s with
  | nil => simp [bytesSplit]
  | cons c cs ih =>
    unfold bytesSplit
    split
    · simp
    · split <;> simp

theorem bytesSplit_cons_of_ne (c : Char) (cs : List Char) (h : c ≠ '\n') :
    bytesSplit (c :: cs) = (c :: (bytesSplit cs).headD []) :: (bytesSplit cs).tail := by
  have hne := bytesSplit_ne_nil cs
  rw [bytesSplit, if_neg h]
  cases hs : bytesSplit cs with
  | nil => exact absurd hs hne
  | cons l ls => rfl

theorem takeWhile_nl_cons (c : Char) (cs : List Char) (h : c ≠ '\n') :
    (c :: cs).takeWhile (fun c => decide (c ≠ '\n')) =
      c :: cs.takeWhile (fun c => decide (c ≠ '\n')) := by
  simp [List.takeWhile_cons, h]

theorem head_bytesSplit (s : List Char) :
    (bytesSplit s).headD [] = s.takeWhile (fun c => decide (c ≠ '\n')) := by
  induction s with
  | nil => rfl
  | cons c cs ih =>
    by_cases h : c = '\n'
    · subst h
      simp [bytesSplit]
    · rw [bytesSplit_cons_of_ne c cs h, takeWhile_nl_cons c cs h, ← ih]
      rfl

theorem mem_bytesSplit (s : List Char) : ∀ l ∈ bytesSplit s, '\n' ∉ l := by
  induction s with
  | nil => simp [bytesSplit]
  | cons c cs ih =>
    by_cases h : c = '\n'
    · subst h
      intro l hl
      simp only [bytesSplit, if_true, List.mem_cons] at hl
      rcases hl with e | e
      · subst e; simp
      · exact ih l e
    · have hne := bytesSplit_ne_nil cs
      rw [bytesSplit_cons_of_ne c cs h]
      intro l hl
      cases hs : bytesSplit cs with
      | nil => exact absurd hs hne
      | cons l0 ls =>
        rw [hs] at hl ih
        simp only [List.headD_cons, List.tail_cons, List.mem_cons] at hl
        rcases hl with e | e
        · subst e
          have := ih l0 (by simp)
          simp only [List.mem_cons, not_or]
          exact ⟨fun e2 => h e2.symm, this⟩
        · exact ih l (by simp [e])

theorem bytesSplit_line (l rest : List Char) (h : '\n' ∉ l) :
    bytesSplit (l ++ '\n' :: rest) = l :: bytesSplit rest := by
  induction l with
  | nil => simp [bytesSplit]
  | cons c cs ih =>
    have hc : c ≠ '\n' := fun e => h (by simp [e])
    have hcs : '\n' ∉ cs := fun e => h (by simp [e])
    rw [List.cons_append, bytesSplit_cons_of_ne c _ hc, ih hcs]
    rfl

theorem bytesSplit_wrapped (ls : List (List Char)) (h : ∀ l ∈ ls, '\n' ∉ l) :
    bytesSplit (ls.flatMap (fun line => wrapLine line ++ ['\n'])) =
      ls.map wrapLine ++ [[]] := by
  induction ls with
  | nil => simp [bytesSplit]
  | cons l rest ih =>
    have hl : '\n' ∉ wrapLine l := by
      have := h l (by simp)
      unfold wrapLine
      split
      · simp
      · simp only [List.mem_cons, not_or]
        exact ⟨by decide, by decide, this⟩
    rw [List.flatMap_cons, List.append_assoc, List.singleton_append, bytesSplit_line _ _ hl,
      ih (fun l2 hl2 => h l2 (by simp [hl2]))]
    rfl

theorem trimHash_wrapLine (l : List Char) :
    trimHash (wrapLine l) = if l = [] then [] else ' ' :: l := by
  unfold wrapLine
  split <;> rfl

theorem count_newline_wrapped (ls : List (List Char)) (h : ∀ l ∈ ls, '\n' ∉ l) :
    (ls.flatMap (fun line => wrapLine line ++ ['\n'])).count '\n' = ls.length := by
  induction ls with
  | nil => simp
  | cons l rest ih =>
    have hl : (wrapLine l).count '\n' = 0 := by
      rw [List.count_eq_zero]
      have := h l (by simp)
      unfold wrapLine
      split
      · simp
      · simp only [List.mem_cons, not_or]
        exact ⟨by decide, by decide, this⟩
    rw [List.flatMap_cons, List.count_append, List.count_append, hl,
      ih (fun l2 hl2 => h l2 (by simp [hl2]))]
    simp
    omega

theorem findFrom_spec (s : List Char) (atLineStart : Bool) (i p : Nat)
    (h : findFrom s atLineStart i = some p) :
    ∃ j, p = i + j ∧ j ≤ s.length ∧ matchHere (s.drop j) = true ∧
      (j = 0 → atLineStart = true) ∧ (0 < j → (s.take j).getLast? = some '\n') := by
  induction s generalizing atLineStart i with
  | nil => simp [findFrom] at h
  | cons c cs ih =>
    unfold findFrom at h
    by_cases hm : (atLineStart && matchHere (c :: cs)) = true
    · rw [if_pos hm] at h
      simp only [Bool.and_eq_true] at hm
      refine ⟨0, by simpa using (Option.some.inj h).symm, by simp, by simpa using hm.2,
        fun _ => hm.1, fun hj => absurd hj (by simp)⟩
    · rw [if_neg hm] at h
      obtain ⟨j, hp, hj, hmatch, h0, hpos⟩ := ih _ _ h
      refine ⟨j + 1, by omega, by simp; omega, by simpa using hmatch, by simp, fun _ => ?_⟩
      rw [List.take_succ_cons]
      rcases Nat.eq_zero_or_pos j with hz | hz
      · subst hz
        have hc := h0 rfl
        simp only [beq_iff_eq] at hc
        simp [hc]
      · have hlast := hpos hz
        cases htk : cs.take j with
        | nil => rw [htk] at hlast; simp at hlast
        | cons x xs =>
          rw [htk] at hlast
          rw [List.getLast?_cons_cons]
          exact hlast

theorem matchHere_hash (rest : List Char) : matchHere ('#' :: rest) = false := by
  simp [matchHere, isSpaceByte, List.dropWhile, List.isPrefixOf]

theorem findPackage_newline (data : List Char) (p : Nat)
    (hmeta : "# METADATA".data.isPrefixOf data = true)
    (hfind : findPackage data = some p) :
    p ≤ data.length ∧ (data.take p).getLast? = some '\n' := by
  obtain ⟨j, hp, hj, hmatch, h0, hpos⟩ := findFrom_spec data true 0 p hfind
  have hpj : p = j := by omega
  subst hpj
  have hdata : ∃ rest, data = '#' :: rest := by
    cases data with
    | nil => simp [List.isPrefixOf] at hmeta
    | cons c cs =>
      have hc : c = '#' := by
        have h2 : ("# METADATA".data.isPrefixOf (c :: cs)) = true := hmeta
        simp only [List.isPrefixOf, Bool.and_eq_true, beq_iff_eq] at h2
        exact h2.1.symm
      exact ⟨cs, by rw [hc]⟩
  obtain ⟨rest, rfl⟩ := hdata
  have hne : p ≠ 0 := by
    intro e
    subst e
    rw [List.drop_zero, matchHere_hash] at hmatch
    cases hmatch
  exact ⟨hj, hpos (Nat.pos_of_ne_zero hne)⟩

theorem takeWhile_append_of_mem (l r : List Char) (h : '\n' ∈ l) :
    (l ++ r).takeWhile (fun c => decide (c ≠ '\n')) =
      l.takeWhile (fun c => decide (c ≠ '\n')) := by
  induction l with
  | nil => simp at h
  | cons c cs ih =>
    by_cases hc : c = '\n'
    · subst hc
      simp [List.takeWhile_cons]
    · have hcs : '\n' ∈ cs := by
        rcases List.mem_cons.1 h with e | e
        · exact absurd e.symm hc
        · exact e
      rw [List.cons_append, takeWhile_nl_cons c _ hc, takeWhile_nl_cons c _ hc, ih hcs]

theorem split_at_first_newline (l : List Char) (h : '\n' ∈ l) :
    l = l.takeWhile (fun c => decide (c ≠ '\n')) ++
      '\n' :: l.drop ((l.takeWhile (fun c => decide (c ≠ '\n'))).length + 1) := by
  induction l with
  | nil => simp at h
  | cons c cs ih =>
    by_cases hc : c = '\n'
    · subst hc
      simp [List.takeWhile_cons]
    · have hcs : '\n' ∈ cs := by
        rcases List.mem_cons.1 h with e | e
        · exact absurd e.symm hc
        · exact e
      rw [takeWhile_nl_cons c _ hc, List.length_cons, List.drop_succ_cons,
        List.cons_append, ← ih hcs]

theorem head_of_processed (data : List Char) (p : Nat)
    (hmeta : "# METADATA".data.isPrefixOf data = true)
    (hfind : findPackage data = some p) :
    (bytesSplit (data.take p)).headD [] = firstLine data ∧
      data.take p = firstLine data ++
        '\n' :: (data.take p).drop ((firstLine data).length + 1) := by
  obtain ⟨_, hlast⟩ := findPackage_newline data p hmeta hfind
  have hmem : '\n' ∈ data.take p := List.mem_of_getLast?_eq_some hlast
  have hfl : (data.take p).takeWhile (fun c => decide (c ≠ '\n')) = firstLine data := by
    unfold firstLine
    conv_rhs => rw [← List.take_append_drop p data]
    exact (takeWhile_append_of_mem _ _ hmem).symm
  constructor
  · rw [head_bytesSplit, hfl]
  · have := split_at_first_newline (data.take p) hmem
    rw [hfl] at this
    exact this

theorem runFile_processed (lib : YamlLib) (tlib : TextLib) (transforms : List Transform)
    (filePath : String) (data : List Char) (p : Nat) (t : List Char)
    (hsuffix : hasSuffix filePath ".rego" = true)
    (hmeta : "# METADATA".data.isPrefixOf data = true)
    (hfind : findPackage data = some p)
    (htext : canonicalText lib tlib transforms filePath data p = Res.ok t)
    (hne : t ≠ []) :
    runFile lib tlib transforms filePath data =
      Res.ok (some (firstLine data ++ ['\n'] ++ wrapText t ++ data.drop p)) := by
  unfold runFile
  simp only [hsuffix, hmeta, hfind, htext, Bool.not_true, Bool.false_eq_true, if_false]
  have hhead := (head_of_processed data p hmeta hfind).1
  cases hl : t.getLast? with
  | none =>
    rw [List.getLast?_eq_none_iff] at hl
    exact absurd hl hne
  | some last =>
    simp only [hhead, wrapLoop_eq]
    have hdrop : (if last = '\n' then t.dropLast else t) = dropTrailingNewline t := by
      unfold dropTrailingNewline
      rw [hl]
      by_cases e : last = '\n'
      · simp [e]
      · simp [e]
    rw [hdrop]
    rfl

theorem marshalYAML_empty (lib : YamlLib) :
    OrderedMap.marshalYAML lib (OrderedMap.mk [] []) =
      Res.ok (Node.mk Kind.MappingNode "!!map" "" []) := by
  have h : marshalKeys lib [] [] = Res.ok [] := by rw [marshalKeys]
  rw [OrderedMap.marshalYAML]
  show (match marshalKeys lib [] [] with
    | Res.ok content => Res.ok (Node.mk Kind.MappingNode "!!map" "" content)
    | Res.err e => Res.err e
    | Res.panic msg => Res.panic msg) = _
  rw [h]

theorem canonicalText_demo (filePath : String) (data : List Char) (p : Nat) :
    canonicalText demoLib demoTextLib [] filePath data p = Res.ok "title: t\n".data := by
  unfold canonicalText yamlUnmarshal
  simp only [demoTextLib, applyTransforms]
  unfold yamlEncode GoOrderedMap.marshalYAML
  rw [show GoOrderedMap.zero.view = OrderedMap.mk [] [] from rfl, marshalYAML_empty]

theorem processed_eq_iff (data : List Char) (p : Nat) (w : List Char)
    (hmeta : "# METADATA".data.isPrefixOf data = true)
    (hfind : findPackage data = some p) :
    firstLine data ++ ['\n'] ++ w ++ data.drop p = data ↔
      w = (data.take p).drop ((firstLine data).length + 1) := by
  have hsplit := (head_of_processed data p hmeta hfind).2
  have hdata : data = firstLine data ++ ['\n'] ++
      (data.take p).drop ((firstLine data).length + 1) ++ data.drop p := by
    conv_lhs => rw [← List.take_append_drop p data, hsplit]
    simp
  constructor
  · intro h
    have h2 := h.trans hdata
    rw [List.append_cancel_right_eq] at h2
    exact List.append_cancel_left h2
  · intro h
    rw [h]
    exact hdata.symm

theorem wrapText_head (t : List Char) :
    ∃ rest, wrapText t = '#' :: '\n' :: rest ∨ wrapText t = '#' :: ' ' :: rest := by
  unfold wrapText
  cases hs : bytesSplit (dropTrailingNewline t) with
  | nil => exact absurd hs (bytesSplit_ne_nil _)
  | cons l ls =>
    rw [List.flatMap_cons]
    by_cases hl : l = []
    · subst hl
      exact ⟨_, Or.inl rfl⟩
    · refine ⟨l ++ ['\n'] ++ ls.flatMap (fun line => wrapLine line ++ ['\n']), Or.inr ?_⟩
      simp [wrapLine, hl]

/-- C11: for a file that is processed (the name ends in .rego, the content begins
with the header marker, the declaration pattern matches at offset p) and any
transform list for which the codec produces the non-empty canonical text t, the
bytes written are the first line of the file, a newline, the wrapped lines of t and
the bytes of the file from offset p on; the first line and the newline are the
first bytes of the file in front of offset p. -/
theorem C11_output_layout (lib : YamlLib) (tlib : TextLib) (transforms : List Transform)
    (filePath : String) (data : List Char) (p : Nat) (t : List Char)
    (hsuffix : hasSuffix filePath ".rego" = true)
    (hmeta : "# METADATA".data.isPrefixOf data = true)
    (hfind : findPackage data = some p)
    (htext : canonicalText lib tlib transforms filePath data p = Res.ok t)
    (hne : t ≠ []) :
    runFile lib tlib transforms filePath data =
        Res.ok (some (firstLine data ++ ['\n'] ++ wrapText t ++ data.drop p)) ∧
      data.take p = firstLine data ++
        '\n' :: (data.take p).drop ((firstLine data).length + 1) ∧
      '\n' ∉ firstLine data :=
  ⟨runFile_processed lib tlib transforms filePath data p t hsuffix hmeta hfind htext hne,
    (head_of_processed data p hmeta hfind).2, by
      unfold firstLine
      intro h
      have := List.mem_takeWhile_imp h
      simp at this⟩

/-- C11 at a file with one metadata line, a blank line and a package declaration at
offset 22, with the stand-in text library. -/
theorem C11_output_layout_witness :
    runFile demoLib demoTextLib [] "policy.rego" sampleFile =
        Res.ok (some (firstLine sampleFile ++ ['\n'] ++ wrapText "title: t\n".data ++
          sampleFile.drop 22)) ∧
      sampleFile.take 22 = firstLine sampleFile ++
        '\n' :: (sampleFile.take 22).drop ((firstLine sampleFile).length + 1) ∧
      '\n' ∉ firstLine sampleFile :=
  C11_output_layout demoLib demoTextLib [] "policy.rego" sampleFile 22 "title: t\n".data
    (by decide) (by decide) (by decide) (canonicalText_demo _ _ _) (by decide)

/-- C12 as stated fails: the one line of the canonical text a: 1 is wrapped to the
marker, a space and the line, and stripping the marker from that leaves the line
with a space in front, which is not the line. -/
theorem C12_strip_keeps_space_counterexample :
    (bytesSplit (dropTrailingNewline "a: 1\n".data)).map (fun l => trimHash (wrapLine l)) =
        [" a: 1".data] ∧
      (bytesSplit (dropTrailingNewline "a: 1\n".data)).map (fun l => trimHash (wrapLine l)) ≠
        bytesSplit (dropTrailingNewline "a: 1\n".data) := by
  decide

/-- C12 (amended): for every canonical text x, stripping the comment marker from a
wrapped line gives the empty line for an empty line and the line with one space in
front for any other line; reading the wrapped text back as Run does (split at the
newlines, strip the marker) gives these lines, followed by the empty piece after
the last newline. -/
theorem C12_strip_of_wrap (x : List Char) :
    (∀ l, trimHash (wrapLine l) = if l = [] then [] else ' ' :: l) ∧
      (bytesSplit (wrapText x)).map trimHash =
        (bytesSplit (dropTrailingNewline x)).map (fun l => if l = [] then [] else ' ' :: l)
          ++ [[]] := by
  refine ⟨trimHash_wrapLine, ?_⟩
  unfold wrapText
  rw [bytesSplit_wrapped _ (mem_bytesSplit _), List.map_append, List.map_map]
  congr 1
  apply List.map_congr_left
  intro l _
  exact trimHash_wrapLine l

/-- C13: for every canonical text t, Run's loop over the lines of t without its one
trailing newline appends, for each line, the wrapped line and one newline; a wrapped
line is the bare marker for a line of length zero and the marker, a space and the
line otherwise, and holds no newline, so the output has as many newlines as t has
lines; stripping the marker from the bare marker gives the empty line. -/
theorem C13_wrap_format (t outBuf : List Char) :
    wrapLoop outBuf (bytesSplit (dropTrailingNewline t)) =
        outBuf ++ (bytesSplit (dropTrailingNewline t)).flatMap
          (fun line => wrapLine line ++ ['\n']) ∧
      wrapLine [] = ['#'] ∧
      (∀ line, line ≠ [] → wrapLine line = '#' :: ' ' :: line) ∧
      (∀ line ∈ bytesSplit (dropTrailingNewline t), '\n' ∉ line) ∧
      ((bytesSplit (dropTrailingNewline t)).flatMap
          (fun line => wrapLine line ++ ['\n'])).count '\n' =
        (bytesSplit (dropTrailingNewline t)).length ∧
      trimHash ['#'] = [] ∧
      (t.getLast? = some '\n' → dropTrailingNewline t ++ ['\n'] = t) ∧
      (t.getLast? ≠ some '\n' → dropTrailingNewline t = t) := by
  refine ⟨wrapLoop_eq _ _, rfl, ?_, mem_bytesSplit _, count_newline_wrapped _ (mem_bytesSplit _),
    rfl, ?_, ?_⟩
  · intro line h
    simp [wrapLine, h]
  · intro h
    unfold dropTrailingNewline
    rw [if_pos h]
    obtain ⟨ys, hys⟩ := List.getLast?_eq_some_iff.1 h
    rw [hys, List.dropLast_concat]
  · intro h
    unfold dropTrailingNewline
    rw [if_neg h]

/-- C13 at a text of three lines, the second of length zero: the loop writes the
wrapped first line, the bare marker and the wrapped third line, each with its
newline. -/
theorem C13_wrap_format_witness :
    wrapLoop [] (bytesSplit (dropTrailingNewline "a: 1\n\nb: 2\n".data)) =
        "# a: 1\n#\n# b: 2\n".data ∧
      ("a: 1\n\nb: 2\n".data.getLast? = some '\n' →
        dropTrailingNewline "a: 1\n\nb: 2\n".data ++ ['\n'] = "a: 1\n\nb: 2\n".data) :=
  ⟨by decide, (C13_wrap_format "a: 1\n\nb: 2\n".data []).2.2.2.2.2.2.1⟩

/-- C14 as stated fails: on the file whose metadata line is written without a space
after the comment marker, whatever the libraries do, the operation with an empty
transform list does not write the bytes of the file: every wrapped line begins with
the marker and a space, or is the bare marker. -/
theorem C14_not_identical_counterexample :
    hasSuffix "policy.rego" ".rego" = true ∧
      "# METADATA".data.isPrefixOf tightFile = true ∧
      findPackage tightFile = some 21 ∧
      ∀ (lib : YamlLib) (tlib : TextLib),
        runFile lib tlib [] "policy.rego" tightFile ≠ Res.ok (some tightFile) := by
  refine ⟨by decide, by decide, by decide, ?_⟩
  intro lib tlib hrun
  have hsuffix : hasSuffix "policy.rego" ".rego" = true := by decide
  have hmeta : "# METADATA".data.isPrefixOf tightFile = true := by decide
  have hfind : findPackage tightFile = some 21 := by decide
  cases htext : canonicalText lib tlib [] "policy.rego" tightFile 21 with
  | err e =>
    unfold runFile at hrun
    simp only [hsuffix, hmeta, hfind, htext, Bool.not_true, Bool.false_eq_true,
      if_false] at hrun
    cases hrun
  | panic msg =>
    unfold runFile at hrun
    simp only [hsuffix, hmeta, hfind, htext, Bool.not_true, Bool.false_eq_true,
      if_false] at hrun
    cases hrun
  | ok t =>
    by_cases hne : t = []
    · subst hne
      unfold runFile at hrun
      simp only [hsuffix, hmeta, hfind, htext, Bool.not_true, Bool.false_eq_true,
        if_false, List.getLast?_nil] at hrun
      cases hrun
    · rw [runFile_processed lib tlib [] "policy.rego" tightFile 21 t hsuffix hmeta hfind
        htext hne] at hrun
      have heq : firstLine tightFile ++ ['\n'] ++ wrapText t ++ tightFile.drop 21 =
          tightFile := by
        injection hrun with h1
        exact Option.some.inj h1
      have hw := (processed_eq_iff tightFile 21 (wrapText t) hmeta hfind).1 heq
      have hblock : (tightFile.take 21).drop ((firstLine tightFile).length + 1) =
          "#title: t\n".data := by decide
      rw [hblock] at hw
      obtain ⟨rest, h | h⟩ := wrapText_head t
      · rw [h] at hw
        have h2 := (List.cons.inj (List.cons.inj hw).2).1
        exact absurd h2 (by decide)
      · rw [h] at hw
        have h2 := (List.cons.inj (List.cons.inj hw).2).1
        exact absurd h2 (by decide)

/-- C14 (amended): for a file that is processed with an empty transform list, with
the non-empty canonical text t, the bytes written are the bytes of the file exactly
when the wrapped lines of t are the comment lines of the file between the header
line and the declaration; the header line and the bytes from the declaration on
are reproduced in every case. -/
theorem C14_identical_iff (lib : YamlLib) (tlib : TextLib) (filePath : String)
    (data : List Char) (p : Nat) (t : List Char)
    (hsuffix : hasSuffix filePath ".rego" = true)
    (hmeta : "# METADATA".data.isPrefixOf data = true)
    (hfind : findPackage data = some p)
    (htext : canonicalText lib tlib [] filePath data p = Res.ok t)
    (hne : t ≠ []) :
    ∃ out, runFile lib tlib [] filePath data = Res.ok (some out) ∧
      out = firstLine data ++ ['\n'] ++ wrapText t ++ data.drop p ∧
      (out = data ↔ wrapText t = (data.take p).drop ((firstLine data).length + 1)) := by
  refine ⟨_, runFile_processed lib tlib [] filePath data p t hsuffix hmeta hfind htext hne,
    rfl, processed_eq_iff data p (wrapText t) hmeta hfind⟩

/-- C14 (amended) at a file whose metadata block is in the wrapped form of the text
the stand-in library produces: the bytes written are the bytes of the file. -/
theorem C14_identical_iff_witness :
    runFile demoLib demoTextLib [] "policy.rego" sampleFile = Res.ok (some sampleFile) := by
  obtain ⟨out, hrun, _, hiff⟩ :=
    C14_identical_iff demoLib demoTextLib "policy.rego" sampleFile 22 "title: t\n".data
      (by decide) (by decide) (by decide) (canonicalText_demo _ _ _) (by decide)
  rw [hrun, hiff.2 (by decide)]


end Regoref
